import Mathlib

/-!
CardboardCollective: the breakdown feature (`src/features/breakdown.js`) and the
show board (`src/features/showBoard.js`).

A shallow embedding of the free-text field extractor (`sniffBreak`), the wizard
stepper (`startBreakdownWizard`, `advanceBreakdownWizard`), the calculation
engine (`calculateBreakdown`), the rendering of amounts (`money`), the pruning
of message trails and the two message handlers (`handleMessage`), followed by
the properties proved about them.

Modelling conventions.
* A JavaScript string is a `List Char`; the entry points take a Lean `String`.
* A JavaScript number is a value of `Num`: a finite double, given by its exact
  rational value, an infinity or `NaN`; `null` is `none`.  Parsing and
  arithmetic round to the nearest double (IEEE 754 binary64, ties to even) and
  overflow to an infinity.  The sign of zero is not modelled: no division of
  the source has a divisor that can be a negative zero.
* The regular expressions of the source are terms of `Re`, run by a
  backtracking matcher with the priorities of the JavaScript matcher
  (leftmost start, greedy quantifiers, alternatives left to right).
* A handler is a function from the session store and the incoming message to
  the new store, the outcome and the list of calls made; the answers of the
  chat platform, of the forum and of the clock are arguments.
-/

namespace Breakdown

/-! ## Characters -/

/-- The class `\d`. -/
def isDigit (c : Char) : Bool := decide (48 ≤ c.toNat) && decide (c.toNat ≤ 57)

/-- The class `\w` (no `u`, no `i` flag): `[A-Za-z0-9_]`. -/
def isWord (c : Char) : Bool :=
  (decide (48 ≤ c.toNat) && decide (c.toNat ≤ 57)) ||
  (decide (65 ≤ c.toNat) && decide (c.toNat ≤ 90)) ||
  (decide (97 ≤ c.toNat) && decide (c.toNat ≤ 122)) ||
  decide (c.toNat = 95)

/-- The class `\s`, which is also the set removed by `String.prototype.trim`:
white space and line terminators of ECMAScript. -/
def isSpace (c : Char) : Bool :=
  (decide (9 ≤ c.toNat) && decide (c.toNat ≤ 13)) ||
  decide (c.toNat = 32) || decide (c.toNat = 160) || decide (c.toNat = 5760) ||
  (decide (8192 ≤ c.toNat) && decide (c.toNat ≤ 8202)) ||
  decide (c.toNat = 8232) || decide (c.toNat = 8233) || decide (c.toNat = 8239) ||
  decide (c.toNat = 8287) || decide (c.toNat = 12288) || decide (c.toNat = 65279)

/-- The class `[$,]`. -/
def isCurrency (c : Char) : Bool := decide (c = '$') || decide (c = ',')

/-- The class `[x*]`. -/
def isTimes (c : Char) : Bool := decide (c = 'x') || decide (c = '*')

/-- One character of `String.prototype.toLowerCase`.  The ASCII capitals map to
their small letters; the only other characters whose lower case contains an
ASCII character are the Kelvin sign (U+212A, to `k`) and the dotted capital I
(U+0130, to `i` followed by U+0307).  Every other character is left as it is,
also a capital letter outside ASCII: its lower case is again outside ASCII and
outside `\s`, and no pattern of the source tells such characters apart, so the
extracted record and the `missing` list are those of the source, and only the
field `normalized` can differ from the source, in such letters. -/
def lowerChar (c : Char) : List Char :=
  if 65 ≤ c.toNat ∧ c.toNat ≤ 90 then [Char.ofNat (c.toNat + 32)]
  else if c.toNat = 8490 then ['k']
  else if c.toNat = 304 then ['i', Char.ofNat 775]
  else [c]

/-! ## String operations -/

/-- `s.toLowerCase()`. -/
def toLowerCase (s : List Char) : List Char := s.flatMap lowerChar

/-- `s.trim()`. -/
def trim (s : List Char) : List Char :=
  ((s.dropWhile isSpace).reverse.dropWhile isSpace).reverse

/-- `s.replace(/[$,]/g, " ")`. -/
def stripCurrency (s : List Char) : List Char :=
  s.map (fun c => if isCurrency c then ' ' else c)

/-- Worker of `collapseSpaces`; `inRun` says that the previous character
belonged to the run of white space being replaced. -/
def collapseAux : Bool → List Char → List Char
  | _, [] => []
  | inRun, c :: cs =>
    if isSpace c then
      if inRun then collapseAux true cs else ' ' :: collapseAux true cs
    else c :: collapseAux false cs

/-- `s.replace(/\s+/g, " ")`. -/
def collapseSpaces (s : List Char) : List Char := collapseAux false s

/-- The text the patterns are matched against, for `sniffBreak`
(`input.trim().toLowerCase().replace(/[$,]/g, " ").replace(/\s+/g, " ").trim()`). -/
def normalize (input : List Char) : List Char :=
  trim (collapseSpaces (stripCurrency (toLowerCase (trim input))))

/-- The text the number is read from in `advanceBreakdownWizard`
(`userText.toLowerCase().replace(/[$,]/g, " ").replace(/\s+/g, " ").trim()`). -/
def normalizeAnswer (userText : List Char) : List Char :=
  trim (collapseSpaces (stripCurrency (toLowerCase userText)))

/-! ## Numbers -/

/-- The value of one decimal digit. -/
def digitVal (c : Char) : ℕ := c.toNat - 48

/-- The value of a string of decimal digits. -/
def natOfDigits (ds : List Char) : ℕ := ds.foldl (fun n c => 10 * n + digitVal c) 0

/-- The exact value of a string `s` matched by `\d+(?:\.\d{1,2})?`: the integer
part plus the fraction part over the matching power of ten. -/
def decimalValue (s : List Char) : ℚ :=
  let ip := s.takeWhile (fun c => c != '.')
  let fp := (s.dropWhile (fun c => c != '.')).drop 1
  (natOfDigits ip : ℚ) + (natOfDigits fp : ℚ) / (10 : ℚ) ^ fp.length

/-- A JavaScript number: a finite double, given by its exact value, an infinity
or `NaN`. -/
inductive Num where
  /-- a finite number -/
  | fin (q : ℚ)
  /-- `Infinity` -/
  | posInf
  /-- `-Infinity` -/
  | negInf
  /-- `NaN` -/
  | nan
deriving DecidableEq

instance {n : ℕ} : OfNat Num n := ⟨Num.fin (n : ℚ)⟩

/-- The power `2^k` for an integer `k`. -/
def pow2 (k : ℤ) : ℚ :=
  if 0 ≤ k then ((2 ^ k.toNat : ℕ) : ℚ) else 1 / ((2 ^ (-k).toNat : ℕ) : ℚ)

/-- Worker of `natLog2`; the first argument bounds the number of steps. -/
def natLog2Aux : ℕ → ℕ → ℕ
  | 0, _ => 0
  | fuel + 1, n => if n < 2 then 0 else natLog2Aux fuel (n / 2) + 1

/-- The number `k` with `2^k ≤ n < 2^(k+1)`, for `n > 0`. -/
def natLog2 (n : ℕ) : ℕ := natLog2Aux n n

/-- The integer `e` with `2^e ≤ a < 2^(e+1)`, for `a > 0`. -/
def log2Floor (a : ℚ) : ℤ :=
  let e0 : ℤ := (natLog2 a.num.natAbs : ℤ) - (natLog2 a.den : ℤ)
  if pow2 e0 ≤ a then e0 else e0 - 1

/-- The integer nearest to `y ≥ 0`, the even one of two equally near. -/
def roundHalfEven (y : ℚ) : ℕ :=
  let f := (⌊y⌋).toNat
  let r := y - (f : ℚ)
  if r < 1 / 2 then f
  else if 1 / 2 < r then f + 1
  else if f % 2 = 0 then f else f + 1

/-- The double nearest to the exact value `x` (IEEE 754 binary64, round to
nearest, ties to even): 53 significant bits, `2^(-1074)` as the smallest last
bit, and an infinity when the rounded value reaches `2^1024`. -/
def roundDouble (x : ℚ) : Num :=
  if x = 0 then .fin 0
  else
    let a := |x|
    let q := max (log2Floor a - 52) (-1074)
    let r := (roundHalfEven (a / pow2 q) : ℚ) * pow2 q
    if pow2 1024 ≤ r then (if x < 0 then .negInf else .posInf)
    else .fin (if x < 0 then -r else r)

/-- The comparison `a < b`; a comparison with `NaN` is false. -/
def Num.lt : Num → Num → Bool
  | .fin a, .fin b => decide (a < b)
  | .fin _, .posInf => true
  | .negInf, .fin _ => true
  | .negInf, .posInf => true
  | _, _ => false

/-- The comparison `a <= b`; a comparison with `NaN` is false. -/
def Num.le : Num → Num → Bool
  | .fin a, .fin b => decide (a ≤ b)
  | .fin _, .posInf => true
  | .negInf, .fin _ => true
  | .negInf, .posInf => true
  | .posInf, .posInf => true
  | .negInf, .negInf => true
  | _, _ => false

instance : LT Num := ⟨fun a b => Num.lt a b = true⟩

instance : LE Num := ⟨fun a b => Num.le a b = true⟩

instance (a b : Num) : Decidable (a < b) := inferInstanceAs (Decidable (Num.lt a b = true))

instance (a b : Num) : Decidable (a ≤ b) := inferInstanceAs (Decidable (Num.le a b = true))

/-- The comparison `a === b` of two numbers: `NaN` equals nothing. -/
def Num.strictEq : Num → Num → Bool
  | .nan, _ => false
  | _, .nan => false
  | a, b => decide (a = b)

/-- The sum `a + b`. -/
def Num.add : Num → Num → Num
  | .fin a, .fin b => roundDouble (a + b)
  | .nan, _ => .nan
  | _, .nan => .nan
  | .posInf, .negInf => .nan
  | .negInf, .posInf => .nan
  | .posInf, _ => .posInf
  | .negInf, _ => .negInf
  | .fin _, .posInf => .posInf
  | .fin _, .negInf => .negInf

/-- The difference `a - b`. -/
def Num.sub : Num → Num → Num
  | .fin a, .fin b => roundDouble (a - b)
  | .nan, _ => .nan
  | _, .nan => .nan
  | .posInf, .posInf => .nan
  | .negInf, .negInf => .nan
  | .posInf, _ => .posInf
  | .negInf, _ => .negInf
  | .fin _, .posInf => .negInf
  | .fin _, .negInf => .posInf

/-- An infinity with the sign of `a`, or `NaN` for `a = 0`: the product of an
infinity and the finite number `a`. -/
def Num.infTimes (a : ℚ) (positive : Bool) : Num :=
  if a = 0 then .nan
  else if decide (0 < a) = positive then .posInf else .negInf

/-- The product `a * b`. -/
def Num.mul : Num → Num → Num
  | .fin a, .fin b => roundDouble (a * b)
  | .nan, _ => .nan
  | _, .nan => .nan
  | .fin a, .posInf => Num.infTimes a true
  | .fin a, .negInf => Num.infTimes a false
  | .posInf, .fin b => Num.infTimes b true
  | .negInf, .fin b => Num.infTimes b false
  | .posInf, .posInf => .posInf
  | .negInf, .negInf => .posInf
  | .posInf, .negInf => .negInf
  | .negInf, .posInf => .negInf

/-- The quotient `a / b`.  A divisor zero counts as a positive zero. -/
def Num.div : Num → Num → Num
  | .fin a, .fin b =>
    if b = 0 then (if a = 0 then .nan else if 0 < a then .posInf else .negInf)
    else roundDouble (a / b)
  | .nan, _ => .nan
  | _, .nan => .nan
  | .fin _, .posInf => .fin 0
  | .fin _, .negInf => .fin 0
  | .posInf, .fin b => if b < 0 then .negInf else .posInf
  | .negInf, .fin b => if b < 0 then .posInf else .negInf
  | .posInf, .posInf => .nan
  | .posInf, .negInf => .nan
  | .negInf, .posInf => .nan
  | .negInf, .negInf => .nan

instance : Add Num := ⟨Num.add⟩

instance : Sub Num := ⟨Num.sub⟩

instance : Mul Num := ⟨Num.mul⟩

instance : Div Num := ⟨Num.div⟩

/-- `Number(s)` for a string `s` matched by `\d+(?:\.\d{1,2})?`: the double
nearest to the decimal value, or `Infinity`.  (For a numeral of more than 20
significant digits the standard also allows the double nearest to the numeral
cut after 20 digits; the engines round the whole numeral.) -/
def toNumber (s : List Char) : Num := roundDouble (decimalValue s)

/-- `Number.isInteger(n)`. -/
def isInteger (n : Num) : Bool :=
  match n with
  | .fin q => decide (q.den = 1)
  | _ => false

/-- `Math.trunc(n)`: the integer part, rounding toward zero. -/
def trunc (n : Num) : Num :=
  match n with
  | .fin q => .fin ((q.num.tdiv (q.den : ℤ) : ℤ) : ℚ)
  | x => x

/-- `Number.isFinite(x) ? x : null` for a number or `null`. -/
def finiteOrNull (x : Option Num) : Option Num :=
  match x with
  | some (.fin q) => some (.fin q)
  | _ => none

/-- JavaScript truthiness of a number or `null`: `null`, `0` and `NaN` are
falsy. -/
def truthy (x : Option Num) : Bool :=
  match x with
  | some (.fin q) => decide (q ≠ 0)
  | some .posInf => true
  | some .negInf => true
  | some .nan => false
  | none => false

/-- `a || b` on numbers or `null`. -/
def jsOr (a b : Option Num) : Option Num := if truthy a then a else b

/-! ## Regular expressions -/

/-- The fragment of regular expressions used by the source.  Quantifiers are
only ever applied to a character class there. -/
inductive Re where
  /-- the empty pattern -/
  | eps
  /-- a literal character -/
  | chr (c : Char)
  /-- a character class -/
  | cls (p : Char → Bool)
  /-- the assertion `\b` -/
  | wordB
  /-- concatenation -/
  | seq (a b : Re)
  /-- `a|b` -/
  | alt (a b : Re)
  /-- `(?:a)?`, greedy -/
  | opt (a : Re)
  /-- `p*` for a class `p`, greedy -/
  | star (p : Char → Bool)
  /-- `p{0,n}` for a class `p`, greedy -/
  | upTo (p : Char → Bool) (n : ℕ)
  /-- a capture group `(a)` -/
  | group (a : Re)

/-- The state of the matcher. -/
structure MState where
  /-- the character just before the current position, if any -/
  prev : Option Char
  /-- the input from the current position on -/
  rest : List Char
  /-- the texts of the capture groups closed so far, in order -/
  caps : List (List Char)

/-- Whether the optional character is a word character (`false` at either end
of the input). -/
def isWordAt (c : Option Char) : Bool :=
  match c with
  | some x => isWord x
  | none => false

/-- Greedy `p*` from the position `(prev, s)`: take as many characters as
possible, and give back one at a time while the continuation fails. -/
def starRun {α : Type} (p : Char → Bool) (caps : List (List Char))
    (k : MState → Option α) : Option Char → List Char → Option α
  | prev, [] => k ⟨prev, [], caps⟩
  | prev, c :: cs =>
    if p c then
      match starRun p caps k (some c) cs with
      | some r => some r
      | none => k ⟨prev, c :: cs, caps⟩
    else k ⟨prev, c :: cs, caps⟩

/-- Greedy `p{0,n}` from the position `(prev, s)`. -/
def upToRun {α : Type} (p : Char → Bool) (caps : List (List Char))
    (k : MState → Option α) : ℕ → Option Char → List Char → Option α
  | 0, prev, s => k ⟨prev, s, caps⟩
  | _ + 1, prev, [] => k ⟨prev, [], caps⟩
  | n + 1, prev, c :: cs =>
    if p c then
      match upToRun p caps k n (some c) cs with
      | some r => some r
      | none => k ⟨prev, c :: cs, caps⟩
    else k ⟨prev, c :: cs, caps⟩

/-- The backtracking matcher: `re.run st k` matches `re` at the state `st` and
hands the state reached to the continuation `k`; when `k` fails the next
alternative of `re` is tried, in the priority order of JavaScript. -/
def Re.run {α : Type} : Re → MState → (MState → Option α) → Option α
  | .eps, st, k => k st
  | .chr c, st, k =>
    match st.rest with
    | x :: xs => if x = c then k ⟨some x, xs, st.caps⟩ else none
    | [] => none
  | .cls p, st, k =>
    match st.rest with
    | x :: xs => if p x then k ⟨some x, xs, st.caps⟩ else none
    | [] => none
  | .wordB, st, k =>
    if isWordAt st.prev != isWordAt st.rest.head? then k st else none
  | .seq a b, st, k => a.run st (fun st1 => b.run st1 k)
  | .alt a b, st, k =>
    match a.run st k with
    | some r => some r
    | none => b.run st k
  | .opt a, st, k =>
    match a.run st k with
    | some r => some r
    | none => k st
  | .star p, st, k => starRun p st.caps k st.prev st.rest
  | .upTo p n, st, k => upToRun p st.caps k n st.prev st.rest
  | .group a, st, k =>
    a.run st (fun st1 =>
      k ⟨st1.prev, st1.rest,
        st1.caps ++ [st.rest.take (st.rest.length - st1.rest.length)]⟩)

/-- A successful match: the whole matched text `m[0]` and the groups
`m[1], m[2], ...`. -/
structure Match where
  /-- the matched text, `m[0]` -/
  whole : List Char
  /-- the captured groups, `m[1]` first -/
  groups : List (List Char)

/-- `m[i]` for `i ≥ 1` (the empty string when the group is missing). -/
def Match.group (m : Match) (i : ℕ) : List Char := (m.groups.get? (i - 1)).getD []

/-- One attempt of `re` at the position `(prev, s)`. -/
def Re.matchAt (re : Re) (prev : Option Char) (s : List Char) : Option Match :=
  re.run ⟨prev, s, []⟩ (fun st => some ⟨s.take (s.length - st.rest.length), st.caps⟩)

/-- The leftmost match of `re` at or after the position `(prev, s)`. -/
def Re.execFrom (re : Re) : Option Char → List Char → Option Match
  | prev, [] => re.matchAt prev []
  | prev, c :: cs =>
    match re.matchAt prev (c :: cs) with
    | some m => some m
    | none => re.execFrom (some c) cs

/-- `s.match(re)` for a pattern without the `g` flag. -/
def Re.exec (re : Re) (s : List Char) : Option Match := re.execFrom none s

/-- Worker of `Re.matchAll`: `skip` counts the characters of the last match
that are still to be passed over. -/
def Re.matchAllFrom (re : Re) : ℕ → Option Char → List Char → List (List Char)
  | 0, prev, [] =>
    match re.matchAt prev [] with
    | some m => [m.whole]
    | none => []
  | _ + 1, _, [] => []
  | skip + 1, _, c :: cs => re.matchAllFrom skip (some c) cs
  | 0, prev, c :: cs =>
    match re.matchAt prev (c :: cs) with
    | some m => m.whole :: re.matchAllFrom (m.whole.length - 1) (some c) cs
    | none => re.matchAllFrom 0 (some c) cs

/-- `s.match(re)` for a pattern with the `g` flag: the texts of all matches,
left to right, each search starting where the last match ended. -/
def Re.matchAll (re : Re) (s : List Char) : List (List Char) := re.matchAllFrom 0 none s

/-- `re.test(s)`. -/
def Re.test (re : Re) (s : List Char) : Bool := (re.exec s).isSome

/-- The concatenation of a list of patterns. -/
def Re.cat (rs : List Re) : Re := rs.foldr Re.seq Re.eps

/-- The literal text `s` as a pattern. -/
def Re.lit (s : String) : Re := Re.cat (s.toList.map Re.chr)

/-- The pattern `p+` for a class `p`, greedy. -/
def Re.plus (p : Char → Bool) : Re := .seq (.cls p) (.star p)

/-- The pattern `\d+(?:\.\d{1,2})?` of a number with at most two decimals. -/
def reNumber : Re :=
  .seq (Re.plus isDigit) (.opt (Re.cat [.chr '.', .cls isDigit, .upTo isDigit 1]))

/-- The pattern `/\b(\d+)\s*spots?\b/`. -/
def reSpots : Re :=
  Re.cat [.wordB, .group (Re.plus isDigit), .star isSpace, Re.lit "spot", .opt (.chr 's'), .wordB]

/-- The pattern `/\b(\d+)\s*boxes?\b/`. -/
def reBoxes : Re :=
  Re.cat [.wordB, .group (Re.plus isDigit), .star isSpace, Re.lit "boxe", .opt (.chr 's'), .wordB]

/-- The pattern `/\b(?:at|@)\s*(\d+(?:\.\d{1,2})?)\b/`. -/
def reAt : Re :=
  Re.cat [.wordB, .alt (Re.lit "at") (.chr '@'), .star isSpace, .group reNumber, .wordB]

/-- The pattern `/\b(\d+(?:\.\d{1,2})?)\s*(?:each|ea)\b/`. -/
def reEach : Re :=
  Re.cat [.wordB, .group reNumber, .star isSpace, .alt (Re.lit "each") (Re.lit "ea"), .wordB]

/-- The pattern `/\b(\d+(?:\.\d{1,2})?)\s*(?:a|per)\s*box(?:es)?\b/`. -/
def rePerBox : Re :=
  Re.cat [.wordB, .group reNumber, .star isSpace, .alt (.chr 'a') (Re.lit "per"),
    .star isSpace, Re.lit "box", .opt (Re.lit "es"), .wordB]

/-- The pattern `/\b(\d+)\s*[x*]\s*(\d+(?:\.\d{1,2})?)\b/`. -/
def reTimes : Re :=
  Re.cat [.wordB, .group (Re.plus isDigit), .star isSpace, .cls isTimes, .star isSpace,
    .group reNumber, .wordB]

/-- The pattern `/\b\d+(?:\.\d{1,2})?\b/` (used with and without the `g` flag). -/
def reToken : Re := Re.cat [.wordB, reNumber, .wordB]

/-- The pattern `/\ba\s+box\b/`. -/
def reABox : Re := Re.cat [.wordB, .chr 'a', Re.plus isSpace, Re.lit "box", .wordB]

/-! ## The field extractor -/

/-- The record `{ spots, boxes, costPerBox }`. -/
structure BreakData where
  /-- the number of spots, or `null` -/
  spots : Option Num
  /-- the number of boxes, or `null` -/
  boxes : Option Num
  /-- the price of one box, or `null` -/
  costPerBox : Option Num
deriving DecidableEq

/-- The result `{ data, missing, normalized }` of `sniffBreak`. -/
structure SniffResult where
  /-- the extracted record -/
  data : BreakData
  /-- the labels of the fields still to be asked for -/
  missing : List String
  /-- the normalized text -/
  normalized : List Char
deriving DecidableEq

/-- The helper `pickNum` of `sniffBreak`: `Number(m[1])` of the first match. -/
def pickNum (normalized : List Char) (re : Re) : Option Num :=
  (re.exec normalized).map (fun m => toNumber (m.group 1))

/-- Rule 1, spots: `pickNum(/\b(\d+)\s*spots?\b/)`. -/
def labeledSpots (normalized : List Char) : Option Num := pickNum normalized reSpots

/-- Rule 1, boxes: `pickNum(/\b(\d+)\s*boxes?\b/)`. -/
def labeledBoxes (normalized : List Char) : Option Num := pickNum normalized reBoxes

/-- Rule 2: the price after `at` or `@`, or else before `each` or `ea`. -/
def labeledPrice (normalized : List Char) : Option Num :=
  jsOr (pickNum normalized reAt) (pickNum normalized reEach)

/-- Rules 2 and 3: when rule 2 left the price `null`, the price before
`a box` or `per box`. -/
def priceAfterPerBox (normalized : List Char) : Option Num :=
  match labeledPrice normalized with
  | some p => some p
  | none => (rePerBox.exec normalized).map (fun m => toNumber (m.group 1))

/-- Rule 4: when `boxes` or `price` is still `null`, the pattern `A x B` fills
those of the two that are `null` (`??=`).  The result is the pair
`(boxes, price)`. -/
def afterTimes (normalized : List Char) (boxes price : Option Num) :
    Option Num × Option Num :=
  if boxes.isNone || price.isNone then
    match reTimes.exec normalized with
    | some m =>
      (match boxes with
        | some b => some b
        | none => some (toNumber (m.group 1)),
       match price with
        | some p => some p
        | none => some (toNumber (m.group 2)))
    | none => (boxes, price)
  else (boxes, price)

/-- The numeric tokens of the text: `normalized.match(/\b\d+(?:\.\d{1,2})?\b/g)?.map(Number) || []`. -/
def numericTokens (normalized : List Char) : List Num :=
  (reToken.matchAll normalized).map toNumber

/-- Rule 5: with spots and boxes known and the price still `null`, the price
is taken from the numeric tokens other than the spots and the boxes
(`n !== spots && n !== boxes`): the first one for which `Number.isInteger` is
false, or else the last one. -/
def afterLoose (normalized : List Char) (spots boxes price : Option Num) : Option Num :=
  match spots, boxes, price with
  | some s, some b, none =>
    let nums := numericTokens normalized
    let candidates := nums.filter (fun n => !Num.strictEq n s && !Num.strictEq n b)
    match candidates.find? (fun n => !isInteger n) with
    | some d => some d
    | none => candidates.getLast?
  | _, _, _ => price

/-- Rule 6: `boxes` still `null` and the text has the phrase `a box`. -/
def afterABox (normalized : List Char) (boxes : Option Num) : Option Num :=
  if boxes.isNone && reABox.test normalized then some 1 else boxes

/-- The test `!x || x <= 0` that puts a field on the `missing` list. -/
def isMissing (x : Option Num) : Bool :=
  !truthy x || (match x with
    | some v => decide (v ≤ 0)
    | none => false)

/-- The list `missing` of `sniffBreak`. -/
def missingOf (data : BreakData) : List String :=
  (if isMissing data.spots then ["spots"] else []) ++
  (if isMissing data.boxes then ["boxes"] else []) ++
  (if isMissing data.costPerBox then ["cost per box"] else [])

/-- The record extracted from the normalized text: rules 1 to 6, then
`Number.isFinite(x) ? x : null` on each field. -/
def sniffData (normalized : List Char) : BreakData :=
  let spots := labeledSpots normalized
  let boxes := labeledBoxes normalized
  let price := priceAfterPerBox normalized
  let bp := afterTimes normalized boxes price
  let price := afterLoose normalized spots bp.1 bp.2
  let boxes := afterABox normalized bp.1
  { spots := finiteOrNull spots, boxes := finiteOrNull boxes,
    costPerBox := finiteOrNull price }

/-- The function `sniffBreak`. -/
def sniffBreak (input : String) : SniffResult :=
  let normalized := normalize input.toList
  let data := sniffData normalized
  { data := data, missing := missingOf data, normalized := normalized }

/-! ## The wizard -/

/-- A wizard session `{ step, needed, data, startedAt, prompt, messageIds }`. -/
structure Session where
  /-- the field being asked for, or `"done"` -/
  step : String
  /-- the fields still to be asked for -/
  needed : List String
  /-- the record collected so far -/
  data : BreakData
  /-- the time of the last transition, in milliseconds -/
  startedAt : ℕ
  /-- the text of the next question -/
  prompt : String
  /-- the trail of message identifiers -/
  messageIds : List String
deriving DecidableEq

/-- The function `promptForStep`. -/
def promptForStep (step : String) : String :=
  if step = "spots" then "🧠🥞 How many **spots**? (reply with just a number)"
  else if step = "boxes" then "🧠🥞 How many **boxes**? (reply with just a number)"
  else if step = "costPerBox" then "🧠🥞 What’s the **cost per box**? (reply with just a number)"
  else "🧠🥞 Got it."

/-- The notice sent when an answer holds no number. -/
def noNumberNotice : String :=
  "🧠🥞 I didn’t catch a number—reply with just the number (or type `mw cancel`)."

/-- The list `needed` computed by the wizard: the fields `x` with `!x`, in the
order spots, boxes, costPerBox. -/
def neededOf (data : BreakData) : List String :=
  (if !truthy data.spots then ["spots"] else []) ++
  (if !truthy data.boxes then ["boxes"] else []) ++
  (if !truthy data.costPerBox then ["costPerBox"] else [])

/-- The function `startBreakdownWizard`; `now` is the value of `Date.now()`. -/
def startBreakdownWizard (partialData : BreakData) (now : ℕ) : Session :=
  let data : BreakData :=
    { spots := partialData.spots, boxes := partialData.boxes,
      costPerBox := partialData.costPerBox }
  let needed := neededOf data
  let step := needed.head?.getD "done"
  { step := step, needed := needed, data := data, startedAt := now,
    prompt := promptForStep step, messageIds := [] }

/-- The first numeric token of an answer: `Number(num[0])` for
`num = txt.match(/\b\d+(?:\.\d{1,2})?\b/)`, or `null`. -/
def answerValue (userText : String) : Option Num :=
  (reToken.exec (normalizeAnswer userText.toList)).map (fun m => toNumber m.whole)

/-- The three assignments of `advanceBreakdownWizard` guarded by
`value && value > 0`. -/
def applyValue (step : String) (value : Option Num) (data : BreakData) : BreakData :=
  match value with
  | some v =>
    if truthy (some v) ∧ 0 < v then
      let d1 := if step = "spots" then { data with spots := some (trunc v) } else data
      let d2 := if step = "boxes" then { d1 with boxes := some (trunc v) } else d1
      if step = "costPerBox" then { d2 with costPerBox := some v } else d2
    else data
  | none => data

/-- The function `advanceBreakdownWizard`; `now` is the value of `Date.now()`. -/
def advanceBreakdownWizard (session : Session) (userText : String) (now : ℕ) : Session :=
  let value := answerValue userText
  let parsed := sniffBreak userText
  if parsed.missing.length = 0 then
    { session with step := "done", data := parsed.data, startedAt := now }
  else
    let data := applyValue session.step value session.data
    match neededOf data with
    | [] => { session with step := "done", data := data, startedAt := now }
    | nextStep :: rest =>
      { session with
        data := data
        startedAt := now
        step := nextStep
        needed := nextStep :: rest
        prompt := if truthy value then promptForStep nextStep else noNumberNotice }

/-! ## The calculation engine -/

/-- The part of `config.defaults` read by `calculateBreakdown`.  The two
per-spot costs may be left out of the configuration (`?? 0`). -/
structure FeeSchedule where
  /-- `platform.feeRate` -/
  feeRate : Num
  /-- `platform.txFee` -/
  txFee : Num
  /-- `shipping.perSpot` -/
  shipPerSpot : Option Num
  /-- `supplies.perSpot` -/
  suppliesPerSpot : Option Num

/-- A number for `toFixed`: `none` stands for a value that is not finite (`NaN`
or an infinity). -/
abbrev Amount := Option ℚ

/-- The finite value of a number, if it has one. -/
def Num.toAmount (x : Num) : Amount :=
  match x with
  | .fin q => some q
  | _ => none

/-- The report returned by `calculateBreakdown`. -/
structure Report where
  /-- `input.spots` -/
  spots : Num
  /-- `input.boxes` -/
  boxes : Num
  /-- `input.costPerBox` -/
  costPerBox : Num
  /-- `productCost` -/
  productCost : Num
  /-- `txFees` -/
  txFees : Num
  /-- `supplies` -/
  supplies : Num
  /-- `shipping` -/
  shipping : Num
  /-- `feeRate` -/
  feeRate : Num
  /-- `txFee` -/
  txFee : Num
  /-- `breakevenRevenueNoShip` -/
  breakevenRevenueNoShip : Num
  /-- `breakevenPerSpotNoShip` -/
  breakevenPerSpotNoShip : Num
  /-- `breakevenRevenueWithShip` -/
  breakevenRevenueWithShip : Num
  /-- `breakevenPerSpotWithShip` -/
  breakevenPerSpotWithShip : Num
deriving DecidableEq

/-- The function `calculateBreakdown`, in double arithmetic.  `Number(null)` is
`0`; the record has no field `costEach`, so a `null` price becomes
`Number(undefined)`, which is `NaN`. -/
def calculateBreakdown (config : FeeSchedule) (input : BreakData) : Report :=
  let feeRate := config.feeRate
  let txFee := config.txFee
  let shipPerSpot := config.shipPerSpot.getD 0
  let suppliesPerSpot := config.suppliesPerSpot.getD 0
  let spots : Num := input.spots.getD 0
  let boxes : Num := input.boxes.getD 0
  let costPerBox : Num := input.costPerBox.getD .nan
  let productCost := boxes * costPerBox
  let txFees := spots * txFee
  let supplies := spots * suppliesPerSpot
  let shipping := spots * shipPerSpot
  let coreNumerator := productCost + txFees + supplies
  let breakevenRevenueNoShip := coreNumerator / (1 - feeRate)
  let breakevenPerSpotNoShip := breakevenRevenueNoShip / spots
  let shipNumerator := coreNumerator + shipping
  let breakevenRevenueWithShip := shipNumerator / (1 - feeRate)
  let breakevenPerSpotWithShip := breakevenRevenueWithShip / spots
  { spots := spots, boxes := boxes, costPerBox := costPerBox,
    productCost := productCost, txFees := txFees, supplies := supplies,
    shipping := shipping, feeRate := feeRate, txFee := txFee,
    breakevenRevenueNoShip := breakevenRevenueNoShip,
    breakevenPerSpotNoShip := breakevenPerSpotNoShip,
    breakevenRevenueWithShip := breakevenRevenueWithShip,
    breakevenPerSpotWithShip := breakevenPerSpotWithShip }

/-! ## Rendering of the report -/

/-- The decimal digit with value `d` (for `d < 10`). -/
def digitChar (d : ℕ) : Char :=
  match d with
  | 0 => '0'
  | 1 => '1'
  | 2 => '2'
  | 3 => '3'
  | 4 => '4'
  | 5 => '5'
  | 6 => '6'
  | 7 => '7'
  | 8 => '8'
  | _ => '9'

/-- Worker of `natText`: the digits of `n` put in front of `acc`; the first
argument bounds the number of digits. -/
def natTextAux : ℕ → ℕ → List Char → List Char
  | 0, _, acc => acc
  | fuel + 1, n, acc =>
    if n < 10 then digitChar n :: acc
    else natTextAux fuel (n / 10) (digitChar (n % 10) :: acc)

/-- The decimal numeral of a natural number, without leading zeros. -/
def natText (n : ℕ) : List Char := natTextAux (n + 1) n []

/-- `x.toFixed(2)` for `|x| < 10^21`: an optional sign, then the digits of the
integer `n` with `n / 100` nearest to `|x|` (the larger one of two equally
near), with a point before the last two digits.  For `|x| ≥ 10^21` the method
returns `String(x)`, which is in exponent notation (`"1e+21"`); that text is
not rendered here and the result is `none`. -/
def toFixed2 (x : ℚ) : Option (List Char) :=
  if (10 : ℚ) ^ 21 ≤ |x| then none
  else
    let n : ℕ := (⌊|x| * 100 + 1 / 2⌋).toNat
    some ((if x < 0 then ['-'] else []) ++ natText (n / 100) ++
      ['.', digitChar (n / 10 % 10), digitChar (n % 10)])

/-- The text returned by `money`. -/
inductive MoneyText where
  /-- the placeholder `"—"` -/
  | dash
  /-- a text in fixed notation -/
  | fixed (text : String)
  /-- `"$"` followed by `String(x)` in exponent notation, for `|x| ≥ 10^21` -/
  | exponent (x : ℚ)
deriving DecidableEq

/-- The function `money`.  The argument is already a number, so `Number(n)` is
`n`; `none` stands for `NaN` and the infinities (`Number.isFinite` is false). -/
def money (n : Amount) : MoneyText :=
  match n with
  | none => .dash
  | some num =>
    match toFixed2 num with
    | some t => .fixed (String.mk ('$' :: t))
    | none => .exponent num

/-- A piece of the text built by `formatBreakdown`. -/
inductive Piece where
  /-- literal text -/
  | text (s : String)
  /-- a number put into the template as it is (`String(x)`) -/
  | number (x : Num)
  /-- an amount put into the template through `money` -/
  | amount (m : MoneyText)
deriving DecidableEq

/-- The function `formatBreakdown`: the pieces of the template, in order. -/
def formatBreakdown (r : Report) : List Piece :=
  [ .text "**🧠🥞 Mecha Waffles Breakdown**\n",
    .text "Spots: **", .number r.spots, .text "** | Boxes: **", .number r.boxes,
    .text "** @ **", .amount (money r.costPerBox.toAmount), .text "**\n\n",
    .text "**Costs**\n",
    .text "• Product: ", .amount (money r.productCost.toAmount), .text "\n",
    .text "• Tx fees: ", .amount (money r.txFees.toAmount), .text " (",
    .amount (money r.txFee.toAmount), .text " / spot)\n",
    .text "• Supplies: ", .amount (money r.supplies.toAmount), .text "\n",
    .text "• Shipping (Whatnot-handled): ", .amount (money r.shipping.toAmount), .text "\n\n",
    .text "**Break-even (No Shipping — Whatnot Standard)**\n",
    .text "• Revenue needed: **", .amount (money r.breakevenRevenueNoShip.toAmount), .text "** (",
    .amount (money r.breakevenPerSpotNoShip.toAmount), .text "/spot)\n\n",
    .text "**Break-even (With Shipping — Informational Only)**\n",
    .text "• Revenue needed: ", .amount (money r.breakevenRevenueWithShip.toAmount), .text " (",
    .amount (money r.breakevenPerSpotWithShip.toAmount), .text "/spot)\n\n",
    .text "_Shipping is shown for reference only. Whatnot collects shipping separately._" ]

/-! ## The chat platform

The calls into the chat platform are asynchronous and may reject.  A call is
modelled by its answer, `Except.ok` for a resolved promise and `Except.error`
for a rejected one, taken from a record of answers that is an argument of the
model; the calls made are listed in the result. -/

/-- `text.trim()` on a string. -/
def trimText (s : String) : String := String.mk (trim s.toList)

/-- `text.toLowerCase()` on a string. -/
def lowerText (s : String) : String := String.mk (toLowerCase s.toList)

/-- `s.startsWith(p)`. -/
def startsWith (s p : String) : Bool := p.toList.isPrefixOf s.toList

/-- Worker of `includes`. -/
def includesChars (p : List Char) : List Char → Bool
  | [] => p.isPrefixOf []
  | c :: s => p.isPrefixOf (c :: s) || includesChars p s

/-- `s.includes(p)`. -/
def includes (s p : String) : Bool := includesChars p.toList s.toList

/-- A literal character under the flag `i`: the character or its capital. -/
def Re.chrI (c : Char) : Re := .cls (fun x => decide (x = c) || decide (x = c.toUpper))

/-- The pattern `/^mecha\b\s*/i`, tried at the start of the text. -/
def reMechaPrefix : Re :=
  Re.cat [Re.chrI 'm', Re.chrI 'e', Re.chrI 'c', Re.chrI 'h', Re.chrI 'a', .wordB, .star isSpace]

/-- The pattern `/^mw\b\s*/i`, tried at the start of the text. -/
def reMwPrefix : Re := Re.cat [Re.chrI 'm', Re.chrI 'w', .wordB, .star isSpace]

/-- `s.replace(re, "")` for a pattern `re` anchored at the start. -/
def removeAtStart (re : Re) (s : List Char) : List Char :=
  match re.matchAt none s with
  | some m => s.drop m.whole.length
  | none => s

/-- `s.replace(/^mecha\b\s*/i, "").replace(/^mw\b\s*/i, "")`. -/
def commandBody (s : String) : String :=
  String.mk (removeAtStart reMwPrefix (removeAtStart reMechaPrefix s.toList))

/-- JavaScript truthiness of a string or `null`: `null` and `""` are falsy. -/
def truthyText (x : Option String) : Bool :=
  match x with
  | some s => decide (s ≠ "")
  | none => false

/-- The answers of a channel to the calls of one pruning: to
`channel.messages.fetch(id)` and to `msg.delete()` for the identifier at
position `i` of the trail. -/
structure Channel where
  /-- the answer to `channel.messages.fetch(id)` -/
  fetch : ℕ → String → Except String Unit
  /-- the answer to `msg.delete()` on the fetched message -/
  delete : ℕ → String → Except String Unit

/-- A call made by a pruning. -/
inductive Attempt where
  /-- `channel.messages.fetch(id)` -/
  | fetch (id : String)
  /-- `msg.delete()` on the message with this identifier -/
  | delete (id : String)
deriving DecidableEq

/-- The function `safeDeleteMessage` on the message fetched at position `i`:
`true` when the message was deleted, `false` when the deletion failed. -/
def safeDeleteMessage (channel : Channel) (i : ℕ) (id : String) : Except String Bool :=
  match channel.delete i id with
  | .ok _ => .ok true
  | .error _ => .ok false

/-- The body of the loop of `pruneWizardTrail`:
`try { msg = await channel.messages.fetch(id); await safeDeleteMessage(msg) } catch {}`.
The result lists the calls made. -/
def fetchAndDelete (channel : Channel) (i : ℕ) (id : String) :
    List Attempt × Except String Unit :=
  match channel.fetch i id with
  | .error _ => ([.fetch id], .ok ())
  | .ok _ =>
    match safeDeleteMessage channel i id with
    | .ok _ => ([.fetch id, .delete id], .ok ())
    | .error _ => ([.fetch id, .delete id], .ok ())

/-- The loop of `pruneWizardTrail` from position `i` on.  An identifier is
`none` for `null` or `undefined`. -/
def pruneWizardTrailFrom (channel : Channel) (keepId : Option String) :
    ℕ → List (Option String) → List Attempt × Except String Unit
  | _, [] => ([], .ok ())
  | i, id :: rest =>
    if !truthyText id then pruneWizardTrailFrom channel keepId (i + 1) rest
    else if truthyText keepId && decide (id = keepId) then
      pruneWizardTrailFrom channel keepId (i + 1) rest
    else
      match fetchAndDelete channel i (id.getD "") with
      | (calls, .error e) => (calls, .error e)
      | (calls, .ok _) =>
        let r := pruneWizardTrailFrom channel keepId (i + 1) rest
        (calls ++ r.1, r.2)

/-- The function `pruneWizardTrail(channel, messageIds, keepId = null)`: the
calls made, and whether the function returned or threw. -/
def pruneWizardTrail (channel : Channel) (messageIds : List (Option String))
    (keepId : Option String) : List Attempt × Except String Unit :=
  pruneWizardTrailFrom channel keepId 0 messageIds

/-! ## The message handler of the breakdown feature -/

/-- The parts of a message read by the handlers. -/
structure Message where
  /-- `message.author.bot` -/
  authorBot : Bool
  /-- `message.author.id` -/
  authorId : String
  /-- `message.guild?.id`, `none` outside a server -/
  guildId : Option String
  /-- `message.channel.id` -/
  channelId : String
  /-- `message.id` -/
  id : String
  /-- `message.content` -/
  content : String

/-- The answers of the platform to the calls of one run of a handler. -/
structure Platform where
  /-- `message.reply(..)`: the identifier of the message created -/
  reply : Except String String
  /-- the first `message.author.send(..)` of the run (the handlers ignore the
  answers to later ones) -/
  send : Except String Unit
  /-- `message.author.createDM()` -/
  createDM : Except String Unit
  /-- `dm.send(..)`: the identifier of the message created -/
  dmSend : Except String String
  /-- the channel of the message -/
  channel : Channel

/-- A session store: a `Map` with string keys. -/
abbrev Store (α : Type) := String → Option α

/-- The method `set` of a store. -/
def Store.set {α : Type} (m : Store α) (key : String) (v : α) : Store α :=
  fun k => if k = key then some v else m k

/-- The method `delete` of a store. -/
def Store.erase {α : Type} (m : Store α) (key : String) : Store α :=
  fun k => if k = key then none else m k

/-- The empty store. -/
def Store.empty {α : Type} : Store α := fun _ => none

/-- Whether a session is expired: `Date.now() - startedAt >= ttl`. -/
def isExpired (ttl now startedAt : ℕ) : Bool := decide ((ttl : ℤ) ≤ (now : ℤ) - (startedAt : ℤ))

/-- How a run of a handler ended: it returned `true` or `false`, or its promise
was rejected. -/
inductive Outcome where
  /-- the handler returned this value -/
  | returned (handled : Bool)
  /-- the handler threw -/
  | threw
deriving DecidableEq

/-- A call made by the handler of the breakdown feature. -/
inductive Effect where
  /-- `message.reply(text)` -/
  | reply (text : String)
  /-- `message.reply(notice + content)` of `dmOrFallback` -/
  | replyFallback (content : List Piece)
  /-- `message.author.send(content)` -/
  | send (content : List Piece)
  /-- `message.author.createDM()` -/
  | createDM
  /-- `dm.send(text)` -/
  | dmSend (text : String)
  /-- `message.delete()` on the incoming message, failures ignored -/
  | deleteMessage (id : String)
  /-- the deletion of a reply scheduled by `setTimeout` -/
  | deleteLater (id : String) (ms : ℕ)
  /-- a call of `pruneWizardTrail` -/
  | prune (a : Attempt)
deriving DecidableEq

/-- A stored wizard: the session and the property `origin` added by the
handler (`{ guildId, channelId }`), if set. -/
structure Wizard where
  /-- the session -/
  session : Session
  /-- `wizard.origin` -/
  origin : Option (Option String × String)
deriving DecidableEq

/-- The result of one run of the handler. -/
structure Handled where
  /-- the session store after the run -/
  sessions : Store Wizard
  /-- how the run ended -/
  outcome : Outcome
  /-- the calls made, in order -/
  effects : List Effect

/-- `SESSION_TTL_MS`. -/
def SESSION_TTL_MS : ℕ := 2 * 60 * 1000

/-- The function `dmOrFallback`: the calls made and whether it returned. -/
def dmOrFallback (p : Platform) (content : List Piece) : List Effect × Except String Unit :=
  match p.send with
  | .ok _ => ([.send content], .ok ())
  | .error _ =>
    match p.reply with
    | .ok warnId => ([.send content, .replyFallback content, .deleteLater warnId 30000], .ok ())
    | .error e => ([.send content, .replyFallback content], .error e)

/-- The outcome of a run that ends with `return true` after an awaited call. -/
def endWith (r : Except String Unit) : Outcome :=
  match r with
  | .ok _ => .returned true
  | .error _ => .threw

/-- The part of `handleMessage` after the look-up of a session: the handling of
a command. -/
def handleCommand (config : FeeSchedule) (p : Platform) (now : ℕ) (sessions : Store Wizard)
    (message : Message) : Handled :=
  let text := trimText message.content
  let lower := lowerText text
  let sessionKey := message.authorId
  let isMechaCmd := startsWith lower "mecha"
  let isMwCmd := startsWith lower "mw"
  if !isMechaCmd && !isMwCmd then ⟨sessions, .returned false, []⟩
  else
    let body := commandBody lower
    let rawBody := commandBody text
    if body = "cancel" then
      match p.reply with
      | .ok _ => ⟨sessions, .returned true, [.reply "🧠🥞 Nothing to cancel right now."]⟩
      | .error _ => ⟨sessions, .threw, [.reply "🧠🥞 Nothing to cancel right now."]⟩
    else if includes body "breakdown" then
      let parsed := sniffBreak rawBody
      if parsed.missing.length = 0 then
        let result := calculateBreakdown config parsed.data
        let out := formatBreakdown result
        let sent := dmOrFallback p out
        ⟨sessions, endWith sent.2, .deleteMessage message.id :: sent.1⟩
      else
        let wizard := startBreakdownWizard parsed.data now
        let wizard1 := { wizard with messageIds := wizard.messageIds ++ [message.id] }
        let sessions1 := sessions.set sessionKey ⟨wizard1, none⟩
        match p.createDM with
        | .error _ => ⟨sessions1, .threw, [.deleteMessage message.id, .createDM]⟩
        | .ok _ =>
          match p.dmSend with
          | .error _ =>
            ⟨sessions1, .threw, [.deleteMessage message.id, .createDM, .dmSend wizard.prompt]⟩
          | .ok promptId =>
            let wizard2 := { wizard1 with messageIds := wizard1.messageIds ++ [promptId] }
            ⟨sessions.set sessionKey ⟨wizard2, some (message.guildId, message.channelId)⟩,
              .returned true, [.deleteMessage message.id, .createDM, .dmSend wizard.prompt]⟩
    else ⟨sessions, .returned false, []⟩

/-- The branch of `handleMessage` for the cancel words, with a live session
`existing`. -/
def cancelWizard (p : Platform) (sessions : Store Wizard) (message : Message)
    (existing : Wizard) : Handled :=
  let sessions1 := sessions.erase message.authorId
  let messageIds := existing.session.messageIds ++ [message.id]
  match p.reply with
  | .error _ => ⟨sessions1, .threw, [.reply "🧠🥞 Cancelled."]⟩
  | .ok doneId =>
    let pruned := pruneWizardTrail p.channel (messageIds.map some) (some doneId)
    ⟨sessions1, endWith pruned.2, .reply "🧠🥞 Cancelled." :: pruned.1.map .prune⟩

/-- The branch of `handleMessage` for an answer to a live session `existing`.
The stored object is changed in place (its trail, and its record by
`advanceBreakdownWizard`), so the store holds the changed object also when a
later call throws. -/
def answerWizard (config : FeeSchedule) (p : Platform) (now : ℕ) (sessions : Store Wizard)
    (message : Message) (existing : Wizard) : Handled :=
  let text := trimText message.content
  let sessionKey := message.authorId
  let existing1 : Session :=
    { existing.session with messageIds := existing.session.messageIds ++ [message.id] }
  let next := advanceBreakdownWizard existing1 text now
  if next.step = "done" then
    let result := calculateBreakdown config next.data
    let out := formatBreakdown result
    let sent := dmOrFallback p out
    ⟨sessions.erase sessionKey, endWith sent.2, sent.1⟩
  else
    let changed : Wizard := ⟨{ existing1 with data := next.data }, existing.origin⟩
    match p.createDM with
    | .error _ => ⟨sessions.set sessionKey changed, .threw, [.createDM]⟩
    | .ok _ =>
      match p.dmSend with
      | .error _ => ⟨sessions.set sessionKey changed, .threw, [.createDM, .dmSend next.prompt]⟩
      | .ok promptId =>
        let next1 := { next with messageIds := next.messageIds ++ [promptId] }
        ⟨sessions.set sessionKey ⟨next1, existing.origin⟩, .returned true,
          [.createDM, .dmSend next.prompt]⟩

/-- The function `handleMessage` of the breakdown feature, as a transition on
the session store; `now` is the value of `Date.now()` during the run. -/
def handleMessage (config : FeeSchedule) (p : Platform) (now : ℕ) (sessions : Store Wizard)
    (message : Message) : Handled :=
  if message.authorBot then ⟨sessions, .returned false, []⟩
  else
    let text := trimText message.content
    let lower := lowerText text
    let sessionKey := message.authorId
    match sessions sessionKey with
    | some existing =>
      if isExpired SESSION_TTL_MS now existing.session.startedAt then
        handleCommand config p now (sessions.erase sessionKey) message
      else
        let isNewCommand := startsWith lower "mw" || startsWith lower "mecha"
        if lower = "cancel" ∨ lower = "mw cancel" ∨ lower = "mecha cancel" then
          cancelWizard p sessions message existing
        else if !isNewCommand then
          answerWizard config p now sessions message existing
        else
          handleCommand config p now (sessions.erase sessionKey) message
    | none => handleCommand config p now sessions message

/-! ## The show board (`src/features/showBoard.js`) -/

namespace Show

/-- `SHOW_SESSION_TTL_MS`. -/
def SHOW_SESSION_TTL_MS : ℕ := 4 * 60 * 1000

/-- The record `data` of a show session.  Each of the five fields is a string
or `null`; `extra` holds the properties written under any other name by
`session.data[step] = t`, the latest first. -/
structure ShowData where
  /-- `whatnotName` -/
  whatnotName : Option String
  /-- `date` -/
  date : Option String
  /-- `time` -/
  time : Option String
  /-- `description` -/
  description : Option String
  /-- `link` -/
  link : Option String
  /-- the properties with other names -/
  extra : List (String × String)
deriving DecidableEq

/-- A show session `{ stepIndex, data, startedAt, messageIds }`. -/
structure ShowSession where
  /-- the index of the current step -/
  stepIndex : ℕ
  /-- the record collected so far -/
  data : ShowData
  /-- the time of the last answer, in milliseconds -/
  startedAt : ℕ
  /-- the trail of message identifiers -/
  messageIds : List String
deriving DecidableEq

/-- A stored show: `{ ownerId, threadId, firstMessageId, ...data, updatedUtc }`. -/
structure ShowRecord where
  /-- `ownerId` -/
  ownerId : String
  /-- `threadId` -/
  threadId : String
  /-- `firstMessageId` -/
  firstMessageId : Option String
  /-- the fields of the show -/
  data : ShowData
  /-- `updatedUtc` -/
  updatedUtc : String
deriving DecidableEq

/-- The function `safeDeleteMessage` of the show board. -/
def safeDeleteMessage (channel : Channel) (i : ℕ) (id : String) : Except String Bool :=
  match channel.delete i id with
  | .ok _ => .ok true
  | .error _ => .ok false

/-- The body of the loop of `pruneTrail`. -/
def fetchAndDelete (channel : Channel) (i : ℕ) (id : String) :
    List Attempt × Except String Unit :=
  match channel.fetch i id with
  | .error _ => ([.fetch id], .ok ())
  | .ok _ =>
    match safeDeleteMessage channel i id with
    | .ok _ => ([.fetch id, .delete id], .ok ())
    | .error _ => ([.fetch id, .delete id], .ok ())

/-- The loop of `pruneTrail` from position `i` on. -/
def pruneTrailFrom (channel : Channel) :
    ℕ → List (Option String) → List Attempt × Except String Unit
  | _, [] => ([], .ok ())
  | i, id :: rest =>
    if !truthyText id then pruneTrailFrom channel (i + 1) rest
    else
      match fetchAndDelete channel i (id.getD "") with
      | (calls, .error e) => (calls, .error e)
      | (calls, .ok _) =>
        let r := pruneTrailFrom channel (i + 1) rest
        (calls ++ r.1, r.2)

/-- The function `pruneTrail(channel, messageIds)`. -/
def pruneTrail (channel : Channel) (messageIds : List (Option String)) :
    List Attempt × Except String Unit :=
  pruneTrailFrom channel 0 messageIds

/-- The list `STEPS`. -/
def STEPS : List String := ["whatnotName", "date", "time", "description", "link"]

/-- The function `promptFor`. -/
def promptFor (step : String) : String :=
  if step = "whatnotName" then "🧠🥞 What is your **Whatnot username**?"
  else if step = "date" then
    "🧠🥞 What is the **date** of the show? (example: `Jan 9` or `2026-01-09`)"
  else if step = "time" then "🧠🥞 What is the **time**? (example: `7:00pm ET` or `8pm`)"
  else if step = "description" then
    "🧠🥞 Drop a short **description** (what’s breaking / format / anything important)."
  else if step = "link" then "🧠🥞 Optional: paste the **Whatnot link** (or reply `skip`)."
  else "🧠🥞 Got it."

/-- The function `startSession`; `now` is the value of `Date.now()`. -/
def startSession (message : Message) (now : ℕ) : ShowSession :=
  { stepIndex := 0,
    data := { whatnotName := none, date := none, time := none, description := none,
              link := none, extra := [] },
    startedAt := now,
    messageIds := [message.id] }

/-- The function `currentStep`: `STEPS[session.stepIndex] ?? "done"`. -/
def currentStep (session : ShowSession) : String := (STEPS.get? session.stepIndex).getD "done"

/-- The assignment `data[step] = t`. -/
def setField (data : ShowData) (step : String) (t : String) : ShowData :=
  if step = "whatnotName" then { data with whatnotName := some t }
  else if step = "date" then { data with date := some t }
  else if step = "time" then { data with time := some t }
  else if step = "description" then { data with description := some t }
  else if step = "link" then { data with link := some t }
  else { data with extra := (step, t) :: data.extra.filter (fun kv => kv.1 ≠ step) }

/-- The function `applyAnswer`; the result is the session after the assignment. -/
def applyAnswer (session : ShowSession) (step : String) (rawText : String) : ShowSession :=
  let t := trimText rawText
  if step = "link" then
    if lowerText t = "skip" ∨ lowerText t = "none" then
      { session with data := { session.data with link := none } }
    else
      { session with data := { session.data with link := some t } }
  else
    { session with data := setField session.data step t }

/-- The function `isComplete`. -/
def isComplete (data : ShowData) : Bool :=
  truthyText data.whatnotName && truthyText data.date && truthyText data.time &&
    truthyText data.description

/-- A string or `null` inside a template literal. -/
def templateText (x : Option String) : String := x.getD "null"

/-- The function `buildTitle`. -/
def buildTitle (data : ShowData) : String :=
  templateText data.whatnotName ++ " : " ++ templateText data.date ++ " " ++
    templateText data.time

/-- The function `buildBody`; `join` renders `null` as the empty string. -/
def buildBody (data : ShowData) : String :=
  let parts : List String :=
    [data.description.getD ""] ++
      (if truthyText data.link then ["", data.link.getD ""] else [])
  "\n".intercalate parts

/-- The function `receiptText`. -/
def receiptText (action : String) (data : ShowData) (threadUrl : Option String) : String :=
  "**🧠🥞 Mecha Waffles — Show Card " ++ action ++ "**\n" ++
  "**Whatnot:** " ++ templateText data.whatnotName ++ "\n" ++
  "**When:** " ++ templateText data.date ++ " " ++ templateText data.time ++ "\n" ++
  "**Description:** " ++ templateText data.description ++ "\n" ++
  "**Link:** " ++ data.link.getD "(none)" ++ "\n" ++
  (if truthyText threadUrl then "\n**Forum Post:** " ++ templateText threadUrl ++ "\n" else "") ++
  "\nIf you need to change anything, just run `mw show` again."

/-- The part of the configuration read by the show board:
`config?.showBoard?.forumChannelId`. -/
structure ShowConfig where
  /-- the identifier of the forum channel, if configured -/
  forumChannelId : Option String

/-- The answers of the forum and of the file of shows during one run. -/
structure Forum where
  /-- `guild.channels.fetch(forumChannelId)`: whether the result is a forum channel -/
  channel : Except String Bool
  /-- `loadShows()`: the shows stored for the guild -/
  load : Except String (List ShowRecord)
  /-- `createForumPost(..)`: the identifiers of the thread and of its first message -/
  created : Except String (String × Option String)
  /-- `forumChannel.threads.fetch(threadId)`: whether a thread was found -/
  thread : Except String Bool
  /-- `updateForumPost(..)` -/
  updated : Except String Unit
  /-- `saveShows(store)` -/
  saved : Except String Unit
  /-- `new Date().toISOString()` -/
  nowIso : String

/-- A call made by the handler of the show board. -/
inductive ShowEffect where
  /-- `message.reply(text)` -/
  | reply (text : String)
  /-- `message.author.send(text)` -/
  | send (text : String)
  /-- a call of `pruneTrail` -/
  | prune (a : Attempt)
  /-- `guild.channels.fetch(id)` -/
  | fetchChannel (id : String)
  /-- `loadShows()` -/
  | loadShows
  /-- `createForumPost` with this title and body -/
  | createPost (title body : String)
  /-- `forumChannel.threads.fetch(threadId)` -/
  | fetchThread (threadId : String)
  /-- `updateForumPost` with this title and body -/
  | updatePost (threadId : String) (firstMessageId : Option String) (title body : String)
  /-- `saveShows` with these shows of the guild -/
  | saveShows (shows : List ShowRecord)
  /-- the deletion of a reply scheduled by `setTimeout` -/
  | deleteLater (id : String) (ms : ℕ)
deriving DecidableEq

/-- The result of one run of the handler. -/
structure ShowHandled where
  /-- the session store after the run -/
  sessions : Store ShowSession
  /-- how the run ended -/
  outcome : Outcome
  /-- the calls made, in order -/
  effects : List ShowEffect

/-- The key of a session: the guild, the channel and the author. -/
def sessionKey (guildId : String) (message : Message) : String :=
  guildId ++ ":" ++ message.channelId ++ ":" ++ message.authorId

/-- The first record of the list owned by `ownerId` replaced by `record`. -/
def replaceOwned (ownerId : String) (record : ShowRecord) : List ShowRecord → List ShowRecord
  | [] => []
  | s :: rest =>
    if s.ownerId = ownerId then record :: rest else s :: replaceOwned ownerId record rest

/-- `Object.assign(record, data, ..)` on the fields of a show. -/
def assignData (old new : ShowData) : ShowData :=
  { new with
    extra := new.extra ++ old.extra.filter (fun kv => !new.extra.any (fun nv => nv.1 = kv.1)) }

/-- The first part of the `try` block of the last step: the post of the author
is created, or updated when the author has one, and the file is saved.  The
result is the action and the address of the thread. -/
def createOrUpdate (f : Forum) (message : Message) (guildId : String)
    (shows : List ShowRecord) (data : ShowData) :
    List ShowEffect × Except String (String × String) :=
  match shows.find? (fun s => s.ownerId = message.authorId) with
  | none =>
    match f.created with
    | .error e => ([.createPost (buildTitle data) (buildBody data)], .error e)
    | .ok created =>
      let record : ShowRecord :=
        { ownerId := message.authorId, threadId := created.1, firstMessageId := created.2,
          data := data, updatedUtc := f.nowIso }
      let calls : List ShowEffect :=
        [.createPost (buildTitle data) (buildBody data), .saveShows (shows ++ [record])]
      match f.saved with
      | .error e => (calls, .error e)
      | .ok _ =>
        (calls, .ok ("Created", "https://discord.com/channels/" ++ guildId ++ "/" ++ created.1))
  | some record =>
    match f.thread with
    | .error e => ([.fetchThread record.threadId], .error e)
    | .ok false =>
      ([.fetchThread record.threadId], .error "Thread not found (may have been deleted).")
    | .ok true =>
      let update : ShowEffect :=
        .updatePost record.threadId record.firstMessageId (buildTitle data) (buildBody data)
      match f.updated with
      | .error e => ([.fetchThread record.threadId, update], .error e)
      | .ok _ =>
        let record1 : ShowRecord :=
          { record with data := assignData record.data data, updatedUtc := f.nowIso }
        let calls : List ShowEffect :=
          [.fetchThread record.threadId, update,
           .saveShows (replaceOwned message.authorId record1 shows)]
        match f.saved with
        | .error e => (calls, .error e)
        | .ok _ =>
          (calls, .ok ("Updated",
            "https://discord.com/channels/" ++ guildId ++ "/" ++ record.threadId))

/-- The `try` block of the last step: the post is created or updated, the file
is saved, the receipt is sent and the trail is pruned. -/
def postShow (p : Platform) (f : Forum) (message : Message) (guildId : String)
    (shows : List ShowRecord) (existing : ShowSession) : List ShowEffect × Except String Unit :=
  let data := existing.data
  match createOrUpdate f message guildId shows data with
  | (calls, .error e) => (calls, .error e)
  | (calls, .ok (action, threadUrl)) =>
    let receipt := receiptText action data (some threadUrl)
    let warn := "🧠🥞 I posted/updated your show, but I couldn’t DM you (DMs closed)."
    match p.send with
    | .ok _ =>
      let pruned := pruneTrail p.channel (existing.messageIds.map some)
      (calls ++ [.send receipt] ++ pruned.1.map .prune, pruned.2)
    | .error _ =>
      match p.reply with
      | .error e => (calls ++ [.send receipt, .reply warn], .error e)
      | .ok warnId =>
        let pruned := pruneTrail p.channel (existing.messageIds.map some)
        (calls ++ [.send receipt, .reply warn, .deleteLater warnId 5000] ++
          pruned.1.map .prune, pruned.2)

/-- A pruning of the trail followed by a notice sent to the author, failures
of the sending ignored, and `return true`. -/
def pruneAndNotify (p : Platform) (sessions : Store ShowSession) (existing : ShowSession)
    (before : List ShowEffect) (notice : String) : ShowHandled :=
  let pruned := pruneTrail p.channel (existing.messageIds.map some)
  match pruned.2 with
  | .error _ => ⟨sessions, .threw, before ++ pruned.1.map .prune⟩
  | .ok _ => ⟨sessions, .returned true, before ++ pruned.1.map .prune ++ [.send notice]⟩

/-- The last step of the wizard (`DONE: create/update post`), with the
session `existing` already removed from `sessions`. -/
def publishShow (config : ShowConfig) (p : Platform) (f : Forum) (sessions : Store ShowSession)
    (message : Message) (guildId : String) (existing : ShowSession) : ShowHandled :=
  if !truthyText config.forumChannelId then
    pruneAndNotify p sessions existing []
      "🧠🥞 I can’t post your show yet: `config.showBoard.forumChannelId` is not set."
  else
    let fetched : ShowEffect := .fetchChannel (config.forumChannelId.getD "")
    match f.channel with
    | .error _ => ⟨sessions, .threw, [fetched]⟩
    | .ok false =>
      pruneAndNotify p sessions existing [fetched]
        "🧠🥞 Forum channel ID is invalid or not a Forum channel."
    | .ok true =>
      match f.load with
      | .error _ => ⟨sessions, .threw, [fetched, .loadShows]⟩
      | .ok shows =>
        match postShow p f message guildId shows existing with
        | (calls, .ok _) => ⟨sessions, .returned true, [fetched, .loadShows] ++ calls⟩
        | (calls, .error e) =>
          pruneAndNotify p sessions existing ([fetched, .loadShows] ++ calls)
            ("🧠🥞 I couldn't create/update your show card. Error: " ++ e)

/-- The branch of `handleMessage` for the cancel words, with a live session
`existing`. -/
def cancelShow (p : Platform) (sessions : Store ShowSession) (message : Message)
    (guildId : String) (existing : ShowSession) : ShowHandled :=
  let existing1 := { existing with messageIds := existing.messageIds ++ [message.id] }
  pruneAndNotify p (sessions.erase (sessionKey guildId message)) existing1 []
    "🧠🥞 Show wizard cancelled."

/-- The branch of `handleMessage` for an answer to a live session `existing`.
The stored object is changed in place, so the store holds the changed session
also when the reply throws. -/
def answerShow (config : ShowConfig) (p : Platform) (f : Forum) (now : ℕ)
    (sessions : Store ShowSession) (message : Message) (guildId : String)
    (existing : ShowSession) : ShowHandled :=
  let text := trimText message.content
  let key := sessionKey guildId message
  let existing1 := { existing with messageIds := existing.messageIds ++ [message.id] }
  let step := currentStep existing1
  let existing2 := applyAnswer existing1 step text
  let existing3 := { existing2 with stepIndex := existing2.stepIndex + 1, startedAt := now }
  if !isComplete existing3.data then
    let prompt := promptFor (currentStep existing3)
    match p.reply with
    | .error _ => ⟨sessions.set key existing3, .threw, [.reply prompt]⟩
    | .ok promptId =>
      ⟨sessions.set key { existing3 with messageIds := existing3.messageIds ++ [promptId] },
        .returned true, [.reply prompt]⟩
  else if existing3.data.link = none ∧ step ≠ "link" ∧ currentStep existing3 = "link" then
    match p.reply with
    | .error _ => ⟨sessions.set key existing3, .threw, [.reply (promptFor "link")]⟩
    | .ok promptId =>
      ⟨sessions.set key { existing3 with messageIds := existing3.messageIds ++ [promptId] },
        .returned true, [.reply (promptFor "link")]⟩
  else
    publishShow config p f (sessions.erase key) message guildId existing3

/-- The part of `handleMessage` after the look-up of a session: the handling of
a command. -/
def handleCommand (p : Platform) (now : ℕ) (sessions : Store ShowSession) (message : Message)
    (guildId : String) : ShowHandled :=
  let text := trimText message.content
  let lower := lowerText text
  let key := sessionKey guildId message
  let isMechaCmd := startsWith lower "mecha"
  let isMwCmd := startsWith lower "mw"
  if !isMechaCmd && !isMwCmd then ⟨sessions, .returned false, []⟩
  else
    let body := commandBody lower
    if body = "show" ∨ startsWith body "show " then
      let session := startSession message now
      match p.reply with
      | .error _ => ⟨sessions.set key session, .threw, [.reply (promptFor "whatnotName")]⟩
      | .ok promptId =>
        ⟨sessions.set key { session with messageIds := session.messageIds ++ [promptId] },
          .returned true, [.reply (promptFor "whatnotName")]⟩
    else ⟨sessions, .returned false, []⟩

/-- The function `handleMessage` of the show board, as a transition on the
session store; `now` is the value of `Date.now()` during the run. -/
def handleMessage (config : ShowConfig) (p : Platform) (f : Forum) (now : ℕ)
    (sessions : Store ShowSession) (message : Message) : ShowHandled :=
  if message.authorBot then ⟨sessions, .returned false, []⟩
  else
    match message.guildId with
    | none => ⟨sessions, .returned false, []⟩
    | some guildId =>
      let text := trimText message.content
      let lower := lowerText text
      let key := sessionKey guildId message
      match sessions key with
      | some existing =>
        if isExpired SHOW_SESSION_TTL_MS now existing.startedAt then
          handleCommand p now (sessions.erase key) message guildId
        else
          let isNewCommand := startsWith lower "mw" || startsWith lower "mecha"
          if lower = "cancel" ∨ lower = "mw cancel" ∨ lower = "mecha cancel" then
            cancelShow p sessions message guildId existing
          else if !isNewCommand then
            answerShow config p f now sessions message guildId existing
          else
            handleCommand p now (sessions.erase key) message guildId
      | none => handleCommand p now sessions message guildId

end Show

/-! ## Notions of the specification -/

/-- A field is present when it is a number strictly greater than zero. -/
def present (x : Option Num) : Bool :=
  match x with
  | some v => decide (0 < v)
  | none => false

/-- A field is absent for the wizard when it is `null`, zero or `NaN` (`!x`). -/
def absent (x : Option Num) : Bool :=
  match x with
  | some v => decide (v = 0 ∨ v = .nan)
  | none => true

/-- The labels of the fields of `fields` that satisfy `test`, in the order of
`fields`. -/
def labelsWhere (test : Option Num → Bool) (fields : List (String × Option Num)) :
    List String :=
  (fields.filter (fun f => test f.2)).map (fun f => f.1)

/-- The fee schedule of the documented example: the numbers `0.08`, `0.30`, `1`
and `0.10` as doubles. -/
def exampleFees : FeeSchedule :=
  { feeRate := 8 / 100, txFee := 30 / 100, shipPerSpot := some 1, suppliesPerSpot := some (10 / 100) }

/-- The choice of rule 5 as the specification words it, for tokens of any kind
of number: drop the tokens equal to the spots or to the boxes, then take the
first remaining token that is not a whole number, or else the last remaining
token, or else nothing. -/
def chooseToken {α : Type} [DecidableEq α] (whole : α → Bool) (tokens : List α)
    (spots boxes : α) : Option α :=
  let remaining := tokens.filter (fun n => n ≠ spots ∧ n ≠ boxes)
  match remaining.filter (fun n => !whole n) with
  | d :: _ => some d
  | [] => remaining.getLast?

/-- A double is a whole number: it is finite and equal to an integer. -/
def Num.isWhole (n : Num) : Bool :=
  match n with
  | .fin q => decide (((⌊q⌋ : ℤ) : ℚ) = q)
  | _ => false

/-- Rule 5 on the tokens read as doubles. -/
def disambiguate (tokens : List Num) (spots boxes : Num) : Option Num :=
  chooseToken Num.isWhole tokens spots boxes

/-- The numeric tokens of the text with their exact decimal values. -/
def exactTokens (normalized : List Char) : List ℚ :=
  (reToken.matchAll normalized).map decimalValue

/-- Rule 5 on the tokens read as exact decimal numbers. -/
def disambiguateExact (tokens : List ℚ) (spots boxes : ℚ) : Option ℚ :=
  chooseToken (fun q => decide (((⌊q⌋ : ℤ) : ℚ) = q)) tokens spots boxes

/-- The break-even price per spot without shipping, by the formula
`(boxes * costPerBox + spots * txFee + spots * suppliesPerSpot) / (1 - feeRate) / spots`
in exact arithmetic. -/
def exactPerSpotNoShip (feeRate txFee suppliesPerSpot spots boxes costPerBox : ℚ) : ℚ :=
  (boxes * costPerBox + spots * txFee + spots * suppliesPerSpot) / (1 - feeRate) / spots

/-- The price after rules 2 to 4. -/
def priceAfterTimes (normalized : List Char) : Option Num :=
  (afterTimes normalized (labeledBoxes normalized) (priceAfterPerBox normalized)).2

/-- The text `s` occurs in the text `t`. -/
def containsText (s t : String) : Bool :=
  t.toList.tails.any (fun u => s.toList.isPrefixOf u)

/-- The text `s` with every `$` and `,` deleted. -/
def deleteCurrency (s : String) : String := String.mk (s.toList.filter (fun c => !isCurrency c))

/-- The text of a fraction part: nothing, or a point and the digits `fp`. -/
def fracText (fp : List Char) : List Char :=
  match fp with
  | [] => []
  | c :: cs => '.' :: c :: cs

/-- The text of a price with integer digits `ip` and fraction digits `fp`. -/
def priceText (ip fp : List Char) : List Char := ip ++ fracText fp

/-- The text consists of decimal digits and has at least one. -/
def isDigits (s : List Char) : Prop := s ≠ [] ∧ ∀ c ∈ s, isDigit c = true

/-- The text is empty or starts with a space: a text may go on with `rest`
after a complete word. -/
def wordEnd (rest : List Char) : Prop := rest = [] ∨ ∃ r, rest = ' ' :: r

/-- The text `s` with every `$` and `,` replaced by a space. -/
def blankCurrency (s : String) : String := String.mk (stripCurrency s.toList)

/-- The field is `null` or a finite number. -/
def nullOrFinite (x : Option Num) : Prop := ∀ v, x = some v → ∃ q : ℚ, v = .fin q

/-- The field is `null` or a number that is not negative. -/
def nullOrNonneg (x : Option Num) : Prop := ∀ v, x = some v → 0 ≤ v

/-- The label ` spots ` with the spaces around it. -/
def spotsLabel : List Char := [' ', 's', 'p', 'o', 't', 's', ' ']

/-- The label ` boxes ` with the spaces around it. -/
def boxesLabel : List Char := [' ', 'b', 'o', 'x', 'e', 's', ' ']

/-- Whether the text ends with the letter `a`, or with the letters `at` and
nothing but white space after them. -/
def endsWithAt : List Char → Bool
  | [] => false
  | c :: t =>
    (c == 'a' && (match t with
      | [] => true
      | x :: u => x == 't' && u.all isSpace)) || endsWithAt t

/-- Words that may stand before or between the phrases: a text without digits
and without `@`, that does not end with `at`, and that is empty or ends with a
space. -/
def isGap (g : List Char) : Prop :=
  (∀ c ∈ g, isDigit c = false ∧ c ≠ '@') ∧ endsWithAt g = false ∧
  (g = [] ∨ g.getLast? = some ' ')

/-- The text `pre N spots m1 M boxes m2 X`. -/
def phrasesText (pre N m1 M m2 X : List Char) : List Char :=
  pre ++ (N ++ (spotsLabel ++ (m1 ++ (M ++ (boxesLabel ++ (m2 ++ X))))))


/-- A numeral too large for a double: 310 digits `9`. -/
def ninesText : String := String.mk (List.replicate 310 '9')

/-- A text with a numeral too large for a double: `75 spots 3 boxes`, the
numeral of 310 digits `9`, and `50`. -/
def overflowText : String := "75 spots 3 boxes " ++ ninesText ++ " 50"

/-- The session reached from `s` by the answers `answers`, each with the time
at which it is handled. -/
def runWizard (s : Session) (answers : List (String × ℕ)) : Session :=
  answers.foldl (fun acc a => advanceBreakdownWizard acc a.1 a.2) s

/-- The three fields of the record are positive numbers. -/
def allPresent (d : BreakData) : Prop :=
  present d.spots = true ∧ present d.boxes = true ∧ present d.costPerBox = true

/-- The invariant of the wizard: no field is negative, and at the step `done`
every field is positive. -/
def wizardInv (s : Session) : Prop :=
  (nullOrNonneg s.data.spots ∧ nullOrNonneg s.data.boxes ∧ nullOrNonneg s.data.costPerBox) ∧
  (s.step = "done" → allPresent s.data)

/-- The identifier that a pruning works on, if any: an identifier that is not
`null`, not the empty string, and not the identifier to keep. -/
def pruneTarget (keepId : Option String) (id : Option String) : Option String :=
  match id with
  | some s => if s ≠ "" ∧ some s ≠ keepId then some s else none
  | none => none

/-- The identifiers that a pruning works on, with their positions in the trail. -/
def pruneTargets (messageIds : List (Option String)) (keepId : Option String) :
    List (ℕ × String) :=
  messageIds.enum.filterMap (fun x => (pruneTarget keepId x.2).map (fun s => (x.1, s)))

/-- The calls of a best-effort pruning of the given identifiers: for each one,
in order, a fetch, followed by a delete when the fetch succeeded. -/
def callsOn (channel : Channel) (targets : List (ℕ × String)) : List Attempt :=
  targets.flatMap (fun x =>
    match channel.fetch x.1 x.2 with
    | .ok _ => [.fetch x.2, .delete x.2]
    | .error _ => [.fetch x.2])

/-- The identifiers fetched among the calls of a pruning, in order. -/
def fetchedIds (calls : List Attempt) : List String :=
  calls.filterMap (fun a =>
    match a with
    | .fetch id => some id
    | .delete _ => none)

/-- The text `text` holds the line `line`. -/
def hasLine (text line : String) : Prop := ∃ pre post : String, text = pre ++ line ++ post

/-- The content of a message is handled as an answer to a live session: after
trimming and lower-casing it is not the word `cancel` and does not start with
a command prefix (`mw`, `mecha`). -/
def isAnswer (content : String) : Bool :=
  !decide (lowerText (trimText content) = "cancel") &&
    !startsWith (lowerText (trimText content)) "mw" &&
    !startsWith (lowerText (trimText content)) "mecha"

/-- The successive runs of the handler of the show board on a list of incoming
messages, each with the answers of the platform and of the forum and the time
of its run; every run starts from the store left by the run before. -/
def runShow (config : Show.ShowConfig) :
    Store Show.ShowSession → List (Platform × Show.Forum × ℕ × Message) → List Show.ShowHandled
  | _, [] => []
  | sessions, (p, f, now, message) :: rest =>
    (Show.handleMessage config p f now sessions message) ::
      runShow config (Show.handleMessage config p f now sessions message).sessions rest

/-- The answers of a platform on which every call succeeds; replies get the
identifier `id`. -/
def platformOk (id : String) : Platform :=
  ⟨.ok id, .ok (), .ok (), .ok id, ⟨fun _ _ => .ok (), fun _ _ => .ok ()⟩⟩

/-- The answers of a forum in which every call succeeds and no show is stored. -/
def forumOk : Show.Forum :=
  ⟨.ok true, .ok [], .ok ("thread", some "first"), .ok true, .ok (), .ok (), "2026-01-09T00:00:00.000Z"⟩

/-- The state of the session stored under `key` after each run: its step index
and whether its record is complete, or `none` when no session is stored. -/
def sessionStates (key : String) (runs : List Show.ShowHandled) : List (Option (ℕ × Bool)) :=
  runs.map (fun r => (r.sessions key).map (fun s => (s.stepIndex, Show.isComplete s.data)))

/-- The link stored for an answer at the link step: `null` for `skip` and
`none`, the trimmed answer otherwise. -/
def linkOf (content : String) : Option String :=
  if lowerText (trimText content) = "skip" ∨ lowerText (trimText content) = "none" then none
  else some (trimText content)

/-- An answer that consists of a whole number at least 1: decimal digits with a
value of 1 or more. -/
def isWholeAnswer (answer : String) : Prop :=
  isDigits answer.toList ∧ 1 ≤ natOfDigits answer.toList

/-- The number of fields of the record that the wizard still asks for. -/
def missingCount (s : Session) : ℕ := (neededOf s.data).length

/-! ## Auxiliary definitions of the proofs -/

/-- The character before the position reached after reading `s` from a position
whose previous character is `prev`. -/
def prevAfter (prev : Option Char) (s : List Char) : Option Char :=
  match s.getLast? with
  | some c => some c
  | none => prev

/-- Whether the text starts with a digit. -/
def startsWithDigit (s : List Char) : Bool :=
  match s with
  | c :: _ => isDigit c
  | [] => false

/-- The pattern `(?:\.\d{1,2})?` inside `reNumber`. -/
def reFraction : Re := .opt (Re.cat [.chr '.', .cls isDigit, .upTo isDigit 1])

/-- The continuation of a capture group opened at the text `s`. -/
def closeGroup {α : Type} (s : List Char) (R : Re) (k : MState → Option α) :
    MState → Option α :=
  fun st1 => R.run ⟨st1.prev, st1.rest, st1.caps ++ [s.take (s.length - st1.rest.length)]⟩ k

/-- The part of `reSpots` after the group. -/
def spotsTail : Re := Re.cat [.star isSpace, Re.lit "spot", .opt (.chr 's'), .wordB]

/-- The part of `reBoxes` after the group. -/
def boxesTail : Re := Re.cat [.star isSpace, Re.lit "boxe", .opt (.chr 's'), .wordB]

/-- The part of `reAt` after the group. -/
def atTail : Re := Re.cat [.wordB]

/-- The part of `reEach` after the group. -/
def eachTail : Re := Re.cat [.star isSpace, .alt (Re.lit "each") (Re.lit "ea"), .wordB]

/-- The part of `reAt` after `at` or `@`. -/
def atRest : Re := .seq (.star isSpace) (.seq (.group reNumber) atTail)

/-- The replacement of one character by `stripCurrency`. -/
def blank (c : Char) : Char := if isCurrency c then ' ' else c

/-- The text after lower-casing and blanking of the currency signs. -/
def lowerBlank (s : List Char) : List Char := stripCurrency (toLowerCase s)

/-- The text matched by the patterns, computed from a text without the first
`trim`. -/
def normalizeCore (s : List Char) : List Char := trim (collapseSpaces (lowerBlank s))

/-- The amounts among the pieces of a text, in order. -/
def amountsOf (ps : List Piece) : List MoneyText :=
  ps.filterMap (fun p =>
    match p with
    | .amount m => some m
    | _ => none)

/-- The lines of the receipt before the line of the link. -/
def receiptHead (action : String) (data : Show.ShowData) : String :=
  "**🧠🥞 Mecha Waffles — Show Card " ++ action ++ "**\n" ++
  "**Whatnot:** " ++ Show.templateText data.whatnotName ++ "\n" ++
  "**When:** " ++ Show.templateText data.date ++ " " ++ Show.templateText data.time ++ "\n" ++
  "**Description:** " ++ Show.templateText data.description ++ "\n"

/-- The lines of the receipt after the line of the link. -/
def receiptTail (threadUrl : Option String) : String :=
  (if truthyText threadUrl then "\n**Forum Post:** " ++ Show.templateText threadUrl ++ "\n" else "") ++
  "\nIf you need to change anything, just run `mw show` again."

/-- The step that belongs to a record: its first field still asked for, or
`done`. -/
def stepOf (d : BreakData) : String := (neededOf d).head?.getD "done"

/-! ## Basic facts -/

theorem Num.zero_eq : (0 : Num) = .fin 0 := by
  show Num.fin ((0 : ℕ) : ℚ) = .fin 0
  rw [Nat.cast_zero]

theorem Num.one_eq : (1 : Num) = .fin 1 := by
  show Num.fin ((1 : ℕ) : ℚ) = .fin 1
  rw [Nat.cast_one]

theorem Num.lt_iff (a b : Num) : a < b ↔ Num.lt a b = true := Iff.rfl

theorem Num.le_iff (a b : Num) : a ≤ b ↔ Num.le a b = true := Iff.rfl

theorem Num.fin_lt_fin (a b : ℚ) : Num.fin a < Num.fin b ↔ a < b := by
  simp [Num.lt_iff, Num.lt]

theorem Num.fin_le_fin (a b : ℚ) : Num.fin a ≤ Num.fin b ↔ a ≤ b := by
  simp [Num.le_iff, Num.le]

theorem Num.zero_lt_fin (a : ℚ) : (0 : Num) < Num.fin a ↔ 0 < a := by
  rw [Num.zero_eq, Num.fin_lt_fin]

theorem Num.zero_le_fin (a : ℚ) : (0 : Num) ≤ Num.fin a ↔ 0 ≤ a := by
  rw [Num.zero_eq, Num.fin_le_fin]

theorem Num.fin_le_zero (a : ℚ) : Num.fin a ≤ (0 : Num) ↔ a ≤ 0 := by
  rw [Num.zero_eq, Num.fin_le_fin]

theorem Num.zero_lt_posInf : (0 : Num) < Num.posInf := by
  rw [Num.zero_eq]; rfl

theorem Num.zero_le_posInf : (0 : Num) ≤ Num.posInf := by
  rw [Num.zero_eq]; rfl

theorem Num.not_zero_lt_negInf : ¬ (0 : Num) < Num.negInf := by
  rw [Num.zero_eq]; simp [Num.lt_iff, Num.lt]

theorem Num.not_zero_le_negInf : ¬ (0 : Num) ≤ Num.negInf := by
  rw [Num.zero_eq]; simp [Num.le_iff, Num.le]

theorem Num.not_zero_lt_nan : ¬ (0 : Num) < Num.nan := by
  rw [Num.zero_eq]; simp [Num.lt_iff, Num.lt]

theorem Num.not_zero_le_nan : ¬ (0 : Num) ≤ Num.nan := by
  rw [Num.zero_eq]; simp [Num.le_iff, Num.le]

theorem Num.zero_le_of_lt (v : Num) (h : 0 < v) : 0 ≤ v := by
  cases v with
  | fin q => exact (Num.zero_le_fin q).2 (le_of_lt ((Num.zero_lt_fin q).1 h))
  | posInf => exact Num.zero_le_posInf
  | negInf => exact absurd h Num.not_zero_lt_negInf
  | nan => exact absurd h Num.not_zero_lt_nan

theorem truthy_of_zero_lt (v : Num) (h : 0 < v) : truthy (some v) = true := by
  cases v with
  | fin q => simp [truthy, ne_of_gt ((Num.zero_lt_fin q).1 h)]
  | posInf => rfl
  | negInf => exact absurd h Num.not_zero_lt_negInf
  | nan => exact absurd h Num.not_zero_lt_nan

theorem isMissing_eq (x : Option Num) : isMissing x = !present x := by
  cases x with
  | none => rfl
  | some v =>
    cases v with
    | fin q =>
      by_cases h : 0 < q
      · have h0 : q ≠ 0 := ne_of_gt h
        have h1 : ¬ q ≤ 0 := not_le.2 h
        simp [isMissing, truthy, present, Num.zero_lt_fin, Num.fin_le_zero, h, h0, h1]
      · have h1 : q ≤ 0 := not_lt.mp h
        simp [isMissing, truthy, present, Num.zero_lt_fin, Num.fin_le_zero, h, h1]
    | posInf => decide
    | negInf => decide
    | nan => decide

theorem truthy_eq (x : Option Num) : truthy x = !absent x := by
  cases x with
  | none => rfl
  | some v =>
    cases v with
    | fin q =>
      by_cases h : q = 0
      · subst h; simp [truthy, absent, Num.zero_eq]
      · simp [truthy, absent, Num.zero_eq, h]
    | posInf => decide
    | negInf => decide
    | nan => decide

theorem missingOf_eq (d : BreakData) :
    missingOf d = labelsWhere (fun x => !present x)
      [("spots", d.spots), ("boxes", d.boxes), ("cost per box", d.costPerBox)] := by
  simp only [missingOf, isMissing_eq, labelsWhere, List.filter]
  cases present d.spots <;> cases present d.boxes <;> cases present d.costPerBox <;> rfl

theorem missingOf_nil_iff (d : BreakData) :
    missingOf d = [] ↔ present d.spots = true ∧ present d.boxes = true ∧ present d.costPerBox = true := by
  simp only [missingOf, isMissing_eq]
  cases present d.spots <;> cases present d.boxes <;> cases present d.costPerBox <;> simp

theorem afterTimes_boxes_some (n : List Char) (b : Num) (p : Option Num) :
    (afterTimes n (some b) p).1 = some b := by
  unfold afterTimes
  split
  · split <;> rfl
  · rfl

theorem afterTimes_price_some (n : List Char) (b : Option Num) (p : Num) :
    (afterTimes n b (some p)).2 = some p := by
  unfold afterTimes
  split
  · split <;> rfl
  · rfl

theorem trunc_of_isInteger (v : Num) (h : isInteger v = true) : trunc v = v := by
  cases v with
  | fin q =>
    have hd : q.den = 1 := by simpa [isInteger] using h
    unfold trunc
    simp only [hd, Nat.cast_one, Int.tdiv_one]
    rw [(Rat.den_eq_one_iff q).mp hd]
  | posInf => rfl
  | negInf => rfl
  | nan => rfl

theorem absent_eq_of_nonneg (x : Option Num) (h : nullOrNonneg x) : absent x = !present x := by
  cases x with
  | none => rfl
  | some v =>
    have hv : 0 ≤ v := h v rfl
    cases v with
    | fin q =>
      have hq : 0 ≤ q := (Num.zero_le_fin q).1 hv
      by_cases h0 : q = 0
      · subst h0; simp [absent, present, Num.zero_eq, Num.fin_lt_fin]
      · have hpos : 0 < q := lt_of_le_of_ne hq (Ne.symm h0)
        simp [absent, present, Num.zero_eq, Num.fin_lt_fin, h0, hpos]
    | posInf => decide
    | negInf => exact absurd hv Num.not_zero_le_negInf
    | nan => exact absurd hv Num.not_zero_le_nan

theorem nullOrFinite_finiteOrNull (x : Option Num) : nullOrFinite (finiteOrNull x) := by
  intro v hv
  match x, hv with
  | some (.fin q), hv =>
    cases hv
    exact ⟨q, rfl⟩

/-! ## Facts about characters -/

theorem isWord_of_isDigit {c : Char} (h : isDigit c = true) : isWord c = true := by
  simp only [isDigit, Bool.and_eq_true, decide_eq_true_eq] at h
  simp [isWord, h.1, h.2]

theorem isSpace_of_isDigit {c : Char} (h : isDigit c = true) : isSpace c = false := by
  simp only [isDigit, Bool.and_eq_true, decide_eq_true_eq] at h
  simp only [isSpace, Bool.or_eq_false_iff, Bool.and_eq_false_iff, decide_eq_false_iff_not]
  omega

theorem ne_of_isDigit {c x : Char} (h : isDigit c = true) (hx : isDigit x = false) : c ≠ x := by
  intro hc
  rw [hc, hx] at h
  exact Bool.noConfusion h

theorem prevAfter_cons (prev : Option Char) (c : Char) (s : List Char) :
    prevAfter prev (c :: s) = prevAfter (some c) s := by
  cases s with
  | nil => rfl
  | cons d t =>
    simp only [prevAfter, List.getLast?_cons_cons]
    cases h : (d :: t).getLast? with
    | none => simp at h
    | some x => rfl

theorem isWordAt_prevAfter (prev : Option Char) (s : List Char) (hs : s ≠ [])
    (hd : ∀ c ∈ s, isDigit c = true) : isWordAt (prevAfter prev s) = true := by
  induction s generalizing prev with
  | nil => exact absurd rfl hs
  | cons c t ih =>
    rw [prevAfter_cons]
    cases t with
    | nil => exact isWord_of_isDigit (hd c (List.mem_cons_self _ _))
    | cons d u =>
      exact ih (some c) (List.cons_ne_nil _ _) (fun x hx => hd x (List.mem_cons_of_mem _ hx))

/-! ## Facts about the matcher -/

theorem starRun_digits {α : Type} (caps : List (List Char)) (k : MState → Option α)
    (hk : ∀ q c t, isDigit q = true → isDigit c = true → k ⟨some q, c :: t, caps⟩ = none)
    (tail : List Char) (ht : startsWithDigit tail = false) :
    ∀ (ds : List Char), (∀ c ∈ ds, isDigit c = true) → ∀ q, isDigit q = true →
      starRun isDigit caps k (some q) (ds ++ tail) = k ⟨prevAfter (some q) ds, tail, caps⟩ := by
  intro ds
  induction ds with
  | nil =>
    intro _ q _
    cases tail with
    | nil => rfl
    | cons c t =>
      have hc : isDigit c = false := ht
      simp [starRun, hc, prevAfter]
  | cons c t ih =>
    intro hd q hq
    have hc := hd c (List.mem_cons_self _ _)
    have h1 := ih (fun x hx => hd x (List.mem_cons_of_mem _ hx)) c hc
    show starRun isDigit caps k (some q) (c :: (t ++ tail)) = _
    rw [starRun, prevAfter_cons, ← h1]
    simp only [hc, if_true, hk q c (t ++ tail) hq hc]
    cases starRun isDigit caps k (some c) (t ++ tail) <;> rfl

theorem run_seq {α : Type} (a b : Re) (st : MState) (k : MState → Option α) :
    (Re.seq a b).run st k = a.run st (fun st1 => b.run st1 k) := rfl

theorem run_wordB {α : Type} (st : MState) (k : MState → Option α) :
    Re.wordB.run st k = if isWordAt st.prev != isWordAt st.rest.head? then k st else none := rfl

theorem run_group {α : Type} (a : Re) (st : MState) (k : MState → Option α) :
    (Re.group a).run st k = a.run st (fun st1 =>
      k ⟨st1.prev, st1.rest,
        st1.caps ++ [st.rest.take (st.rest.length - st1.rest.length)]⟩) := rfl

theorem run_plus_digits {α : Type} (k : MState → Option α) (prev : Option Char)
    (N tail : List Char) (caps : List (List Char)) (hN : N ≠ [])
    (hd : ∀ c ∈ N, isDigit c = true) (ht : startsWithDigit tail = false)
    (hk : ∀ q c t, isDigit q = true → isDigit c = true → k ⟨some q, c :: t, caps⟩ = none) :
    (Re.plus isDigit).run ⟨prev, N ++ tail, caps⟩ k = k ⟨prevAfter prev N, tail, caps⟩ := by
  obtain ⟨d, ds, rfl⟩ := List.exists_cons_of_ne_nil hN
  have hd0 := hd d (List.mem_cons_self _ _)
  have hds : ∀ c ∈ ds, isDigit c = true := fun c hc => hd c (List.mem_cons_of_mem _ hc)
  simp only [Re.plus, Re.run, List.cons_append, hd0, if_true]
  rw [starRun_digits caps k hk tail ht ds hds d hd0, prevAfter_cons]

theorem take_length_sub (a b : List Char) : (a ++ b).take ((a ++ b).length - b.length) = a := by
  simp

theorem run_group_digits {α : Type} (R : Re) (k : MState → Option α) (prev : Option Char)
    (N tail : List Char) (caps : List (List Char)) (hN : N ≠ [])
    (hd : ∀ c ∈ N, isDigit c = true) (ht : startsWithDigit tail = false)
    (hR : ∀ q c t caps1, isDigit q = true → isDigit c = true →
      R.run ⟨some q, c :: t, caps1⟩ k = none) :
    (Re.seq (.group (Re.plus isDigit)) R).run ⟨prev, N ++ tail, caps⟩ k =
      R.run ⟨prevAfter prev N, tail, caps ++ [N]⟩ k := by
  rw [run_seq, run_group,
    run_plus_digits _ prev N tail caps hN hd ht (fun q c t hq hc => hR q c t _ hq hc)]
  simp only [take_length_sub]

theorem reNumber_eq : reNumber = .seq (Re.plus isDigit) reFraction := rfl

theorem run_group_seq {α : Type} (a R : Re) (st : MState) (k : MState → Option α) :
    (Re.seq (.group a) R).run st k = a.run st (closeGroup st.rest R k) := rfl

theorem reFraction_run_digit {α : Type} (k : MState → Option α) (q : Option Char) (c : Char)
    (t : List Char) (caps : List (List Char)) (hc : isDigit c = true) :
    reFraction.run ⟨q, c :: t, caps⟩ k = k ⟨q, c :: t, caps⟩ := by
  have h : c ≠ '.' := ne_of_isDigit hc (by decide)
  simp [reFraction, Re.cat, Re.run, h]

theorem run_group_number {α : Type} (R : Re) (k : MState → Option α) (prev : Option Char)
    (ip tail : List Char) (caps : List (List Char)) (hN : ip ≠ [])
    (hd : ∀ c ∈ ip, isDigit c = true) (ht : startsWithDigit tail = false)
    (hR : ∀ q c t caps1, isDigit q = true → isDigit c = true →
      R.run ⟨some q, c :: t, caps1⟩ k = none) :
    (Re.seq (.group reNumber) R).run ⟨prev, ip ++ tail, caps⟩ k =
      reFraction.run ⟨prevAfter prev ip, tail, caps⟩ (closeGroup (ip ++ tail) R k) := by
  rw [run_group_seq, reNumber_eq, run_seq, run_plus_digits _ prev ip tail caps hN hd ht]
  intro q c t hq hc
  rw [reFraction_run_digit _ _ _ _ _ hc]
  exact hR q c t _ hq hc

/-! ## Facts about the leftmost search -/

theorem execFrom_cons_none (re : Re) (prev : Option Char) (c : Char) (t : List Char)
    (h : re.matchAt prev (c :: t) = none) :
    re.execFrom prev (c :: t) = re.execFrom (some c) t := by
  simp [Re.execFrom, h]

theorem execFrom_some (re : Re) (prev : Option Char) (s : List Char) (m : Match)
    (h : re.matchAt prev s = some m) : re.execFrom prev s = some m := by
  cases s <;> simp [Re.execFrom, h]

theorem execFrom_skip (re : Re) (Q : Char → Prop)
    (hQ : ∀ prev c t, Q c → re.matchAt prev (c :: t) = none) (s : List Char) :
    ∀ (pre : List Char), (∀ c ∈ pre, Q c) → ∀ prev,
      re.execFrom prev (pre ++ s) = re.execFrom (prevAfter prev pre) s := by
  intro pre
  induction pre with
  | nil => intro _ prev; rfl
  | cons c t ih =>
    intro h prev
    have hc := h c (List.mem_cons_self _ _)
    rw [List.cons_append, execFrom_cons_none re prev c (t ++ s) (hQ prev c _ hc), prevAfter_cons]
    exact ih (fun x hx => h x (List.mem_cons_of_mem _ hx)) (some c)

theorem matchAt_wordB_none (R : Re) (prev : Option Char) (s : List Char)
    (h : isWordAt prev = isWordAt s.head?) : (Re.seq .wordB R).matchAt prev s = none := by
  rw [Re.matchAt, run_seq, run_wordB]
  simp [h]

theorem execFrom_skip_digits (R : Re) (s : List Char) :
    ∀ (ds : List Char), (∀ c ∈ ds, isDigit c = true) → ∀ prev, isWordAt prev = true →
      (Re.seq .wordB R).execFrom prev (ds ++ s) =
        (Re.seq .wordB R).execFrom (prevAfter prev ds) s := by
  intro ds
  induction ds with
  | nil => intro _ prev _; rfl
  | cons c t ih =>
    intro h prev hp
    have hc := isWord_of_isDigit (h c (List.mem_cons_self _ _))
    rw [List.cons_append, execFrom_cons_none _ prev c (t ++ s)
      (matchAt_wordB_none R prev _ (by rw [hp]; exact hc.symm)), prevAfter_cons]
    exact ih (fun x hx => h x (List.mem_cons_of_mem _ hx)) (some c) hc

theorem run_chr_cons {α : Type} (c : Char) (prev : Option Char) (t : List Char)
    (caps : List (List Char)) (k : MState → Option α) :
    (Re.chr c).run ⟨prev, c :: t, caps⟩ k = k ⟨some c, t, caps⟩ := by
  simp [Re.run]

theorem run_alt {α : Type} (a b : Re) (st : MState) (k : MState → Option α) :
    (Re.alt a b).run st k =
      match a.run st k with
      | some r => some r
      | none => b.run st k := rfl

theorem run_alt_left {α : Type} (a b : Re) (st : MState) (k : MState → Option α) (r : α)
    (h : a.run st k = some r) : (Re.alt a b).run st k = some r := by
  simp [Re.run, h]

theorem run_star_one {α : Type} (p : Char → Bool) (prev : Option Char) (c : Char)
    (t : List Char) (caps : List (List Char)) (k : MState → Option α) (r : α)
    (hc : p c = true) (ht : ∀ x ∈ t.head?, p x = false)
    (h : k ⟨some c, t, caps⟩ = some r) :
    (Re.star p).run ⟨prev, c :: t, caps⟩ k = some r := by
  cases t with
  | nil => simp [Re.run, starRun, hc, h]
  | cons x xs =>
    have hx : p x = false := ht x rfl
    simp [Re.run, starRun, hc, hx, h]

/-! ## Rounding to a double -/

theorem pow2_eq_zpow (k : ℤ) : pow2 k = (2 : ℚ) ^ k := by
  unfold pow2
  split
  · rename_i h
    rw [Nat.cast_pow, Nat.cast_ofNat, ← zpow_natCast, Int.toNat_of_nonneg h]
  · rename_i h
    have h1 : 0 ≤ -k := by omega
    rw [Nat.cast_pow, Nat.cast_ofNat, ← zpow_natCast, Int.toNat_of_nonneg h1, zpow_neg,
      one_div, inv_inv]

theorem pow2_pos (k : ℤ) : 0 < pow2 k := by
  rw [pow2_eq_zpow]
  positivity

theorem one_le_pow2 (k : ℤ) (h : 0 ≤ k) : 1 ≤ pow2 k := by
  rw [pow2_eq_zpow]
  exact one_le_zpow₀ (by norm_num) h

theorem natLog2Aux_spec (fuel : ℕ) : ∀ n : ℕ, n ≤ fuel → 1 ≤ n →
    2 ^ natLog2Aux fuel n ≤ n ∧ n < 2 ^ (natLog2Aux fuel n + 1) := by
  induction fuel with
  | zero => intro n h h1; omega
  | succ fuel ih =>
    intro n h h1
    unfold natLog2Aux
    by_cases h2 : n < 2
    · rw [if_pos h2]
      have : n = 1 := by omega
      subst this
      simp
    · rw [if_neg h2]
      have h3 := ih (n / 2) (by omega) (by omega)
      generalize natLog2Aux fuel (n / 2) = k at h3
      have e1 : 2 ^ (k + 1) = 2 ^ k * 2 := pow_succ 2 k
      have e2 : 2 ^ (k + 1 + 1) = 2 ^ k * 2 * 2 := by rw [pow_succ, pow_succ]
      rw [e1] at h3
      rw [e1, e2]
      generalize 2 ^ k = p at h3
      omega

theorem natLog2_spec (n : ℕ) (h : 1 ≤ n) : 2 ^ natLog2 n ≤ n ∧ n < 2 ^ (natLog2 n + 1) :=
  natLog2Aux_spec n n (le_refl n) h

/-- The exponent found by `log2Floor` is the one of the binade of `a`:
`2^e ≤ a < 2^(e+1)`. -/
theorem log2Floor_spec (a : ℚ) (ha : 0 < a) :
    pow2 (log2Floor a) ≤ a ∧ a < pow2 (log2Floor a + 1) := by
  have hnum : 0 < a.num := Rat.num_pos.mpr ha
  have hN : 1 ≤ a.num.natAbs := by omega
  have hD : 1 ≤ a.den := a.den_pos
  obtain ⟨n1, n2⟩ := natLog2_spec a.num.natAbs hN
  obtain ⟨d1, d2⟩ := natLog2_spec a.den hD
  have ea : a = (a.num.natAbs : ℚ) / (a.den : ℚ) := by
    have h1 : ((a.num.natAbs : ℤ) : ℚ) = (a.num : ℚ) := by
      rw [Int.natCast_natAbs, abs_of_pos hnum]
    rw [← Int.cast_natCast a.num.natAbs, h1]
    exact (Rat.num_div_den a).symm
  have hDq : (0 : ℚ) < a.den := by exact_mod_cast hD
  have n1q : (2 : ℚ) ^ (natLog2 a.num.natAbs) ≤ (a.num.natAbs : ℚ) := by exact_mod_cast n1
  have n2q : (a.num.natAbs : ℚ) < (2 : ℚ) ^ (natLog2 a.num.natAbs + 1) := by exact_mod_cast n2
  have d1q : (2 : ℚ) ^ (natLog2 a.den) ≤ (a.den : ℚ) := by exact_mod_cast d1
  have d2q : (a.den : ℚ) < (2 : ℚ) ^ (natLog2 a.den + 1) := by exact_mod_cast d2
  obtain ⟨ln, hln⟩ : ∃ ln, natLog2 a.num.natAbs = ln := ⟨_, rfl⟩
  obtain ⟨ld, hld⟩ : ∃ ld, natLog2 a.den = ld := ⟨_, rfl⟩
  rw [hln] at n1q n2q
  rw [hld] at d1q d2q
  -- the bounds `2^(ln - ld - 1) < a < 2^(ln - ld + 1)`
  have lo : pow2 ((ln : ℤ) - (ld : ℤ) - 1) < a := by
    rw [pow2_eq_zpow, zpow_sub₀ (by norm_num), zpow_sub₀ (by norm_num), zpow_natCast,
      zpow_natCast, zpow_one, div_div, ← pow_succ]
    rw [ea]
    calc (2 : ℚ) ^ ln / 2 ^ (ld + 1) < 2 ^ ln / (a.den : ℚ) :=
          div_lt_div_of_pos_left (by positivity) hDq d2q
      _ ≤ (a.num.natAbs : ℚ) / (a.den : ℚ) := div_le_div_of_nonneg_right n1q (le_of_lt hDq)
  have hi : a < pow2 ((ln : ℤ) - (ld : ℤ) + 1) := by
    have e : ((ln : ℤ) - (ld : ℤ) + 1) = ((ln + 1 : ℕ) : ℤ) - (ld : ℤ) := by push_cast; ring
    rw [e, pow2_eq_zpow, zpow_sub₀ (by norm_num), zpow_natCast, zpow_natCast]
    rw [ea]
    calc (a.num.natAbs : ℚ) / (a.den : ℚ) < 2 ^ (ln + 1) / (a.den : ℚ) :=
          div_lt_div_of_pos_right n2q hDq
      _ ≤ 2 ^ (ln + 1) / 2 ^ ld := div_le_div_of_nonneg_left (by positivity) (by positivity) d1q
  unfold log2Floor
  simp only
  rw [hln, hld]
  split
  · rename_i h
    exact ⟨h, hi⟩
  · rename_i h
    refine ⟨?_, ?_⟩
    · exact le_of_lt lo
    · rw [sub_add_cancel]
      exact not_le.mp h

theorem le_roundHalfEven (y : ℚ) : (⌊y⌋).toNat ≤ roundHalfEven y := by
  unfold roundHalfEven
  simp only
  split
  · exact le_refl _
  · split
    · exact Nat.le_succ _
    · split
      · exact le_refl _
      · exact Nat.le_succ _

theorem natCast_le_roundHalfEven (n : ℕ) (y : ℚ) (h : (n : ℚ) ≤ y) : n ≤ roundHalfEven y := by
  have h1 : (n : ℤ) ≤ ⌊y⌋ := Int.le_floor.mpr (by exact_mod_cast h)
  have h2 : n ≤ (⌊y⌋).toNat := by omega
  exact le_trans h2 (le_roundHalfEven y)

/-- The rounded value of a number that is not negative is not negative. -/
theorem roundDouble_nonneg (x : ℚ) (h : 0 ≤ x) : 0 ≤ roundDouble x := by
  unfold roundDouble
  split
  · exact (Num.zero_le_fin 0).2 (le_refl 0)
  · simp only [not_lt.2 h, if_false]
    split
    · exact Num.zero_le_posInf
    · exact (Num.zero_le_fin _).2 (mul_nonneg (Nat.cast_nonneg _) (le_of_lt (pow2_pos _)))

/-- The rounded value of a number that is at least 1 is a number at least 1, or
the infinity. -/
theorem roundDouble_ge_one (x : ℚ) (h : 1 ≤ x) :
    roundDouble x = .posInf ∨ ∃ r : ℚ, roundDouble x = .fin r ∧ 1 ≤ r := by
  have hx0 : 0 < x := lt_of_lt_of_le one_pos h
  have hab : |x| = x := abs_of_pos hx0
  unfold roundDouble
  rw [if_neg (ne_of_gt hx0)]
  simp only [not_lt.2 (le_of_lt hx0), if_false, hab]
  split
  · exact Or.inl rfl
  · refine Or.inr ⟨_, rfl, ?_⟩
    generalize hq : max (log2Floor x - 52) (-1074) = q
    by_cases hq0 : q ≤ 0
    · -- the last bit is at most 1: `x / 2^q` is at least the whole number `2^(-q)`
      have e : pow2 q = 1 / ((2 ^ (-q).toNat : ℕ) : ℚ) := by
        unfold pow2
        by_cases hz : 0 ≤ q
        · have : q = 0 := le_antisymm hq0 hz
          subst this
          simp
        · rw [if_neg hz]
      have hp : (0 : ℚ) < ((2 ^ (-q).toNat : ℕ) : ℚ) := by positivity
      have h1 : ((2 ^ (-q).toNat : ℕ) : ℚ) ≤ x / pow2 q := by
        rw [e, div_div_eq_mul_div, div_one]
        calc ((2 ^ (-q).toNat : ℕ) : ℚ) = 1 * ((2 ^ (-q).toNat : ℕ) : ℚ) := (one_mul _).symm
          _ ≤ x * ((2 ^ (-q).toNat : ℕ) : ℚ) := mul_le_mul_of_nonneg_right h (le_of_lt hp)
      have h2 := natCast_le_roundHalfEven _ _ h1
      have h3 : ((2 ^ (-q).toNat : ℕ) : ℚ) ≤ (roundHalfEven (x / pow2 q) : ℚ) := by
        exact_mod_cast h2
      calc (1 : ℚ) = ((2 ^ (-q).toNat : ℕ) : ℚ) * pow2 q := by
            rw [e]; field_simp
        _ ≤ (roundHalfEven (x / pow2 q) : ℚ) * pow2 q :=
            mul_le_mul_of_nonneg_right h3 (le_of_lt (pow2_pos q))
    · -- the last bit is above 1: `x / 2^q` is at least `2^52`
      have hq1 : 0 < q := not_le.mp hq0
      have hqe : q = log2Floor x - 52 := by
        rcases max_choice (log2Floor x - 52) (-1074) with h1 | h1
        · rw [← hq, h1]
        · rw [h1] at hq; omega
      have hl := (log2Floor_spec x hx0).1
      have h1 : ((1 : ℕ) : ℚ) ≤ x / pow2 q := by
        rw [Nat.cast_one, le_div_iff₀ (pow2_pos q), one_mul]
        refine le_trans ?_ hl
        rw [pow2_eq_zpow, pow2_eq_zpow]
        exact zpow_le_zpow_right₀ (by norm_num) (by omega)
      have h2 := natCast_le_roundHalfEven _ _ h1
      have h3 : (1 : ℚ) ≤ (roundHalfEven (x / pow2 q) : ℚ) := by exact_mod_cast h2
      calc (1 : ℚ) = 1 * 1 := (one_mul 1).symm
        _ ≤ (roundHalfEven (x / pow2 q) : ℚ) * pow2 q :=
            mul_le_mul h3 (one_le_pow2 q (le_of_lt hq1)) zero_le_one (le_trans zero_le_one h3)

theorem roundDouble_ne_nan (x : ℚ) : roundDouble x ≠ .nan := by
  unfold roundDouble
  split
  · exact fun h => Num.noConfusion h
  · simp only
    split
    · split <;> exact fun h => Num.noConfusion h
    · exact fun h => Num.noConfusion h

theorem roundHalfEven_near (y : ℚ) (hy : 0 ≤ y) : |(roundHalfEven y : ℚ) - y| ≤ 1 / 2 := by
  have h0 : 0 ≤ ⌊y⌋ := Int.floor_nonneg.2 hy
  have hc : (((⌊y⌋).toNat : ℕ) : ℚ) = ((⌊y⌋ : ℤ) : ℚ) := by
    have := Int.toNat_of_nonneg h0
    exact_mod_cast this
  have h1 := Int.floor_le y
  have h2 := Int.lt_floor_add_one y
  unfold roundHalfEven
  simp only
  rw [hc]
  split
  · rename_i h
    rw [abs_le]; constructor <;> linarith
  · rename_i h
    split
    · rename_i h3
      rw [Nat.cast_add, Nat.cast_one, hc, abs_le]; constructor <;> linarith
    · rename_i h3
      split
      · rw [hc, abs_le]; constructor <;> linarith
      · rw [Nat.cast_add, Nat.cast_one, hc, abs_le]; constructor <;> linarith

/-- The rounded value of `x` is `x` up to half a unit of the last bit: for a
number of absolute value at least `2^(-1022)` that does not overflow, the error
is at most `|x| / 2^53`, and below that it is at most `2^(-1075)`. -/
theorem roundDouble_near (x r : ℚ) (h : roundDouble x = .fin r) :
    |r - x| ≤ max (|x| / 2 ^ 53) (pow2 (-1075)) := by
  by_cases hx : x = 0
  · subst hx
    have : r = 0 := by
      have h1 : roundDouble 0 = .fin 0 := by unfold roundDouble; rw [if_pos rfl]
      rw [h1] at h
      exact (Num.fin.inj h).symm
    subst this
    simp only [sub_self, abs_zero]
    exact le_max_of_le_right (le_of_lt (pow2_pos _))
  · have ha : 0 < |x| := abs_pos.2 hx
    obtain ⟨q, hq⟩ : ∃ q, max (log2Floor |x| - 52) (-1074) = q := ⟨_, rfl⟩
    have hp := pow2_pos q
    have hp0 : pow2 q ≠ 0 := ne_of_gt hp
    have hy : 0 ≤ |x| / pow2 q := div_nonneg (le_of_lt ha) (le_of_lt hp)
    have hn := roundHalfEven_near _ hy
    have hdiv : |x| / pow2 q * pow2 q = |x| := div_mul_cancel₀ _ hp0
    have herr : |r - x| = |(roundHalfEven (|x| / pow2 q) : ℚ) - |x| / pow2 q| * pow2 q := by
      unfold roundDouble at h
      rw [if_neg hx] at h
      simp only [hq] at h
      split at h
      · split at h <;> exact Num.noConfusion h
      · have hr := Num.fin.inj h
        have e2 : |(roundHalfEven (|x| / pow2 q) : ℚ) - |x| / pow2 q| * pow2 q =
            |((roundHalfEven (|x| / pow2 q) : ℚ) - |x| / pow2 q) * pow2 q| := by
          rw [abs_mul, abs_of_pos hp]
        rw [e2, sub_mul, hdiv]
        by_cases hneg : x < 0
        · rw [if_pos hneg] at hr
          rw [← hr, abs_of_neg hneg, ← abs_neg]
          congr 1
          ring
        · rw [if_neg hneg] at hr
          rw [← hr, abs_of_nonneg (not_lt.1 hneg)]
    have hhalf : |r - x| ≤ pow2 q / 2 := by
      rw [herr]
      calc |(roundHalfEven (|x| / pow2 q) : ℚ) - |x| / pow2 q| * pow2 q
          ≤ 1 / 2 * pow2 q := mul_le_mul_of_nonneg_right hn (le_of_lt hp)
        _ = pow2 q / 2 := by ring
    have hl := (log2Floor_spec |x| ha).1
    rcases max_choice (log2Floor |x| - 52) (-1074) with h1 | h1
    · -- the last bit is `2^(e - 52)` with `2^e ≤ |x|`
      refine le_trans hhalf (le_max_of_le_left ?_)
      rw [← hq, h1, pow2_eq_zpow, zpow_sub₀ (by norm_num), ← pow2_eq_zpow]
      rw [div_div, div_le_div_iff₀ (by positivity) (by positivity)]
      have e : (2 : ℚ) ^ (52 : ℤ) * 2 = 2 ^ 53 := by norm_num
      calc pow2 (log2Floor |x|) * 2 ^ 53 ≤ |x| * 2 ^ 53 :=
            mul_le_mul_of_nonneg_right hl (by positivity)
        _ = |x| * (2 ^ (52 : ℤ) * 2) := by rw [e]
    · refine le_trans hhalf (le_max_of_le_right ?_)
      rw [← hq, h1, pow2_eq_zpow, pow2_eq_zpow]
      have e : (2 : ℚ) ^ (-1074 : ℤ) / 2 = 2 ^ (-1075 : ℤ) := by
        rw [show (-1075 : ℤ) = -1074 - 1 by norm_num, zpow_sub₀ (by norm_num), zpow_one]
      rw [e]

/-- The rounding on some known values: `0.1` and `-1/3`; the ties `2^53 + 1`
(to the even neighbour below) and `2^53 + 3` (to the even neighbour above); the
largest double, the overflow from the middle between it and `2^1024` on, and
a numeral of 310 digits; the smallest double, and the ties below it. -/
theorem roundDouble_examples :
    roundDouble (1 / 10) = .fin (3602879701896397 / 36028797018963968) ∧
    roundDouble (-1 / 3) = .fin (-6004799503160661 / 18014398509481984) ∧
    roundDouble (2 ^ 53 + 1) = .fin (2 ^ 53) ∧
    roundDouble (2 ^ 53 + 3) = .fin (2 ^ 53 + 4) ∧
    roundDouble (2 ^ 1024 - 2 ^ 971) = .fin (2 ^ 1024 - 2 ^ 971) ∧
    roundDouble (2 ^ 1024 - 2 ^ 970 - 1) = .fin (2 ^ 1024 - 2 ^ 971) ∧
    roundDouble (2 ^ 1024 - 2 ^ 970) = .posInf ∧
    roundDouble (10 ^ 310 - 1) = .posInf ∧
    roundDouble (1 / 2 ^ 1074) = .fin (1 / 2 ^ 1074) ∧
    roundDouble (1 / 2 ^ 1075) = .fin 0 ∧
    roundDouble (3 / 2 ^ 1075) = .fin (2 / 2 ^ 1074) := by
  decide!

/-! ## The patterns on a text that starts with digits -/

theorem isWordAt_head_digits (N t : List Char) (hN : N ≠ [])
    (hd : ∀ c ∈ N, isDigit c = true) : isWordAt (N ++ t).head? = true := by
  obtain ⟨d, ds, rfl⟩ := List.exists_cons_of_ne_nil hN
  exact isWord_of_isDigit (hd d (List.mem_cons_self _ _))

theorem reSpots_eq : reSpots = .seq .wordB (.seq (.group (Re.plus isDigit)) spotsTail) := rfl

theorem take_of_eq_append (s a b : List Char) (h : s = a ++ b) :
    s.take (s.length - b.length) = a := by
  subst h
  exact take_length_sub a b

theorem digit_ne {c : Char} (hc : isDigit c = true) :
    c ≠ 's' ∧ c ≠ 'b' ∧ c ≠ 'e' ∧ c ≠ '.' ∧ c ≠ 'x' ∧ c ≠ '*' ∧ c ≠ 'a' ∧ c ≠ 'p' ∧ c ≠ '@' :=
  ⟨ne_of_isDigit hc (by decide), ne_of_isDigit hc (by decide), ne_of_isDigit hc (by decide),
   ne_of_isDigit hc (by decide), ne_of_isDigit hc (by decide), ne_of_isDigit hc (by decide),
   ne_of_isDigit hc (by decide), ne_of_isDigit hc (by decide), ne_of_isDigit hc (by decide)⟩

theorem spotsTail_digit {α : Type} (k : MState → Option α) (q c : Char) (t : List Char)
    (caps : List (List Char)) (hc : isDigit c = true) :
    spotsTail.run ⟨some q, c :: t, caps⟩ k = none := by
  simp [spotsTail, Re.cat, Re.lit, Re.run, starRun, isSpace_of_isDigit hc, (digit_ne hc).1]

theorem reSpots_run {α : Type} (k : MState → Option α) (r : α) (prev : Option Char)
    (N T : List Char) (hp : isWordAt prev = false)
    (hN : N ≠ []) (hd : ∀ c ∈ N, isDigit c = true)
    (hk : k ⟨some 's', ' ' :: T, [N]⟩ = some r) :
    reSpots.run ⟨prev, N ++ ' ' :: 's' :: 'p' :: 'o' :: 't' :: 's' :: ' ' :: T, []⟩ k = some r := by
  rw [reSpots_eq, run_seq, run_wordB]
  simp only [hp, isWordAt_head_digits N _ hN hd, bne_iff_ne, ne_eq, Bool.false_eq_true,
    not_false_eq_true, if_true]
  rw [run_group_digits spotsTail k prev N (' ' :: 's' :: 'p' :: 'o' :: 't' :: 's' :: ' ' :: T) []
    hN hd rfl (fun q c t caps1 _ hc => spotsTail_digit k q c t caps1 hc)]
  simp [spotsTail, Re.cat, Re.lit, Re.run, starRun, isSpace, isWord, isWordAt, hk]

theorem reSpots_matchAt (prev : Option Char) (N T : List Char) (hp : isWordAt prev = false)
    (hN : N ≠ []) (hd : ∀ c ∈ N, isDigit c = true) :
    reSpots.matchAt prev (N ++ ' ' :: 's' :: 'p' :: 'o' :: 't' :: 's' :: ' ' :: T) =
      some ⟨N ++ [' ', 's', 'p', 'o', 't', 's'], [N]⟩ := by
  apply reSpots_run _ _ prev N T hp hN hd
  simp only [Option.some.injEq, Match.mk.injEq, and_true]
  exact take_of_eq_append _ _ _ (by simp)

theorem matchAt_digits_nondigit (R : Re) (prev : Option Char) (c : Char) (t : List Char)
    (hc : isDigit c = false) :
    (Re.seq .wordB (.seq (.group (Re.plus isDigit)) R)).matchAt prev (c :: t) = none := by
  simp [Re.matchAt, Re.plus, Re.run, hc]

theorem matchAt_number_nondigit (R : Re) (prev : Option Char) (c : Char) (t : List Char)
    (hc : isDigit c = false) :
    (Re.seq .wordB (.seq (.group reNumber) R)).matchAt prev (c :: t) = none := by
  simp [Re.matchAt, reNumber, Re.plus, Re.run, hc]

theorem reBoxes_eq : reBoxes = .seq .wordB (.seq (.group (Re.plus isDigit)) boxesTail) := rfl

theorem boxesTail_digit {α : Type} (k : MState → Option α) (q c : Char) (t : List Char)
    (caps : List (List Char)) (hc : isDigit c = true) :
    boxesTail.run ⟨some q, c :: t, caps⟩ k = none := by
  simp [boxesTail, Re.cat, Re.lit, Re.run, starRun, isSpace_of_isDigit hc, (digit_ne hc).2.1]

theorem reBoxes_run {α : Type} (k : MState → Option α) (r : α) (prev : Option Char)
    (N T : List Char) (hp : isWordAt prev = false)
    (hN : N ≠ []) (hd : ∀ c ∈ N, isDigit c = true)
    (hk : k ⟨some 's', ' ' :: T, [N]⟩ = some r) :
    reBoxes.run ⟨prev, N ++ ' ' :: 'b' :: 'o' :: 'x' :: 'e' :: 's' :: ' ' :: T, []⟩ k = some r := by
  rw [reBoxes_eq, run_seq, run_wordB]
  simp only [hp, isWordAt_head_digits N _ hN hd, bne_iff_ne, ne_eq, Bool.false_eq_true,
    not_false_eq_true, if_true]
  rw [run_group_digits boxesTail k prev N (' ' :: 'b' :: 'o' :: 'x' :: 'e' :: 's' :: ' ' :: T) []
    hN hd rfl (fun q c t caps1 _ hc => boxesTail_digit k q c t caps1 hc)]
  simp [boxesTail, Re.cat, Re.lit, Re.run, starRun, isSpace, isWord, isWordAt, hk]

theorem reBoxes_matchAt (prev : Option Char) (N T : List Char) (hp : isWordAt prev = false)
    (hN : N ≠ []) (hd : ∀ c ∈ N, isDigit c = true) :
    reBoxes.matchAt prev (N ++ ' ' :: 'b' :: 'o' :: 'x' :: 'e' :: 's' :: ' ' :: T) =
      some ⟨N ++ [' ', 'b', 'o', 'x', 'e', 's'], [N]⟩ := by
  apply reBoxes_run _ _ prev N T hp hN hd
  simp only [Option.some.injEq, Match.mk.injEq, and_true]
  exact take_of_eq_append _ _ _ (by simp)

theorem reBoxes_matchAt_spots (prev : Option Char) (N T : List Char)
    (hN : N ≠ []) (hd : ∀ c ∈ N, isDigit c = true) :
    reBoxes.matchAt prev (N ++ ' ' :: 's' :: T) = none := by
  rw [Re.matchAt, reBoxes_eq, run_seq, run_wordB]
  split
  · rw [run_group_digits boxesTail _ prev N (' ' :: 's' :: T) []
      hN hd rfl (fun q c t caps1 _ hc => boxesTail_digit _ q c t caps1 hc)]
    simp [boxesTail, Re.cat, Re.lit, Re.run, starRun, isSpace]
  · rfl

/-! ## A price in the text -/

theorem priceText_ne_nil (ip fp : List Char) (hip : isDigits ip) : priceText ip fp ≠ [] := by
  obtain ⟨d, ds, rfl⟩ := List.exists_cons_of_ne_nil hip.1
  simp [priceText]

theorem closeGroup_apply {α : Type} (R : Re) (k : MState → Option α) (s a b : List Char)
    (q : Option Char) (caps : List (List Char)) (h : s = a ++ b) :
    closeGroup s R k ⟨q, b, caps⟩ = R.run ⟨q, b, caps ++ [a]⟩ k := by
  simp only [closeGroup, take_of_eq_append s a b h]

theorem isDigit_space : isDigit ' ' = false := by decide

theorem reFraction_run_some {α : Type} (R : Re) (k : MState → Option α) (r : α) (d : Char)
    (W fp rest : List Char) (caps : List (List Char)) (hd : isDigit d = true)
    (hfp : ∀ c ∈ fp, isDigit c = true) (hlen : fp.length ≤ 2) (hrest : wordEnd rest)
    (h : ∀ q, isWordAt q = true → R.run ⟨q, rest, caps ++ [W ++ fracText fp]⟩ k = some r) :
    reFraction.run ⟨some d, fracText fp ++ rest, caps⟩
      (closeGroup (W ++ (fracText fp ++ rest)) R k) = some r := by
  have hw := isWord_of_isDigit hd
  match fp, hfp, hlen with
  | [], _, _ =>
    have e := fun q => closeGroup_apply R k (W ++ rest) W rest q caps rfl
    rcases hrest with rfl | ⟨t, rfl⟩
    · simp only [fracText, List.nil_append, List.append_nil] at h e ⊢
      simp [reFraction, Re.cat, Re.run, e, h (some d) hw]
    · simp only [fracText, List.nil_append, List.append_nil] at h e ⊢
      simp [reFraction, Re.cat, Re.run, e, h (some d) hw]
  | [f1], hfp, _ =>
    have h1 : isDigit f1 = true := hfp f1 (List.mem_cons_self _ _)
    have e := fun q => closeGroup_apply R k (W ++ '.' :: f1 :: rest) (W ++ ['.', f1]) rest q caps
      (by simp)
    rcases hrest with rfl | ⟨t, rfl⟩
    · simp only [fracText, List.cons_append, List.nil_append] at h e ⊢
      simp [reFraction, Re.cat, Re.run, upToRun, h1, e, h (some f1) (isWord_of_isDigit h1)]
    · simp only [fracText, List.cons_append, List.nil_append] at h e ⊢
      simp [reFraction, Re.cat, Re.run, upToRun, h1, e, isDigit_space,
        h (some f1) (isWord_of_isDigit h1)]
  | [f1, f2], hfp, _ =>
    have h1 : isDigit f1 = true := hfp f1 (List.mem_cons_self _ _)
    have h2 : isDigit f2 = true := hfp f2 (List.mem_cons_of_mem _ (List.mem_cons_self _ _))
    have e := fun q => closeGroup_apply R k (W ++ '.' :: f1 :: f2 :: rest) (W ++ ['.', f1, f2])
      rest q caps (by simp)
    rcases hrest with rfl | ⟨t, rfl⟩
    · simp only [fracText, List.cons_append, List.nil_append] at h e ⊢
      simp [reFraction, Re.cat, Re.run, upToRun, h1, h2, e, h (some f2) (isWord_of_isDigit h2)]
    · simp only [fracText, List.cons_append, List.nil_append] at h e ⊢
      simp [reFraction, Re.cat, Re.run, upToRun, h1, h2, e, h (some f2) (isWord_of_isDigit h2)]
  | _ :: _ :: _ :: _, _, hlen => exact absurd hlen (by simp)

theorem prevAfter_digits (prev : Option Char) (N : List Char) (hN : isDigits N) :
    ∃ d, prevAfter prev N = some d ∧ isDigit d = true := by
  obtain ⟨hne, hd⟩ := hN
  have h := List.getLast?_eq_getLast N hne
  refine ⟨N.getLast hne, ?_, hd _ (List.getLast_mem hne)⟩
  simp [prevAfter, h]

theorem startsWithDigit_frac (fp rest : List Char) (hrest : wordEnd rest) :
    startsWithDigit (fracText fp ++ rest) = false := by
  cases fp with
  | nil =>
    rcases hrest with rfl | ⟨t, rfl⟩
    · rfl
    · exact isDigit_space
  | cons c cs => simp [fracText, startsWithDigit]; decide

theorem run_group_number_some {α : Type} (R : Re) (k : MState → Option α) (r : α)
    (prev : Option Char) (ip fp rest : List Char) (caps : List (List Char))
    (hip : isDigits ip) (hfp : ∀ c ∈ fp, isDigit c = true) (hlen : fp.length ≤ 2)
    (hrest : wordEnd rest)
    (hR : ∀ q c t caps1, isDigit q = true → isDigit c = true →
      R.run ⟨some q, c :: t, caps1⟩ k = none)
    (h : ∀ q, isWordAt q = true → R.run ⟨q, rest, caps ++ [priceText ip fp]⟩ k = some r) :
    (Re.seq (.group reNumber) R).run ⟨prev, priceText ip fp ++ rest, caps⟩ k = some r := by
  obtain ⟨d, hd1, hd2⟩ := prevAfter_digits prev ip hip
  rw [priceText, List.append_assoc,
    run_group_number R k prev ip (fracText fp ++ rest) caps hip.1 hip.2
      (startsWithDigit_frac fp rest hrest) hR, hd1]
  exact reFraction_run_some R k r d ip fp rest caps hd2 hfp hlen hrest h

theorem reAt_eq : reAt = .seq .wordB (.seq (.alt (Re.lit "at") (.chr '@'))
    (.seq (.star isSpace) (.seq (.group reNumber) atTail))) := rfl

theorem lit_at_eq : Re.lit "at" = .seq (.chr 'a') (.seq (.chr 't') .eps) := rfl

theorem run_eps {α : Type} (st : MState) (k : MState → Option α) : Re.eps.run st k = k st := rfl

theorem atTail_digit {α : Type} (k : MState → Option α) (q c : Char) (t : List Char)
    (caps : List (List Char)) (hq : isDigit q = true) (hc : isDigit c = true) :
    atTail.run ⟨some q, c :: t, caps⟩ k = none := by
  simp [atTail, Re.cat, Re.run, isWordAt, isWord_of_isDigit hq, isWord_of_isDigit hc]

theorem atTail_wordEnd {α : Type} (k : MState → Option α) (q : Option Char) (rest : List Char)
    (caps : List (List Char)) (hq : isWordAt q = true) (hrest : wordEnd rest) :
    atTail.run ⟨q, rest, caps⟩ k = k ⟨q, rest, caps⟩ := by
  have e : atTail = .seq .wordB .eps := rfl
  rw [e, run_seq, run_wordB]
  rcases hrest with rfl | ⟨t, rfl⟩
  · have h0 : isWordAt none = false := rfl
    simp [hq, h0, run_eps]
  · have h0 : isWordAt (some ' ') = false := rfl
    simp [hq, h0, run_eps]

theorem isSpace_head_price (ip fp rest : List Char) (hip : isDigits ip) :
    ∀ x ∈ (priceText ip fp ++ rest).head?, isSpace x = false := by
  obtain ⟨d, ds, rfl⟩ := List.exists_cons_of_ne_nil hip.1
  intro x hx
  simp only [priceText, List.cons_append, List.head?_cons, Option.mem_def,
    Option.some.injEq] at hx
  subst hx
  exact isSpace_of_isDigit (hip.2 d (List.mem_cons_self _ _))

theorem reAt_matchAt (q : Option Char) (ip fp rest : List Char) (hq : isWordAt q = false)
    (hip : isDigits ip)
    (hfp : ∀ c ∈ fp, isDigit c = true) (hlen : fp.length ≤ 2) (hrest : wordEnd rest) :
    reAt.matchAt q ('a' :: 't' :: ' ' :: (priceText ip fp ++ rest)) =
      some ⟨'a' :: 't' :: ' ' :: priceText ip fp, [priceText ip fp]⟩ := by
  rw [Re.matchAt, reAt_eq, run_seq, run_wordB]
  have hb : (isWordAt q != isWordAt
      ('a' :: 't' :: ' ' :: (priceText ip fp ++ rest)).head?) = true := by
    rw [hq]
    rfl
  simp only [hb, if_true]
  rw [run_seq]
  apply run_alt_left
  rw [lit_at_eq, run_seq, run_chr_cons, run_seq, run_chr_cons, run_eps, run_seq]
  apply run_star_one isSpace _ _ _ _ _ _ (by decide) (isSpace_head_price ip fp rest hip)
  apply run_group_number_some atTail _ _ _ ip fp rest [] hip hfp hlen hrest
  · intro q c t caps1 hq hc
    exact atTail_digit _ q c t caps1 hq hc
  · intro q hq
    rw [atTail_wordEnd _ q rest _ hq hrest]
    simp only [Option.some.injEq, Match.mk.injEq, List.nil_append, and_true]
    exact take_of_eq_append _ _ _ (by simp)

theorem reAt_matchAt_other (prev : Option Char) (c : Char) (t : List Char)
    (h : c ≠ 'a' ∧ c ≠ '@') : reAt.matchAt prev (c :: t) = none := by
  simp [Re.matchAt, reAt, Re.cat, Re.lit, Re.run, h.1, h.2]

theorem prevAfter_concat (prev : Option Char) (l : List Char) (c : Char) :
    prevAfter prev (l ++ [c]) = some c := by
  simp [prevAfter]

theorem not_at_of_digits (l : List Char) (h : ∀ c ∈ l, isDigit c = true) :
    ∀ c ∈ l, c ≠ 'a' ∧ c ≠ '@' :=
  fun c hc => ⟨(digit_ne (h c hc)).2.2.2.2.2.2.1, (digit_ne (h c hc)).2.2.2.2.2.2.2.2⟩

theorem forall_mem_append4 (Q : Char → Prop) (a b c d : List Char)
    (ha : ∀ x ∈ a, Q x) (hb : ∀ x ∈ b, Q x) (hc : ∀ x ∈ c, Q x) (hd : ∀ x ∈ d, Q x) :
    ∀ x ∈ a ++ (b ++ (c ++ d)), Q x := by
  intro x hx
  simp only [List.mem_append] at hx
  rcases hx with h | h | h | h
  · exact ha x h
  · exact hb x h
  · exact hc x h
  · exact hd x h

/-! ## The pattern `each` -/

theorem reEach_eq : reEach = .seq .wordB (.seq (.group reNumber) eachTail) := rfl

theorem eachTail_digit {α : Type} (k : MState → Option α) (q c : Char) (t : List Char)
    (caps : List (List Char)) (hc : isDigit c = true) :
    eachTail.run ⟨some q, c :: t, caps⟩ k = none := by
  simp [eachTail, Re.cat, Re.lit, Re.run, starRun, isSpace_of_isDigit hc, (digit_ne hc).2.2.1]

theorem reEach_matchAt_label (prev : Option Char) (N T : List Char) (c : Char)
    (hN : isDigits N) (hc : c ≠ 'e') (hs : isSpace c = false) :
    reEach.matchAt prev (N ++ ' ' :: c :: T) = none := by
  rw [Re.matchAt, reEach_eq, run_seq, run_wordB]
  split
  · rw [run_group_number eachTail _ prev N (' ' :: c :: T) [] hN.1 hN.2 isDigit_space
      (fun q c t caps1 _ hc => eachTail_digit _ q c t caps1 hc)]
    have hsp : isSpace ' ' = true := by decide
    simp [reFraction, eachTail, closeGroup, Re.cat, Re.lit, Re.run, starRun, hsp, hs, hc]
  · rfl

theorem reEach_matchAt (q : Option Char) (ip fp rest : List Char) (hq : isWordAt q = false)
    (hip : isDigits ip)
    (hfp : ∀ c ∈ fp, isDigit c = true) (hlen : fp.length ≤ 2) (hrest : wordEnd rest) :
    reEach.matchAt q (priceText ip fp ++ ' ' :: 'e' :: 'a' :: 'c' :: 'h' :: rest) =
      some ⟨priceText ip fp ++ [' ', 'e', 'a', 'c', 'h'], [priceText ip fp]⟩ := by
  rw [Re.matchAt, reEach_eq, run_seq, run_wordB]
  have hb : (isWordAt q != isWordAt
      (priceText ip fp ++ ' ' :: 'e' :: 'a' :: 'c' :: 'h' :: rest).head?) = true := by
    have h := isWordAt_head_digits ip (fracText fp ++ ' ' :: 'e' :: 'a' :: 'c' :: 'h' :: rest)
      hip.1 hip.2
    rw [priceText, List.append_assoc, h, hq]
    rfl
  simp only [hb, if_true]
  apply run_group_number_some eachTail _ _ _ ip fp _ [] hip hfp hlen (Or.inr ⟨_, rfl⟩)
  · intro q c t caps1 _ hc
    exact eachTail_digit _ q c t caps1 hc
  · intro q _
    have hsp : isSpace ' ' = true := by decide
    have hse : isSpace 'e' = false := by decide
    have hwh : isWordAt (some 'h') = true := by decide
    have hw0 : isWordAt none = false := rfl
    have hw1 : isWordAt (some ' ') = false := rfl
    have e : List.take ((priceText ip fp ++ ' ' :: 'e' :: 'a' :: 'c' :: 'h' :: rest).length
        - rest.length) (priceText ip fp ++ ' ' :: 'e' :: 'a' :: 'c' :: 'h' :: rest)
        = priceText ip fp ++ [' ', 'e', 'a', 'c', 'h'] := take_of_eq_append _ _ _ (by simp)
    rcases hrest with rfl | ⟨t, rfl⟩
    · simp only [List.length_nil, Nat.sub_zero] at e
      simp only [eachTail, Re.cat, Re.lit, Re.run, starRun, hsp, hse, List.foldr, List.map,
        String.toList, if_true, List.head?, hwh, hw0, List.nil_append, List.length_nil,
        Nat.sub_zero, e]
      simp
    · simp only [eachTail, Re.cat, Re.lit, Re.run, starRun, hsp, hse, List.foldr, List.map,
        String.toList, if_true, List.head?, hwh, hw1, List.nil_append, e]
      simp

/-! ## The pattern `at` on a text without a digit after `at` -/

theorem reAt_eq_rest :
    reAt = .seq .wordB (.seq (.alt (Re.lit "at") (.chr '@')) atRest) := rfl

theorem starRun_none {α : Type} (p : Char → Bool) (caps : List (List Char))
    (k : MState → Option α) (Q : Char → Prop)
    (hk : ∀ q t, (∀ c ∈ t, Q c) → k ⟨q, t, caps⟩ = none) :
    ∀ (s : List Char), (∀ c ∈ s, Q c) → ∀ prev, starRun p caps k prev s = none := by
  intro s
  induction s with
  | nil => intro h prev; exact hk prev [] h
  | cons c t ih =>
    intro h prev
    rw [starRun, ih (fun x hx => h x (List.mem_cons_of_mem _ hx)) (some c), hk prev (c :: t) h]
    simp

theorem atRest_nodigit {α : Type} (k : MState → Option α) (q : Option Char) (s : List Char)
    (caps : List (List Char)) (hs : ∀ c ∈ s, isDigit c = false) :
    atRest.run ⟨q, s, caps⟩ k = none := by
  rw [atRest, run_seq]
  show starRun isSpace caps _ q s = none
  apply starRun_none isSpace caps _ (fun c => isDigit c = false) _ s hs
  intro q1 t ht
  cases t with
  | nil => simp [reNumber, Re.plus, Re.run]
  | cons c u => simp [reNumber, Re.plus, Re.run, ht c (List.mem_cons_self _ _)]

theorem reAt_matchAt_nodigit (prev : Option Char) (s : List Char)
    (hs : ∀ c ∈ s, isDigit c = false) : reAt.matchAt prev s = none := by
  rw [Re.matchAt, reAt_eq_rest, run_seq, run_wordB]
  split
  · rw [run_seq]
    have hK : ∀ q t caps, (∀ c ∈ t, isDigit c = false) →
        (fun st1 => atRest.run st1
          (fun st => some (⟨s.take (s.length - st.rest.length), st.caps⟩ : Match)))
          ⟨q, t, caps⟩ = none :=
      fun q t caps ht => atRest_nodigit _ q t caps ht
    generalize (fun st1 => atRest.run st1
          (fun st => some (⟨s.take (s.length - st.rest.length), st.caps⟩ : Match))) = K at hK
    match s, hs with
    | [], _ => simp [Re.lit, Re.cat, Re.run]
    | [c], hs => simp [Re.lit, Re.cat, Re.run, hK]
    | c :: x :: t, hs =>
      have ht : ∀ y ∈ t, isDigit y = false :=
        fun y hy => hs y (List.mem_cons_of_mem _ (List.mem_cons_of_mem _ hy))
      have hxt : ∀ y ∈ x :: t, isDigit y = false :=
        fun y hy => hs y (List.mem_cons_of_mem _ hy)
      simp [Re.lit, Re.cat, Re.run, hK _ _ _ ht, hK _ _ _ hxt]
  · rfl

theorem reAt_execFrom_nodigit (s : List Char) :
    (∀ c ∈ s, isDigit c = false) → ∀ prev, reAt.execFrom prev s = none := by
  induction s with
  | nil => intro h prev; exact reAt_matchAt_nodigit prev [] h
  | cons c t ih =>
    intro h prev
    rw [execFrom_cons_none _ _ _ _ (reAt_matchAt_nodigit prev (c :: t) h)]
    exact ih (fun x hx => h x (List.mem_cons_of_mem _ hx)) (some c)

theorem not_at_of_frac (fp : List Char) (h : ∀ c ∈ fp, isDigit c = true) :
    ∀ c ∈ fracText fp, c ≠ 'a' ∧ c ≠ '@' := by
  cases fp with
  | nil => intro c hc; cases hc
  | cons x xs =>
    intro c hc
    rcases List.mem_cons.1 hc with rfl | hc
    · decide
    · exact not_at_of_digits _ h c hc

/-! ## The leftmost search through labels and gaps -/

theorem prevAfter_nil (q : Option Char) : prevAfter q [] = q := rfl

theorem prevAfter_append (q : Option Char) (a b : List Char) :
    prevAfter q (a ++ b) = prevAfter (prevAfter q a) b := by
  induction a generalizing q with
  | nil => rfl
  | cons c t ih => rw [List.cons_append, prevAfter_cons, prevAfter_cons, ih]

theorem isWordAt_prevAfter_gap (q : Option Char) (g : List Char) (hq : isWordAt q = false)
    (hg : isGap g) : isWordAt (prevAfter q g) = false := by
  rcases hg.2.2 with h | h
  · rw [h]; exact hq
  · simp only [prevAfter, h]
    rfl

theorem gap_nondigit (g : List Char) (hg : isGap g) : ∀ c ∈ g, isDigit c = false :=
  fun c hc => (hg.1 c hc).1

theorem spotsLabel_nondigit : ∀ c ∈ spotsLabel, isDigit c = false := by decide

theorem boxesLabel_nondigit : ∀ c ∈ boxesLabel, isDigit c = false := by decide

theorem execFrom_past_number (R : Re) (q : Option Char) (N L T : List Char) (hN : isDigits N)
    (hL : ∀ c ∈ L, isDigit c = false)
    (hfail : (Re.seq .wordB R).matchAt q (N ++ (L ++ T)) = none)
    (hnd : ∀ prev c t, isDigit c = false → (Re.seq .wordB R).matchAt prev (c :: t) = none) :
    (Re.seq .wordB R).execFrom q (N ++ (L ++ T)) =
      (Re.seq .wordB R).execFrom (prevAfter (prevAfter q N) L) T := by
  obtain ⟨d, ds, rfl⟩ := List.exists_cons_of_ne_nil hN.1
  have hd0 := hN.2 d (List.mem_cons_self _ _)
  have hds : ∀ c ∈ ds, isDigit c = true := fun c hc => hN.2 c (List.mem_cons_of_mem _ hc)
  rw [List.cons_append] at hfail
  rw [List.cons_append, execFrom_cons_none _ _ _ _ hfail,
    execFrom_skip_digits R _ ds hds (some d) (isWord_of_isDigit hd0),
    execFrom_skip _ (fun c => isDigit c = false) hnd T L hL, prevAfter_cons]

theorem reSpots_execFrom (q : Option Char) (N T : List Char) (hq : isWordAt q = false)
    (hN : isDigits N) :
    reSpots.execFrom q (N ++ (spotsLabel ++ T)) =
      some ⟨N ++ [' ', 's', 'p', 'o', 't', 's'], [N]⟩ :=
  execFrom_some _ _ _ _ (reSpots_matchAt q N T hq hN.1 hN.2)

theorem reBoxes_execFrom (q : Option Char) (M T : List Char) (hq : isWordAt q = false)
    (hM : isDigits M) :
    reBoxes.execFrom q (M ++ (boxesLabel ++ T)) =
      some ⟨M ++ [' ', 'b', 'o', 'x', 'e', 's'], [M]⟩ :=
  execFrom_some _ _ _ _ (reBoxes_matchAt q M T hq hM.1 hM.2)

theorem reBoxes_nondigit (prev : Option Char) (c : Char) (t : List Char)
    (hc : isDigit c = false) : reBoxes.matchAt prev (c :: t) = none := by
  rw [reBoxes_eq]
  exact matchAt_digits_nondigit _ prev c t hc

theorem reSpots_nondigit (prev : Option Char) (c : Char) (t : List Char)
    (hc : isDigit c = false) : reSpots.matchAt prev (c :: t) = none := by
  rw [reSpots_eq]
  exact matchAt_digits_nondigit _ prev c t hc

theorem reEach_nondigit (prev : Option Char) (c : Char) (t : List Char)
    (hc : isDigit c = false) : reEach.matchAt prev (c :: t) = none := by
  rw [reEach_eq]
  exact matchAt_number_nondigit _ prev c t hc

theorem reBoxes_past_spots (q : Option Char) (N T : List Char) (hN : isDigits N) :
    reBoxes.execFrom q (N ++ (spotsLabel ++ T)) = reBoxes.execFrom (some ' ') T := by
  have h := execFrom_past_number _ q N spotsLabel T hN spotsLabel_nondigit
    (by rw [← reBoxes_eq]; exact reBoxes_matchAt_spots q N _ hN.1 hN.2)
    (by rw [← reBoxes_eq]; exact reBoxes_nondigit)
  rw [← reBoxes_eq] at h
  rw [h]
  rfl

theorem reEach_past_spots (q : Option Char) (N T : List Char) (hN : isDigits N) :
    reEach.execFrom q (N ++ (spotsLabel ++ T)) = reEach.execFrom (some ' ') T := by
  have h := execFrom_past_number _ q N spotsLabel T hN spotsLabel_nondigit
    (by rw [← reEach_eq]; exact reEach_matchAt_label q N _ 's' hN (by decide) (by decide))
    (by rw [← reEach_eq]; exact reEach_nondigit)
  rw [← reEach_eq] at h
  rw [h]
  rfl

theorem reEach_past_boxes (q : Option Char) (M T : List Char) (hM : isDigits M) :
    reEach.execFrom q (M ++ (boxesLabel ++ T)) = reEach.execFrom (some ' ') T := by
  have h := execFrom_past_number _ q M boxesLabel T hM boxesLabel_nondigit
    (by rw [← reEach_eq]; exact reEach_matchAt_label q M _ 'b' hM (by decide) (by decide))
    (by rw [← reEach_eq]; exact reEach_nondigit)
  rw [← reEach_eq] at h
  rw [h]
  rfl

theorem reEach_execFrom (q : Option Char) (ip fp rest : List Char) (hq : isWordAt q = false)
    (hip : isDigits ip) (hfp : ∀ c ∈ fp, isDigit c = true) (hlen : fp.length ≤ 2)
    (hrest : wordEnd rest) :
    reEach.execFrom q (priceText ip fp ++ ' ' :: 'e' :: 'a' :: 'c' :: 'h' :: rest) =
      some ⟨priceText ip fp ++ [' ', 'e', 'a', 'c', 'h'], [priceText ip fp]⟩ :=
  execFrom_some _ _ _ _ (reEach_matchAt q ip fp rest hq hip hfp hlen hrest)

/-! ### The pattern `at` -/

theorem reAt_past_label (q : Option Char) (N L T : List Char) (hN : isDigits N)
    (hL : ∀ c ∈ L, c ≠ 'a' ∧ c ≠ '@') :
    reAt.execFrom q (N ++ (L ++ T)) = reAt.execFrom (prevAfter (prevAfter q N) L) T := by
  rw [execFrom_skip reAt (fun c => c ≠ 'a' ∧ c ≠ '@') reAt_matchAt_other _ N
      (not_at_of_digits N hN.2),
    execFrom_skip reAt (fun c => c ≠ 'a' ∧ c ≠ '@') reAt_matchAt_other _ L hL]

theorem reAt_past_spots (q : Option Char) (N T : List Char) (hN : isDigits N) :
    reAt.execFrom q (N ++ (spotsLabel ++ T)) = reAt.execFrom (some ' ') T := by
  rw [reAt_past_label q N spotsLabel T hN (by decide)]
  rfl

theorem reAt_past_boxes (q : Option Char) (M T : List Char) (hM : isDigits M) :
    reAt.execFrom q (M ++ (boxesLabel ++ T)) = reAt.execFrom (some ' ') T := by
  rw [reAt_past_label q M boxesLabel T hM (by decide)]
  rfl

theorem starRun_until_nonspace {α : Type} (caps : List (List Char)) (K : MState → Option α)
    (T : List Char) (hK : ∀ q c t, isDigit c = false → K ⟨q, c :: t, caps⟩ = none) :
    ∀ (u : List Char), u.all isSpace = false → (∀ c ∈ u, isDigit c = false) →
      ∀ q, starRun isSpace caps K q (u ++ T) = none := by
  intro u
  induction u with
  | nil => intro h; simp at h
  | cons c t ih =>
    intro h hnd q
    have hc := hnd c (List.mem_cons_self _ _)
    rw [List.cons_append, starRun]
    by_cases hs : isSpace c = true
    · have ht : t.all isSpace = false := by
        simpa [List.all_cons, hs] using h
      rw [ih ht (fun x hx => hnd x (List.mem_cons_of_mem _ hx)) (some c)]
      simp [hs, hK q c _ hc]
    · simp [hs, hK q c _ hc]

theorem atRest_until_nonspace {α : Type} (k : MState → Option α) (q : Option Char)
    (u T : List Char) (caps : List (List Char)) (hu : u.all isSpace = false)
    (hnd : ∀ c ∈ u, isDigit c = false) :
    atRest.run ⟨q, u ++ T, caps⟩ k = none := by
  rw [atRest, run_seq]
  show starRun isSpace caps _ q (u ++ T) = none
  apply starRun_until_nonspace caps _ T _ u hu hnd
  intro q1 c t hc
  simp [reNumber, Re.plus, Re.run, hc]

theorem reAt_matchAt_gap (q : Option Char) (c : Char) (t T : List Char)
    (hnd : ∀ x ∈ c :: t, isDigit x = false ∧ x ≠ '@')
    (hat : endsWithAt (c :: t) = false) :
    reAt.matchAt q (c :: (t ++ T)) = none := by
  by_cases hc : c = 'a'
  · subst hc
    simp only [endsWithAt, beq_self_eq_true, Bool.true_and, Bool.or_eq_false_iff] at hat
    match t, hnd, hat with
    | [], _, hat => simp at hat
    | x :: u, hnd, hat =>
      by_cases hx : x = 't'
      · subst hx
        have hu : u.all isSpace = false := by simpa using hat.1
        have hnu : ∀ y ∈ u, isDigit y = false := fun y hy =>
          (hnd y (List.mem_cons_of_mem _ (List.mem_cons_of_mem _ hy))).1
        simp only [List.cons_append]
        rw [Re.matchAt, reAt_eq_rest, run_seq, run_wordB]
        split
        · rw [run_seq, run_alt, lit_at_eq, run_seq, run_chr_cons, run_seq, run_chr_cons, run_eps,
            atRest_until_nonspace _ (some 't') u T [] hu hnu]
          simp [Re.run]
        · rfl
      · simp [Re.matchAt, reAt, Re.cat, Re.lit, Re.run, hx]
  · exact reAt_matchAt_other q c _ ⟨hc, (hnd c (List.mem_cons_self _ _)).2⟩

theorem endsWithAt_tail (c : Char) (t : List Char) (h : endsWithAt (c :: t) = false) :
    endsWithAt t = false := by
  simp only [endsWithAt, Bool.or_eq_false_iff] at h
  exact h.2

theorem reAt_skip_gap (T : List Char) :
    ∀ (g : List Char), (∀ x ∈ g, isDigit x = false ∧ x ≠ '@') → endsWithAt g = false →
      ∀ q, reAt.execFrom q (g ++ T) = reAt.execFrom (prevAfter q g) T := by
  intro g
  induction g with
  | nil => intro _ _ q; rfl
  | cons c t ih =>
    intro hnd hat q
    rw [List.cons_append, execFrom_cons_none _ _ _ _ (reAt_matchAt_gap q c t T hnd hat),
      prevAfter_cons]
    exact ih (fun x hx => hnd x (List.mem_cons_of_mem _ hx)) (endsWithAt_tail c t hat) (some c)

theorem reAt_execFrom (q : Option Char) (ip fp rest : List Char) (hq : isWordAt q = false)
    (hip : isDigits ip) (hfp : ∀ c ∈ fp, isDigit c = true) (hlen : fp.length ≤ 2)
    (hrest : wordEnd rest) :
    reAt.execFrom q ('a' :: 't' :: ' ' :: (priceText ip fp ++ rest)) =
      some ⟨'a' :: 't' :: ' ' :: priceText ip fp, [priceText ip fp]⟩ :=
  execFrom_some _ _ _ _ (reAt_matchAt q ip fp rest hq hip hfp hlen hrest)

theorem reAt_execFrom_each (q : Option Char) (ip fp rest : List Char)
    (hip : isDigits ip) (hfp : ∀ c ∈ fp, isDigit c = true)
    (hrest : ∀ c ∈ rest, isDigit c = false) :
    reAt.execFrom q (priceText ip fp ++ ' ' :: 'e' :: 'a' :: 'c' :: 'h' :: rest) = none := by
  have e : priceText ip fp ++ ' ' :: 'e' :: 'a' :: 'c' :: 'h' :: rest =
      (ip ++ (fracText fp ++ ([' '] ++ []))) ++ ['e'] ++ ('a' :: 'c' :: 'h' :: rest) := by
    simp [priceText]
  have hB := forall_mem_append4 (fun c => c ≠ 'a' ∧ c ≠ '@') ip (fracText fp) [' '] []
    (not_at_of_digits ip hip.2) (not_at_of_frac fp hfp) (by decide) (by decide)
  have hpre : ∀ c ∈ (ip ++ (fracText fp ++ ([' '] ++ []))) ++ ['e'], c ≠ 'a' ∧ c ≠ '@' := by
    intro c hc
    rcases List.mem_append.1 hc with h | h
    · exact hB c h
    · rw [List.mem_singleton.1 h]
      decide
  rw [e, execFrom_skip reAt (fun c => c ≠ 'a' ∧ c ≠ '@') reAt_matchAt_other _ _ hpre,
    prevAfter_concat]
  have h1 : reAt.matchAt (some 'e') ('a' :: 'c' :: 'h' :: rest) = none := by
    rw [reAt_eq]
    exact matchAt_wordB_none _ _ _ rfl
  rw [execFrom_cons_none _ _ _ _ h1]
  have h2 := execFrom_skip reAt (fun c => c ≠ 'a' ∧ c ≠ '@') reAt_matchAt_other rest
    ['c', 'h'] (by decide) (some 'a')
  simp only [List.cons_append, List.nil_append] at h2
  rw [h2]
  exact reAt_execFrom_nodigit rest hrest _

/-! ## The extractor on a text of labeled phrases -/

theorem isWordAt_none : isWordAt none = false := rfl

theorem isWordAt_space : isWordAt (some ' ') = false := rfl

theorem labeledSpots_phrases (pre N m1 M m2 X : List Char) (hpre : isGap pre)
    (hN : isDigits N) :
    labeledSpots (phrasesText pre N m1 M m2 X) = some (toNumber N) := by
  have h : reSpots.exec (phrasesText pre N m1 M m2 X) =
      some ⟨N ++ [' ', 's', 'p', 'o', 't', 's'], [N]⟩ := by
    rw [Re.exec, phrasesText,
      execFrom_skip reSpots (fun c => isDigit c = false) reSpots_nondigit _ pre
        (gap_nondigit pre hpre)]
    exact reSpots_execFrom _ N _ (isWordAt_prevAfter_gap none pre isWordAt_none hpre) hN
  simp [labeledSpots, pickNum, h, Match.group]

theorem labeledBoxes_phrases (pre N m1 M m2 X : List Char) (hpre : isGap pre)
    (hN : isDigits N) (hm1 : isGap m1) (hM : isDigits M) :
    labeledBoxes (phrasesText pre N m1 M m2 X) = some (toNumber M) := by
  have h : reBoxes.exec (phrasesText pre N m1 M m2 X) =
      some ⟨M ++ [' ', 'b', 'o', 'x', 'e', 's'], [M]⟩ := by
    rw [Re.exec, phrasesText,
      execFrom_skip reBoxes (fun c => isDigit c = false) reBoxes_nondigit _ pre
        (gap_nondigit pre hpre),
      reBoxes_past_spots _ N _ hN,
      execFrom_skip reBoxes (fun c => isDigit c = false) reBoxes_nondigit _ m1
        (gap_nondigit m1 hm1)]
    exact reBoxes_execFrom _ M _ (isWordAt_prevAfter_gap _ m1 isWordAt_space hm1) hM
  simp [labeledBoxes, pickNum, h, Match.group]

theorem reAt_phrases (pre N m1 M m2 X : List Char) (hpre : isGap pre) (hN : isDigits N)
    (hm1 : isGap m1) (hM : isDigits M) (hm2 : isGap m2) :
    reAt.exec (phrasesText pre N m1 M m2 X) = reAt.execFrom (prevAfter (some ' ') m2) X := by
  rw [Re.exec, phrasesText, reAt_skip_gap _ pre hpre.1 hpre.2.1, reAt_past_spots _ N _ hN,
    reAt_skip_gap _ m1 hm1.1 hm1.2.1, reAt_past_boxes _ M _ hM,
    reAt_skip_gap _ m2 hm2.1 hm2.2.1]

theorem reEach_phrases (pre N m1 M m2 X : List Char) (hpre : isGap pre) (hN : isDigits N)
    (hm1 : isGap m1) (hM : isDigits M) (hm2 : isGap m2) :
    reEach.exec (phrasesText pre N m1 M m2 X) = reEach.execFrom (prevAfter (some ' ') m2) X := by
  rw [Re.exec, phrasesText,
    execFrom_skip reEach (fun c => isDigit c = false) reEach_nondigit _ pre
      (gap_nondigit pre hpre),
    reEach_past_spots _ N _ hN,
    execFrom_skip reEach (fun c => isDigit c = false) reEach_nondigit _ m1
      (gap_nondigit m1 hm1),
    reEach_past_boxes _ M _ hM,
    execFrom_skip reEach (fun c => isDigit c = false) reEach_nondigit _ m2
      (gap_nondigit m2 hm2)]

theorem sniffData_of_rules (n : List Char) (s b p : Num) (hs : labeledSpots n = some s)
    (hb : labeledBoxes n = some b) (hp : labeledPrice n = some p) :
    sniffData n = ⟨finiteOrNull (some s), finiteOrNull (some b), finiteOrNull (some p)⟩ := by
  simp [sniffData, hs, hb, priceAfterPerBox, hp, afterTimes, afterLoose, afterABox]

theorem sniffData_at_text (pre N m1 M m2 ip fp rest : List Char) (hpre : isGap pre)
    (hN : isDigits N) (hm1 : isGap m1) (hM : isDigits M) (hm2 : isGap m2)
    (hip : isDigits ip) (hfp : ∀ c ∈ fp, isDigit c = true) (hlen : fp.length ≤ 2)
    (hrest : wordEnd rest) (hpos : 0 < toNumber (priceText ip fp)) :
    sniffData (phrasesText pre N m1 M m2 ('a' :: 't' :: ' ' :: (priceText ip fp ++ rest))) =
      ⟨finiteOrNull (some (toNumber N)), finiteOrNull (some (toNumber M)),
        finiteOrNull (some (toNumber (priceText ip fp)))⟩ := by
  apply sniffData_of_rules _ _ _ _ (labeledSpots_phrases pre N m1 M m2 _ hpre hN)
    (labeledBoxes_phrases pre N m1 M m2 _ hpre hN hm1 hM)
  have h0 : truthy (some (toNumber (priceText ip fp))) = true := truthy_of_zero_lt _ hpos
  have h := reAt_execFrom _ ip fp rest (isWordAt_prevAfter_gap _ m2 isWordAt_space hm2)
    hip hfp hlen hrest
  simp [labeledPrice, pickNum, reAt_phrases pre N m1 M m2 _ hpre hN hm1 hM hm2, h,
    Match.group, jsOr, h0]

theorem sniffData_each_text (pre N m1 M m2 ip fp rest : List Char) (hpre : isGap pre)
    (hN : isDigits N) (hm1 : isGap m1) (hM : isDigits M) (hm2 : isGap m2)
    (hip : isDigits ip) (hfp : ∀ c ∈ fp, isDigit c = true) (hlen : fp.length ≤ 2)
    (hrest : wordEnd rest) (hnd : ∀ c ∈ rest, isDigit c = false) :
    sniffData (phrasesText pre N m1 M m2
        (priceText ip fp ++ ' ' :: 'e' :: 'a' :: 'c' :: 'h' :: rest)) =
      ⟨finiteOrNull (some (toNumber N)), finiteOrNull (some (toNumber M)),
        finiteOrNull (some (toNumber (priceText ip fp)))⟩ := by
  apply sniffData_of_rules _ _ _ _ (labeledSpots_phrases pre N m1 M m2 _ hpre hN)
    (labeledBoxes_phrases pre N m1 M m2 _ hpre hN hm1 hM)
  have h1 := reAt_execFrom_each (prevAfter (some ' ') m2) ip fp rest hip hfp hnd
  have h2 := reEach_execFrom _ ip fp rest (isWordAt_prevAfter_gap _ m2 isWordAt_space hm2)
    hip hfp hlen hrest
  simp [labeledPrice, pickNum, reAt_phrases pre N m1 M m2 _ hpre hN hm1 hM hm2,
    reEach_phrases pre N m1 M m2 _ hpre hN hm1 hM hm2, h1, h2, Match.group, jsOr, truthy]

theorem takeWhile_digits (N t : List Char) (hd : ∀ c ∈ N, isDigit c = true) :
    (N ++ '.' :: t).takeWhile (fun c => c != '.') = N ∧
    (N ++ '.' :: t).dropWhile (fun c => c != '.') = '.' :: t ∧
    N.takeWhile (fun c => c != '.') = N ∧ N.dropWhile (fun c => c != '.') = [] := by
  induction N with
  | nil => simp
  | cons c cs ih =>
    have hc : (c != '.') = true := by
      simpa using (digit_ne (hd c (List.mem_cons_self _ _))).2.2.2.1
    have h := ih (fun x hx => hd x (List.mem_cons_of_mem _ hx))
    simp [List.takeWhile, List.dropWhile, hc, h.1, h.2.1, h.2.2.1, h.2.2.2]

theorem decimalValue_priceText (ip fp : List Char) (hip : ∀ c ∈ ip, isDigit c = true) :
    decimalValue (priceText ip fp) =
      (natOfDigits ip : ℚ) + (natOfDigits fp : ℚ) / 10 ^ fp.length := by
  cases fp with
  | nil =>
    have h := takeWhile_digits ip [] hip
    simp [decimalValue, priceText, fracText, h.2.2.1, h.2.2.2]
  | cons c cs =>
    have h := takeWhile_digits ip (c :: cs) hip
    simp [decimalValue, priceText, fracText, h.1, h.2.1]

theorem decimalValue_digits (N : List Char) (hN : ∀ c ∈ N, isDigit c = true) :
    decimalValue N = (natOfDigits N : ℚ) := by
  have h := decimalValue_priceText N [] hN
  simpa [priceText, fracText, natOfDigits] using h

theorem toNumber_digits (N : List Char) (hN : ∀ c ∈ N, isDigit c = true) :
    toNumber N = roundDouble (natOfDigits N : ℚ) := by
  rw [toNumber, decimalValue_digits N hN]

/-! ## Normalization and the currency signs -/

theorem lowerChar_of_isSpace {c : Char} (h : isSpace c = true) : lowerChar c = [c] := by
  simp only [isSpace, Bool.or_eq_true, Bool.and_eq_true, decide_eq_true_eq] at h
  have h1 : ¬ (65 ≤ c.toNat ∧ c.toNat ≤ 90) := by omega
  have h2 : ¬ c.toNat = 8490 := by omega
  have h3 : ¬ c.toNat = 304 := by omega
  simp [lowerChar, h1, h2, h3]

theorem toNat_dollar : ('$' : Char).toNat = 36 := rfl

theorem toNat_comma : (',' : Char).toNat = 44 := rfl

theorem isCurrency_iff (c : Char) : isCurrency c = true ↔ c.toNat = 36 ∨ c.toNat = 44 := by
  simp only [isCurrency, Bool.or_eq_true, decide_eq_true_eq]
  constructor
  · rintro (h | h) <;> simp [h, toNat_dollar, toNat_comma]
  · rintro (h | h)
    · left
      rw [← Char.ofNat_toNat c, h]
    · right
      rw [← Char.ofNat_toNat c, h]

theorem isCurrency_of_isSpace {c : Char} (h : isSpace c = true) : isCurrency c = false := by
  simp only [isSpace, Bool.or_eq_true, Bool.and_eq_true, decide_eq_true_eq] at h
  cases hc : isCurrency c with
  | false => rfl
  | true =>
    have := (isCurrency_iff c).1 hc
    omega

theorem lowerChar_of_isCurrency {c : Char} (h : isCurrency c = true) : lowerChar c = [c] := by
  have h0 := (isCurrency_iff c).1 h
  have h1 : ¬ (65 ≤ c.toNat ∧ c.toNat ≤ 90) := by omega
  have h2 : ¬ c.toNat = 8490 := by omega
  have h3 : ¬ c.toNat = 304 := by omega
  simp [lowerChar, h1, h2, h3]

theorem stripCurrency_eq (s : List Char) : stripCurrency s = s.map blank := rfl

theorem blank_blank (c : Char) : blank (blank c) = blank c := by
  unfold blank
  by_cases h : isCurrency c = true
  · simp [h]
  · simp [h]

theorem lowerChar_blank (c : Char) : (lowerChar (blank c)).map blank = (lowerChar c).map blank := by
  by_cases h : isCurrency c = true
  · have h1 : blank c = ' ' := by simp [blank, h]
    have h2 : (lowerChar ' ').map blank = [' '] := by decide
    rw [h1, lowerChar_of_isCurrency h, h2]
    simp [blank, h]
  · have h1 : blank c = c := by simp [blank, h]
    rw [h1]

theorem lowerBlank_append (a b : List Char) : lowerBlank (a ++ b) = lowerBlank a ++ lowerBlank b := by
  simp [lowerBlank, stripCurrency, toLowerCase]

theorem lowerBlank_stripCurrency (s : List Char) : lowerBlank (stripCurrency s) = lowerBlank s := by
  induction s with
  | nil => rfl
  | cons c t ih =>
    have h1 : lowerBlank (stripCurrency (c :: t)) =
        (lowerChar (blank c)).map blank ++ lowerBlank (stripCurrency t) := by
      simp [lowerBlank, stripCurrency, toLowerCase, blank]
    have h2 : lowerBlank (c :: t) = (lowerChar c).map blank ++ lowerBlank t := by
      simp [lowerBlank, stripCurrency, toLowerCase, blank]
    rw [h1, h2, ih, lowerChar_blank]

theorem lowerBlank_of_spaces (ws : List Char) (h : ∀ c ∈ ws, isSpace c = true) :
    lowerBlank ws = ws := by
  induction ws with
  | nil => rfl
  | cons c t ih =>
    have hc := h c (List.mem_cons_self _ _)
    have h2 : lowerBlank (c :: t) = (lowerChar c).map blank ++ lowerBlank t := by
      simp [lowerBlank, stripCurrency, toLowerCase, blank]
    rw [h2, ih (fun x hx => h x (List.mem_cons_of_mem _ hx)), lowerChar_of_isSpace hc]
    simp [blank, isCurrency_of_isSpace hc]

theorem collapseAux_spaces (z : List Char) :
    ∀ (ws : List Char), ws ≠ [] → (∀ c ∈ ws, isSpace c = true) → ∀ b,
      collapseAux b (ws ++ z) = (if b then [] else [' ']) ++ collapseAux true z := by
  intro ws
  induction ws with
  | nil => intro h; exact absurd rfl h
  | cons c t ih =>
    intro _ h b
    have hc := h c (List.mem_cons_self _ _)
    cases t with
    | nil => cases b <;> simp [collapseAux, hc]
    | cons d u =>
      have h1 := ih (List.cons_ne_nil _ _) (fun x hx => h x (List.mem_cons_of_mem _ hx)) true
      simp only [if_true, List.nil_append, List.cons_append] at h1
      rw [List.cons_append, collapseAux]
      cases b <;> simp [hc, h1]

theorem dropWhile_collapseAux (z : List Char) :
    (collapseAux true z).dropWhile isSpace = (collapseAux false z).dropWhile isSpace := by
  cases z with
  | nil => rfl
  | cons c t =>
    by_cases hc : isSpace c = true
    · have hsp : isSpace ' ' = true := by decide
      simp [collapseAux, hc, List.dropWhile, hsp]
    · simp [collapseAux, hc]

theorem trim_eq_of_dropWhile_eq (a b : List Char)
    (h : a.dropWhile isSpace = b.dropWhile isSpace) : trim a = trim b := by
  simp [trim, h]

theorem trim_collapse_spaces_left (ws z : List Char) (h : ∀ c ∈ ws, isSpace c = true) :
    trim (collapseSpaces (ws ++ z)) = trim (collapseSpaces z) := by
  apply trim_eq_of_dropWhile_eq
  by_cases hws : ws = []
  · rw [hws]; rfl
  · have hsp : isSpace ' ' = true := by decide
    rw [collapseSpaces, collapseAux_spaces z ws hws h false]
    simp [List.dropWhile, hsp, dropWhile_collapseAux, collapseSpaces]

theorem collapseAux_append_spaces (ws : List Char) (h : ∀ c ∈ ws, isSpace c = true) :
    ∀ (z : List Char) b, ∃ e, (∀ c ∈ e, isSpace c = true) ∧
      collapseAux b (z ++ ws) = collapseAux b z ++ e := by
  have hsp : isSpace ' ' = true := by decide
  intro z
  induction z with
  | nil =>
    intro b
    by_cases hws : ws = []
    · exact ⟨[], by simp, by simp [hws]⟩
    · have h1 := collapseAux_spaces [] ws hws h b
      simp only [List.append_nil] at h1
      refine ⟨if b then [] else [' '], ?_, ?_⟩
      · cases b <;> simp [hsp]
      · simp [h1, collapseAux]
  | cons c t ih =>
    intro b
    by_cases hc : isSpace c = true
    · obtain ⟨e, he, h1⟩ := ih true
      refine ⟨e, he, ?_⟩
      cases b <;> simp [collapseAux, hc, h1]
    · obtain ⟨e, he, h1⟩ := ih false
      refine ⟨e, he, ?_⟩
      simp [collapseAux, hc, h1]

theorem dropWhile_spaces_append (e w : List Char) (h : ∀ c ∈ e, isSpace c = true) :
    (e ++ w).dropWhile isSpace = w.dropWhile isSpace := by
  induction e with
  | nil => rfl
  | cons c t ih =>
    simp [List.dropWhile, h c (List.mem_cons_self _ _),
      ih (fun x hx => h x (List.mem_cons_of_mem _ hx))]

theorem trim_append_spaces (u e : List Char) (h : ∀ c ∈ e, isSpace c = true) :
    trim (u ++ e) = trim u := by
  have hrev : ∀ c ∈ e.reverse, isSpace c = true := fun c hc => h c (List.mem_reverse.1 hc)
  have he : e.dropWhile isSpace = [] := by
    have := dropWhile_spaces_append e [] h
    simpa using this
  unfold trim
  rw [List.dropWhile_append]
  split
  · rename_i h0
    have hu : u.dropWhile isSpace = [] := by simpa using h0
    simp [he, hu]
  · rw [List.reverse_append, dropWhile_spaces_append _ _ hrev]

theorem trim_collapse_spaces_right (ws z : List Char) (h : ∀ c ∈ ws, isSpace c = true) :
    trim (collapseSpaces (z ++ ws)) = trim (collapseSpaces z) := by
  obtain ⟨e, he, h1⟩ := collapseAux_append_spaces ws h z false
  rw [collapseSpaces, h1]
  exact trim_append_spaces _ e he

theorem normalize_eq (s : List Char) : normalize s = normalizeCore (trim s) := rfl

theorem normalizeCore_dropWhile (s : List Char) :
    normalizeCore (s.dropWhile isSpace) = normalizeCore s := by
  have h := List.takeWhile_append_dropWhile isSpace s
  have hws : ∀ c ∈ s.takeWhile isSpace, isSpace c = true := fun c hc => List.mem_takeWhile_imp hc
  conv_rhs => rw [← h]
  rw [normalizeCore, normalizeCore, lowerBlank_append, lowerBlank_of_spaces _ hws,
    trim_collapse_spaces_left _ _ hws]

theorem normalizeCore_dropEnd (s : List Char) :
    normalizeCore ((s.reverse.dropWhile isSpace).reverse) = normalizeCore s := by
  have h := List.takeWhile_append_dropWhile isSpace s.reverse
  have hws : ∀ c ∈ (s.reverse.takeWhile isSpace).reverse, isSpace c = true :=
    fun c hc => List.mem_takeWhile_imp (List.mem_reverse.1 hc)
  have h2 : s = (s.reverse.dropWhile isSpace).reverse ++ (s.reverse.takeWhile isSpace).reverse := by
    rw [← List.reverse_append, h, List.reverse_reverse]
  conv_rhs => rw [h2]
  rw [normalizeCore, normalizeCore, lowerBlank_append, lowerBlank_of_spaces _ hws,
    trim_collapse_spaces_right _ _ hws]

theorem normalizeCore_trim (s : List Char) : normalizeCore (trim s) = normalizeCore s := by
  rw [trim, normalizeCore_dropEnd, normalizeCore_dropWhile]

theorem normalize_stripCurrency (s : List Char) : normalize (stripCurrency s) = normalize s := by
  rw [normalize_eq, normalize_eq, normalizeCore_trim, normalizeCore_trim, normalizeCore,
    normalizeCore, lowerBlank_stripCurrency]

/-! ## The extracted numbers are not negative -/

theorem decimalValue_nonneg (s : List Char) : 0 ≤ decimalValue s := by
  unfold decimalValue
  positivity

theorem toNumber_nonneg (s : List Char) : 0 ≤ toNumber s :=
  roundDouble_nonneg _ (decimalValue_nonneg s)

theorem toNumber_ne_nan (s : List Char) : toNumber s ≠ .nan := roundDouble_ne_nan _

theorem finiteOrNull_nonneg (x : Option Num) (h : nullOrNonneg x) :
    nullOrNonneg (finiteOrNull x) := by
  intro v hv
  match x, hv with
  | some (.fin q), hv =>
    cases hv
    exact h _ rfl

theorem pickNum_nonneg (n : List Char) (re : Re) : nullOrNonneg (pickNum n re) := by
  intro v hv
  simp only [pickNum, Option.map_eq_some'] at hv
  obtain ⟨m, _, rfl⟩ := hv
  exact toNumber_nonneg _

theorem jsOr_nonneg (a b : Option Num) (ha : nullOrNonneg a) (hb : nullOrNonneg b) :
    nullOrNonneg (jsOr a b) := by
  unfold jsOr
  split
  · exact ha
  · exact hb

theorem priceAfterPerBox_nonneg (n : List Char) : nullOrNonneg (priceAfterPerBox n) := by
  have h1 : nullOrNonneg (labeledPrice n) :=
    jsOr_nonneg _ _ (pickNum_nonneg n reAt) (pickNum_nonneg n reEach)
  unfold priceAfterPerBox
  split
  · rename_i p hp
    intro v hv
    exact h1 v (hp.trans hv)
  · intro v hv
    simp only [Option.map_eq_some'] at hv
    obtain ⟨m, _, rfl⟩ := hv
    exact toNumber_nonneg _

theorem afterTimes_nonneg (n : List Char) (b p : Option Num) (hb : nullOrNonneg b)
    (hp : nullOrNonneg p) :
    nullOrNonneg (afterTimes n b p).1 ∧ nullOrNonneg (afterTimes n b p).2 := by
  unfold afterTimes
  split
  · split
    · constructor
      · cases b with
        | none => intro v hv; cases hv; exact toNumber_nonneg _
        | some x => exact hb
      · cases p with
        | none => intro v hv; cases hv; exact toNumber_nonneg _
        | some x => exact hp
    · exact ⟨hb, hp⟩
  · exact ⟨hb, hp⟩

theorem numericTokens_nonneg (n : List Char) : ∀ v ∈ numericTokens n, 0 ≤ v := by
  intro v hv
  simp only [numericTokens, List.mem_map] at hv
  obtain ⟨m, _, rfl⟩ := hv
  exact toNumber_nonneg _

theorem afterLoose_nonneg (n : List Char) (s b p : Option Num) (hp : nullOrNonneg p) :
    nullOrNonneg (afterLoose n s b p) := by
  unfold afterLoose
  split
  · rename_i s0 b0
    have hc : ∀ v ∈ (numericTokens n).filter
        (fun x => !Num.strictEq x s0 && !Num.strictEq x b0), 0 ≤ v :=
      fun v hv => numericTokens_nonneg n v (List.mem_of_mem_filter hv)
    simp only
    split
    · rename_i d hd
      intro v hv
      cases hv
      exact hc _ (List.mem_of_find?_eq_some hd)
    · intro v hv
      exact hc v (List.mem_of_getLast?_eq_some hv)
  · exact hp

theorem afterABox_nonneg (n : List Char) (b : Option Num) (hb : nullOrNonneg b) :
    nullOrNonneg (afterABox n b) := by
  unfold afterABox
  split
  · intro v hv
    cases hv
    rw [Num.one_eq]
    exact (Num.zero_le_fin 1).2 zero_le_one
  · exact hb

theorem sniffData_nonneg (n : List Char) :
    nullOrNonneg (sniffData n).spots ∧ nullOrNonneg (sniffData n).boxes ∧
    nullOrNonneg (sniffData n).costPerBox := by
  have h := afterTimes_nonneg n (labeledBoxes n) (priceAfterPerBox n)
    (pickNum_nonneg n reBoxes) (priceAfterPerBox_nonneg n)
  exact ⟨finiteOrNull_nonneg _ (pickNum_nonneg n reSpots),
    finiteOrNull_nonneg _ (afterABox_nonneg n _ h.1),
    finiteOrNull_nonneg _ (afterLoose_nonneg n _ _ _ h.2)⟩

theorem missingOf_of_zero (d : BreakData) :
    (d.spots = some 0 → "spots" ∈ missingOf d) ∧
    (d.boxes = some 0 → "boxes" ∈ missingOf d) ∧
    (d.costPerBox = some 0 → "cost per box" ∈ missingOf d) := by
  refine ⟨fun h => ?_, fun h => ?_, fun h => ?_⟩ <;>
    simp [missingOf, isMissing, truthy, h, Num.zero_eq]

/-! ## Rule 5 and the wording of the specification -/

theorem isInteger_eq_isWhole (n : Num) : isInteger n = n.isWhole := by
  cases n with
  | fin q =>
    simp only [isInteger, Num.isWhole]
    by_cases h : q.den = 1
    · have h1 : ((q.num : ℤ) : ℚ) = q := (Rat.den_eq_one_iff q).1 h
      have h2 : ((⌊q⌋ : ℤ) : ℚ) = q := by
        conv_lhs => rw [← h1]
        rw [Int.floor_intCast, h1]
      simp [h, h2]
    · have h2 : ¬ ((⌊q⌋ : ℤ) : ℚ) = q := by
        intro e
        apply h
        rw [← e]
        exact Rat.den_intCast _
      simp [h, h2]
  | posInf => rfl
  | negInf => rfl
  | nan => rfl

theorem strictEq_of_ne_nan (n s : Num) (hn : n ≠ .nan) :
    Num.strictEq n s = (decide (n = s) && decide (s ≠ .nan)) := by
  cases n <;> cases s <;> simp_all [Num.strictEq]

theorem numericTokens_ne_nan (n : List Char) : ∀ v ∈ numericTokens n, v ≠ .nan := by
  intro v hv
  simp only [numericTokens, List.mem_map] at hv
  obtain ⟨m, _, rfl⟩ := hv
  exact toNumber_ne_nan _

theorem pickNum_ne_nan (n : List Char) (re : Re) (s : Num) (h : pickNum n re = some s) :
    s ≠ .nan := by
  simp only [pickNum, Option.map_eq_some'] at h
  obtain ⟨m, _, rfl⟩ := h
  exact toNumber_ne_nan _

theorem find?_eq_filter {α : Type} (p : α → Bool) (l : List α) :
    l.find? p = (match l.filter p with
      | d :: _ => some d
      | [] => none) := by
  induction l with
  | nil => rfl
  | cons a t ih =>
    by_cases h : p a = true
    · simp [List.find?, List.filter, h]
    · have h1 : p a = false := by simpa using h
      simp only [List.find?, List.filter, h1]
      exact ih

/-- The choice of rule 5 in the code is the choice worded in the specification,
on tokens read as doubles, when neither the spots nor the boxes nor a token is
`NaN`. -/
theorem afterLoose_eq_disambiguate (n : List Char) (s b : Num) (hs : s ≠ .nan)
    (hb : b ≠ .nan) :
    afterLoose n (some s) (some b) none = disambiguate (numericTokens n) s b := by
  have hf : (numericTokens n).filter (fun x => !Num.strictEq x s && !Num.strictEq x b) =
      (numericTokens n).filter (fun x => decide (x ≠ s ∧ x ≠ b)) := by
    apply List.filter_congr
    intro x hx
    have hx1 := numericTokens_ne_nan n x hx
    rw [strictEq_of_ne_nan x s hx1, strictEq_of_ne_nan x b hx1]
    simp [hs, hb]
  simp only [afterLoose, disambiguate, chooseToken, hf]
  rw [find?_eq_filter]
  have hw : (fun n : Num => !isInteger n) = (fun n : Num => !n.isWhole) := by
    funext x
    rw [isInteger_eq_isWhole]
  rw [hw]
  generalize (numericTokens n).filter (fun x => decide (x ≠ s ∧ x ≠ b)) = remaining
  cases List.filter (fun n : Num => !n.isWhole) remaining <;> rfl

theorem answerValue_ne_nan (answer : String) : answerValue answer ≠ some .nan := by
  intro h
  simp only [answerValue, Option.map_eq_some'] at h
  obtain ⟨m, _, hm⟩ := h
  exact toNumber_ne_nan _ hm

/-! ## Facts about the wizard -/

theorem advance_of_complete (session : Session) (t : String) (now : ℕ)
    (h : (sniffBreak t).missing = []) :
    advanceBreakdownWizard session t now =
      { session with step := "done", data := (sniffBreak t).data, startedAt := now } := by
  simp [advanceBreakdownWizard, h]

theorem advance_data_of_incomplete (session : Session) (t : String) (now : ℕ)
    (h : (sniffBreak t).missing ≠ []) :
    (advanceBreakdownWizard session t now).data =
      applyValue session.step (answerValue t) session.data := by
  have hlen : ¬ (sniffBreak t).missing.length = 0 := by
    simpa [List.length_eq_zero] using h
  simp only [advanceBreakdownWizard, hlen, if_false]
  split <;> rfl

theorem advance_of_needed_nil (session : Session) (t : String) (now : ℕ)
    (h : (sniffBreak t).missing ≠ [])
    (hn : neededOf (applyValue session.step (answerValue t) session.data) = []) :
    advanceBreakdownWizard session t now =
      { session with step := "done",
                     data := applyValue session.step (answerValue t) session.data,
                     startedAt := now } := by
  have hlen : ¬ (sniffBreak t).missing.length = 0 := by
    simpa [List.length_eq_zero] using h
  simp only [advanceBreakdownWizard, hlen, if_false]
  rw [hn]

theorem advance_of_needed_cons (session : Session) (t : String) (now : ℕ) (nextStep : String)
    (rest : List String) (h : (sniffBreak t).missing ≠ [])
    (hn : neededOf (applyValue session.step (answerValue t) session.data) = nextStep :: rest) :
    advanceBreakdownWizard session t now =
      { session with
        data := applyValue session.step (answerValue t) session.data
        startedAt := now
        step := nextStep
        needed := nextStep :: rest
        prompt := if truthy (answerValue t) then promptForStep nextStep else noNumberNotice } := by
  have hlen : ¬ (sniffBreak t).missing.length = 0 := by
    simpa [List.length_eq_zero] using h
  simp only [advanceBreakdownWizard, hlen, if_false]
  rw [hn]

theorem applyValue_of_falsy (step : String) (value : Option Num) (data : BreakData)
    (h : truthy value = false) : applyValue step value data = data := by
  cases value with
  | none => rfl
  | some v => simp [applyValue, h]

theorem applyValue_of_pos (step : String) (v : Num) (data : BreakData) (h : 0 < v) :
    applyValue step (some v) data =
      if step = "spots" then { data with spots := some (trunc v) }
      else if step = "boxes" then { data with boxes := some (trunc v) }
      else if step = "costPerBox" then { data with costPerBox := some v }
      else data := by
  have h0 : truthy (some v) = true := truthy_of_zero_lt v h
  by_cases h1 : step = "spots"
  · subst h1
    simp [applyValue, h0, h]
  · by_cases h2 : step = "boxes"
    · subst h2
      simp [applyValue, h0, h]
    · simp [applyValue, h0, h, h1, h2]

theorem promptForStep_ne_notice (step : String) : promptForStep step ≠ noNumberNotice := by
  unfold promptForStep
  split
  · decide
  · split
    · decide
    · split
      · decide
      · decide

theorem mem_neededOf (d : BreakData) (x : String) (h : x ∈ neededOf d) :
    x = "spots" ∨ x = "boxes" ∨ x = "costPerBox" := by
  simp only [neededOf, List.mem_append] at h
  rcases h with (h | h) | h
  · split at h <;> simp_all
  · split at h <;> simp_all
  · split at h <;> simp_all

theorem neededOf_nil_iff (d : BreakData) :
    neededOf d = [] ↔ truthy d.spots = true ∧ truthy d.boxes = true ∧ truthy d.costPerBox = true := by
  simp only [neededOf]
  cases truthy d.spots <;> cases truthy d.boxes <;> cases truthy d.costPerBox <;> simp

theorem present_of_truthy (x : Option Num) (h : nullOrNonneg x) (ht : truthy x = true) :
    present x = true := by
  have := absent_eq_of_nonneg x h
  rw [truthy_eq] at ht
  rw [this] at ht
  simpa using ht

theorem nullOrNonneg_of_present (x : Option Num) (h : present x = true) : nullOrNonneg x := by
  intro v hv
  subst hv
  have : 0 < v := by simpa [present] using h
  exact Num.zero_le_of_lt v this

theorem trunc_nonneg (v : Num) (h : 0 < v) : 0 ≤ trunc v := by
  cases v with
  | fin q =>
    have hq : 0 < q := (Num.zero_lt_fin q).1 h
    have hn : 0 ≤ q.num := le_of_lt (Rat.num_pos.mpr hq)
    have hd : (0 : ℤ) ≤ (q.den : ℤ) := Int.ofNat_nonneg _
    have h1 : (0 : ℤ) ≤ q.num.tdiv (q.den : ℤ) := Int.tdiv_nonneg hn hd
    exact (Num.zero_le_fin _).2 (by exact_mod_cast h1)
  | posInf => exact Num.zero_le_posInf
  | negInf => exact absurd h Num.not_zero_lt_negInf
  | nan => exact absurd h Num.not_zero_lt_nan

theorem applyValue_nonneg (step : String) (value : Option Num) (d : BreakData)
    (h : nullOrNonneg d.spots ∧ nullOrNonneg d.boxes ∧ nullOrNonneg d.costPerBox) :
    nullOrNonneg (applyValue step value d).spots ∧ nullOrNonneg (applyValue step value d).boxes ∧
    nullOrNonneg (applyValue step value d).costPerBox := by
  cases value with
  | none => exact h
  | some v =>
    by_cases hv : 0 < v
    · rw [applyValue_of_pos step v d hv]
      have ht : nullOrNonneg (some (trunc v)) := by
        intro x hx
        cases hx
        exact trunc_nonneg v hv
      have hv' : nullOrNonneg (some v) := by
        intro x hx
        cases hx
        exact Num.zero_le_of_lt v hv
      split
      · exact ⟨ht, h.2.1, h.2.2⟩
      · split
        · exact ⟨h.1, ht, h.2.2⟩
        · split
          · exact ⟨h.1, h.2.1, hv'⟩
          · exact h
    · have : applyValue step (some v) d = d := by simp [applyValue, hv]
      rw [this]
      exact h

theorem wizardInv_start (d : BreakData) (now : ℕ)
    (h : nullOrNonneg d.spots ∧ nullOrNonneg d.boxes ∧ nullOrNonneg d.costPerBox) :
    wizardInv (startBreakdownWizard d now) := by
  refine ⟨h, ?_⟩
  intro hstep
  have hn : neededOf d = [] := by
    cases hd : neededOf d with
    | nil => rfl
    | cons x xs =>
      have hx := mem_neededOf d x (by rw [hd]; exact List.mem_cons_self _ _)
      have hs : (startBreakdownWizard d now).step = x := by
        simp [startBreakdownWizard, hd]
      rw [hs] at hstep
      rcases hx with rfl | rfl | rfl <;> exact absurd hstep (by decide)
  have ht := (neededOf_nil_iff d).1 hn
  exact ⟨present_of_truthy _ h.1 ht.1, present_of_truthy _ h.2.1 ht.2.1,
    present_of_truthy _ h.2.2 ht.2.2⟩

theorem wizardInv_advance (s : Session) (t : String) (now : ℕ) (h : wizardInv s) :
    wizardInv (advanceBreakdownWizard s t now) := by
  by_cases hm : (sniffBreak t).missing = []
  · rw [advance_of_complete s t now hm]
    have hp := (missingOf_nil_iff (sniffBreak t).data).1 hm
    exact ⟨⟨nullOrNonneg_of_present _ hp.1, nullOrNonneg_of_present _ hp.2.1,
      nullOrNonneg_of_present _ hp.2.2⟩, fun _ => hp⟩
  · have hnn := applyValue_nonneg s.step (answerValue t) s.data h.1
    cases hd : neededOf (applyValue s.step (answerValue t) s.data) with
    | nil =>
      rw [advance_of_needed_nil s t now hm hd]
      have ht := (neededOf_nil_iff _).1 hd
      exact ⟨hnn, fun _ => ⟨present_of_truthy _ hnn.1 ht.1, present_of_truthy _ hnn.2.1 ht.2.1,
        present_of_truthy _ hnn.2.2 ht.2.2⟩⟩
    | cons x xs =>
      rw [advance_of_needed_cons s t now x xs hm hd]
      refine ⟨hnn, ?_⟩
      intro hstep
      have hx := mem_neededOf _ x (by rw [hd]; exact List.mem_cons_self _ _)
      have hstep' : x = "done" := hstep
      rcases hx with rfl | rfl | rfl <;> exact absurd hstep' (by decide)

theorem runWizard_cons (s : Session) (a : String × ℕ) (rest : List (String × ℕ)) :
    runWizard s (a :: rest) = runWizard (advanceBreakdownWizard s a.1 a.2) rest := by
  simp only [runWizard, List.foldl_cons]

theorem wizardInv_run (answers : List (String × ℕ)) :
    ∀ s, wizardInv s → wizardInv (runWizard s answers) := by
  induction answers with
  | nil => intro s h; exact h
  | cons a rest ih =>
    intro s h
    rw [runWizard_cons]
    exact ih (advanceBreakdownWizard s a.1 a.2) (wizardInv_advance s a.1 a.2 h)

/-! ## Pruning -/

theorem fetchAndDelete_eq (channel : Channel) (i : ℕ) (s : String) :
    fetchAndDelete channel i s =
      ((match channel.fetch i s with
        | .ok _ => [Attempt.fetch s, Attempt.delete s]
        | .error _ => [Attempt.fetch s]), .ok ()) := by
  unfold fetchAndDelete safeDeleteMessage
  cases channel.fetch i s <;> cases channel.delete i s <;> rfl

theorem pruneWizardTrailFrom_eq (channel : Channel) (keepId : Option String)
    (ids : List (Option String)) :
    ∀ i, pruneWizardTrailFrom channel keepId i ids =
      (callsOn channel ((ids.enumFrom i).filterMap
        (fun x => (pruneTarget keepId x.2).map (fun s => (x.1, s)))), .ok ()) := by
  induction ids with
  | nil => intro i; rfl
  | cons id rest ih =>
    intro i
    rw [pruneWizardTrailFrom, List.enumFrom_cons, List.filterMap_cons]
    cases id with
    | none => simp [truthyText, pruneTarget, ih]
    | some s =>
      by_cases hs : s = ""
      · subst hs
        simp [truthyText, pruneTarget, ih]
      · by_cases hk : some s = keepId
        · subst hk
          simp [truthyText, pruneTarget, ih, hs]
        · have hk2 : (truthyText keepId && decide (some s = keepId)) = false := by simp [hk]
          have h1 : (!truthyText (some s)) = false := by simp [truthyText, hs]
          have h3 : pruneTarget keepId (some s) = some s := by simp [pruneTarget, hs, hk]
          simp only [h1, hk2, Bool.false_eq_true, ↓reduceIte, Option.getD_some,
            fetchAndDelete_eq, ih, h3, Option.map_some', callsOn, List.flatMap_cons]

theorem pruneWizardTrail_eq (channel : Channel) (ids : List (Option String))
    (keepId : Option String) :
    pruneWizardTrail channel ids keepId = (callsOn channel (pruneTargets ids keepId), .ok ()) :=
  pruneWizardTrailFrom_eq channel keepId ids 0

theorem show_fetchAndDelete_eq (channel : Channel) (i : ℕ) (s : String) :
    Show.fetchAndDelete channel i s = fetchAndDelete channel i s := rfl

theorem pruneTrailFrom_eq (channel : Channel) (ids : List (Option String)) :
    ∀ i, Show.pruneTrailFrom channel i ids = pruneWizardTrailFrom channel none i ids := by
  induction ids with
  | nil => intro i; rfl
  | cons id rest ih =>
    intro i
    rw [Show.pruneTrailFrom, pruneWizardTrailFrom, ih, show_fetchAndDelete_eq]
    simp [truthyText]

theorem pruneTrail_eq (channel : Channel) (ids : List (Option String)) :
    Show.pruneTrail channel ids = (callsOn channel (pruneTargets ids none), .ok ()) := by
  rw [Show.pruneTrail, pruneTrailFrom_eq, ← pruneWizardTrail_eq]; rfl

theorem pruneTargets_ids (ids : List (Option String)) (keepId : Option String) :
    (pruneTargets ids keepId).map Prod.snd = ids.filterMap (pruneTarget keepId) := by
  unfold pruneTargets List.enum
  generalize 0 = i
  induction ids generalizing i with
  | nil => rfl
  | cons id rest ih =>
    rw [List.enumFrom_cons, List.filterMap_cons, List.filterMap_cons]
    cases h : pruneTarget keepId id with
    | none => simpa [h] using ih (i + 1)
    | some s => simpa [h] using ih (i + 1)

theorem fetchedIds_callsOn (channel : Channel) (targets : List (ℕ × String)) :
    fetchedIds (callsOn channel targets) = targets.map Prod.snd := by
  induction targets with
  | nil => rfl
  | cons x rest ih =>
    unfold fetchedIds callsOn at ih ⊢
    rw [List.flatMap_cons, List.filterMap_append, ih, List.map_cons]
    cases channel.fetch x.1 x.2 <;> rfl

theorem pruneTarget_of_nonempty (keepId : Option String) (id : Option String)
    (h : id ≠ some "") : pruneTarget keepId id = if id = keepId then none else id := by
  cases id with
  | none => simp [pruneTarget]
  | some s =>
    have hs : s ≠ "" := fun e => h (by rw [e])
    simp [pruneTarget, hs]

/-! ## Rendering of amounts -/

theorem digitChar_isDigit (d : ℕ) : isDigit (digitChar d) = true := by
  unfold digitChar
  split <;> decide

theorem digitVal_digitChar (d : ℕ) (h : d < 10) : digitVal (digitChar d) = d := by
  interval_cases d <;> rfl

theorem foldl_digits (acc : List Char) :
    ∀ n : ℕ, acc.foldl (fun n c => 10 * n + digitVal c) n =
      n * 10 ^ acc.length + natOfDigits acc := by
  induction acc with
  | nil => intro n; simp [natOfDigits]
  | cons c cs ih =>
    intro n
    rw [natOfDigits, List.foldl_cons, List.foldl_cons, ih, ih (10 * 0 + digitVal c),
      List.length_cons]
    ring

theorem natOfDigits_cons (c : Char) (cs : List Char) :
    natOfDigits (c :: cs) = digitVal c * 10 ^ cs.length + natOfDigits cs := by
  rw [natOfDigits, List.foldl_cons, foldl_digits]; simp

theorem natOfDigits_natTextAux (fuel : ℕ) :
    ∀ (n : ℕ) (acc : List Char), n < fuel →
      natOfDigits (natTextAux fuel n acc) = n * 10 ^ acc.length + natOfDigits acc := by
  induction fuel with
  | zero => intro n acc h; omega
  | succ fuel ih =>
    intro n acc h
    rw [natTextAux]
    by_cases h10 : n < 10
    · rw [if_pos h10, natOfDigits_cons, digitVal_digitChar n h10]
    · rw [if_neg h10, ih (n / 10) _ (by omega), natOfDigits_cons,
        digitVal_digitChar (n % 10) (Nat.mod_lt _ (by norm_num)), List.length_cons, pow_succ]
      have h := Nat.div_add_mod n 10
      calc n / 10 * (10 ^ acc.length * 10) + (n % 10 * 10 ^ acc.length + natOfDigits acc)
          = (10 * (n / 10) + n % 10) * 10 ^ acc.length + natOfDigits acc := by ring
        _ = n * 10 ^ acc.length + natOfDigits acc := by rw [h]

theorem natOfDigits_natText (n : ℕ) : natOfDigits (natText n) = n := by
  rw [natText, natOfDigits_natTextAux (n + 1) n [] (by omega)]
  simp [natOfDigits]

theorem natTextAux_digits (fuel : ℕ) :
    ∀ (n : ℕ) (acc : List Char), 0 < fuel → (∀ c ∈ acc, isDigit c = true) →
      natTextAux fuel n acc ≠ [] ∧ ∀ c ∈ natTextAux fuel n acc, isDigit c = true := by
  induction fuel with
  | zero => intro n acc h; omega
  | succ fuel ih =>
    intro n acc _ hacc
    rw [natTextAux]
    have hcons : ∀ d, ∀ c ∈ digitChar d :: acc, isDigit c = true := by
      intro d c hc
      rcases List.mem_cons.1 hc with rfl | hc
      · exact digitChar_isDigit d
      · exact hacc c hc
    by_cases h10 : n < 10
    · rw [if_pos h10]
      exact ⟨List.cons_ne_nil _ _, hcons n⟩
    · rw [if_neg h10]
      cases fuel with
      | zero => exact ⟨List.cons_ne_nil _ _, hcons _⟩
      | succ fuel => exact ih (n / 10) _ (by omega) (hcons _)

theorem natText_digits (n : ℕ) : isDigits (natText n) := by
  have h := natTextAux_digits (n + 1) n [] (by omega) (by simp)
  exact ⟨h.1, h.2⟩

theorem cents_split (n : ℕ) :
    ((n / 100 : ℕ) : ℚ) + ((10 * (n / 10 % 10) + n % 10 : ℕ) : ℚ) / 100 = (n : ℚ) / 100 := by
  have h : n = 100 * (n / 100) + (10 * (n / 10 % 10) + n % 10) := by omega
  have h2 : (n : ℚ) = 100 * ((n / 100 : ℕ) : ℚ) + ((10 * (n / 10 % 10) + n % 10 : ℕ) : ℚ) := by
    exact_mod_cast h
  rw [h2]
  field_simp
  ring

theorem cents_near (y : ℚ) (hy : 0 ≤ y) :
    y - 1 / 200 < (((⌊y * 100 + 1 / 2⌋).toNat : ℕ) : ℚ) / 100 ∧
      (((⌊y * 100 + 1 / 2⌋).toNat : ℕ) : ℚ) / 100 ≤ y + 1 / 200 := by
  have h0 : 0 ≤ ⌊y * 100 + 1 / 2⌋ := Int.floor_nonneg.2 (by positivity)
  have hc : (((⌊y * 100 + 1 / 2⌋).toNat : ℕ) : ℚ) = ((⌊y * 100 + 1 / 2⌋ : ℤ) : ℚ) := by
    have := Int.toNat_of_nonneg h0
    exact_mod_cast this
  rw [hc]
  have h1 := Int.floor_le (y * 100 + 1 / 2)
  have h2 := Int.lt_floor_add_one (y * 100 + 1 / 2)
  constructor <;> linarith

theorem money_of_small (x : ℚ) (hx : |x| < (10 : ℚ) ^ 21) :
    money (some x) = MoneyText.fixed (String.mk ('$' ::
      ((if x < 0 then ['-'] else []) ++ natText ((⌊|x| * 100 + 1 / 2⌋).toNat / 100) ++
        ['.', digitChar ((⌊|x| * 100 + 1 / 2⌋).toNat / 10 % 10),
          digitChar ((⌊|x| * 100 + 1 / 2⌋).toNat % 10)]))) := by
  have h : toFixed2 x = some ((if x < 0 then ['-'] else []) ++
      natText ((⌊|x| * 100 + 1 / 2⌋).toNat / 100) ++
        ['.', digitChar ((⌊|x| * 100 + 1 / 2⌋).toNat / 10 % 10),
          digitChar ((⌊|x| * 100 + 1 / 2⌋).toNat % 10)]) := by
    unfold toFixed2
    rw [if_neg (not_le.2 hx)]
  unfold money
  simp only [h]

theorem mem_amountsOf (ps : List Piece) (m : MoneyText) (h : Piece.amount m ∈ ps) :
    m ∈ amountsOf ps :=
  List.mem_filterMap.2 ⟨_, h, rfl⟩

theorem amounts_formatBreakdown (r : Report) (m : MoneyText)
    (hm : Piece.amount m ∈ formatBreakdown r) : ∃ a, m = money a := by
  have h := mem_amountsOf _ _ hm
  have e : amountsOf (formatBreakdown r) =
      [money r.costPerBox.toAmount, money r.productCost.toAmount, money r.txFees.toAmount,
        money r.txFee.toAmount, money r.supplies.toAmount, money r.shipping.toAmount,
        money r.breakevenRevenueNoShip.toAmount, money r.breakevenPerSpotNoShip.toAmount,
        money r.breakevenRevenueWithShip.toAmount,
        money r.breakevenPerSpotWithShip.toAmount] := rfl
  rw [e] at h
  simp only [List.mem_cons, List.mem_singleton, List.not_mem_nil, or_false] at h
  rcases h with h | h | h | h | h | h | h | h | h | h <;> exact ⟨_, h⟩

/-! ## The show board -/

theorem receiptText_split (action : String) (data : Show.ShowData) (threadUrl : Option String) :
    Show.receiptText action data threadUrl =
      receiptHead action data ++ ("**Link:** " ++ data.link.getD "(none)" ++ "\n") ++
        receiptTail threadUrl := by
  simp only [Show.receiptText, receiptHead, receiptTail, String.append_assoc]

/-! ## The handlers -/

theorem isExpired_iff (ttl now startedAt : ℕ) :
    isExpired ttl now startedAt = true ↔ (ttl : ℤ) ≤ (now : ℤ) - (startedAt : ℤ) := by
  simp [isExpired]

theorem Store.erase_self {α : Type} (m : Store α) (key : String) : m.erase key key = none := by
  simp [Store.erase]

theorem Store.set_self {α : Type} (m : Store α) (key : String) (v : α) :
    m.set key v key = some v := by
  simp [Store.set]

theorem Store.set_erase {α : Type} (m : Store α) (key : String) (v : α) :
    (m.erase key).set key v = m.set key v := by
  funext k
  by_cases h : k = key <;> simp [Store.set, Store.erase, h]

theorem Store.set_set {α : Type} (m : Store α) (key : String) (v w : α) :
    (m.set key v).set key w = m.set key w := by
  funext k
  by_cases h : k = key <;> simp [Store.set, h]

theorem isAnswer_iff (content : String) :
    isAnswer content = true ↔
      lowerText (trimText content) ≠ "cancel" ∧
      startsWith (lowerText (trimText content)) "mw" = false ∧
      startsWith (lowerText (trimText content)) "mecha" = false := by
  simp [isAnswer, and_assoc]

theorem not_cancel_of_isAnswer (content : String) (h : isAnswer content = true) :
    ¬ (lowerText (trimText content) = "cancel" ∨ lowerText (trimText content) = "mw cancel" ∨
      lowerText (trimText content) = "mecha cancel") := by
  obtain ⟨h1, h2, h3⟩ := (isAnswer_iff content).1 h
  rintro (e | e | e)
  · exact h1 e
  · rw [e] at h2; exact absurd h2 (by decide)
  · rw [e] at h3; exact absurd h3 (by decide)

theorem handleMessage_expired (config : FeeSchedule) (p : Platform) (now : ℕ)
    (sessions : Store Wizard) (message : Message) (existing : Wizard)
    (hbot : message.authorBot = false) (hs : sessions message.authorId = some existing)
    (hexp : isExpired SESSION_TTL_MS now existing.session.startedAt = true) :
    handleMessage config p now sessions message =
      handleCommand config p now (sessions.erase message.authorId) message := by
  simp only [handleMessage, hbot, hs, hexp, if_true, Bool.false_eq_true, if_false]

theorem handleMessage_absent (config : FeeSchedule) (p : Platform) (now : ℕ)
    (sessions : Store Wizard) (message : Message)
    (hbot : message.authorBot = false) (hs : sessions message.authorId = none) :
    handleMessage config p now sessions message = handleCommand config p now sessions message := by
  simp only [handleMessage, hbot, hs, Bool.false_eq_true, if_false]

theorem handleMessage_answer (config : FeeSchedule) (p : Platform) (now : ℕ)
    (sessions : Store Wizard) (message : Message) (existing : Wizard)
    (hbot : message.authorBot = false) (hs : sessions message.authorId = some existing)
    (hexp : isExpired SESSION_TTL_MS now existing.session.startedAt = false)
    (ha : isAnswer message.content = true) :
    handleMessage config p now sessions message =
      answerWizard config p now sessions message existing := by
  obtain ⟨_, h2, h3⟩ := (isAnswer_iff _).1 ha
  simp only [handleMessage, hbot, hs, hexp, Bool.false_eq_true, if_false,
    if_neg (not_cancel_of_isAnswer _ ha), h2, h3, Bool.or_self, Bool.not_false, if_true]

theorem handleCommand_of_answer (config : FeeSchedule) (p : Platform) (now : ℕ)
    (sessions : Store Wizard) (message : Message) (ha : isAnswer message.content = true) :
    handleCommand config p now sessions message = ⟨sessions, .returned false, []⟩ := by
  obtain ⟨_, h2, h3⟩ := (isAnswer_iff _).1 ha
  unfold handleCommand
  show (if (!startsWith (lowerText (trimText message.content)) "mecha" &&
      !startsWith (lowerText (trimText message.content)) "mw") = true then _ else _) = _
  rw [h2, h3]
  exact if_pos rfl

theorem show_handleMessage_expired (config : Show.ShowConfig) (p : Platform) (f : Show.Forum)
    (now : ℕ) (sessions : Store Show.ShowSession) (message : Message) (guildId : String)
    (existing : Show.ShowSession)
    (hbot : message.authorBot = false) (hg : message.guildId = some guildId)
    (hs : sessions (Show.sessionKey guildId message) = some existing)
    (hexp : isExpired Show.SHOW_SESSION_TTL_MS now existing.startedAt = true) :
    Show.handleMessage config p f now sessions message =
      Show.handleCommand p now (sessions.erase (Show.sessionKey guildId message)) message
        guildId := by
  simp only [Show.handleMessage, hbot, hg, hs, hexp, if_true, Bool.false_eq_true, if_false]

theorem show_handleMessage_absent (config : Show.ShowConfig) (p : Platform) (f : Show.Forum)
    (now : ℕ) (sessions : Store Show.ShowSession) (message : Message) (guildId : String)
    (hbot : message.authorBot = false) (hg : message.guildId = some guildId)
    (hs : sessions (Show.sessionKey guildId message) = none) :
    Show.handleMessage config p f now sessions message =
      Show.handleCommand p now sessions message guildId := by
  simp only [Show.handleMessage, hbot, hg, hs, Bool.false_eq_true, if_false]

theorem show_handleMessage_answer (config : Show.ShowConfig) (p : Platform) (f : Show.Forum)
    (now : ℕ) (sessions : Store Show.ShowSession) (message : Message) (guildId : String)
    (existing : Show.ShowSession)
    (hbot : message.authorBot = false) (hg : message.guildId = some guildId)
    (hs : sessions (Show.sessionKey guildId message) = some existing)
    (hexp : isExpired Show.SHOW_SESSION_TTL_MS now existing.startedAt = false)
    (ha : isAnswer message.content = true) :
    Show.handleMessage config p f now sessions message =
      Show.answerShow config p f now sessions message guildId existing := by
  obtain ⟨_, h2, h3⟩ := (isAnswer_iff _).1 ha
  simp only [Show.handleMessage, hbot, hg, hs, hexp, Bool.false_eq_true, if_false,
    if_neg (not_cancel_of_isAnswer _ ha), h2, h3, Bool.or_self, Bool.not_false, if_true]

theorem show_handleCommand_of_answer (p : Platform) (now : ℕ)
    (sessions : Store Show.ShowSession) (message : Message) (guildId : String)
    (ha : isAnswer message.content = true) :
    Show.handleCommand p now sessions message guildId = ⟨sessions, .returned false, []⟩ := by
  obtain ⟨_, h2, h3⟩ := (isAnswer_iff _).1 ha
  unfold Show.handleCommand
  show (if (!startsWith (lowerText (trimText message.content)) "mecha" &&
      !startsWith (lowerText (trimText message.content)) "mw") = true then _ else _) = _
  rw [h2, h3]
  exact if_pos rfl

theorem Store.erase_set {α : Type} (m : Store α) (key : String) (v : α) :
    (m.set key v).erase key = m.erase key := by
  funext k
  by_cases h : k = key <;> simp [Store.set, Store.erase, h]

/-! ## The flow of the show wizard -/

theorem dropWhile_head (s : List Char) :
    s.dropWhile isSpace = [] ∨ ∃ c t, s.dropWhile isSpace = c :: t ∧ isSpace c = false := by
  induction s with
  | nil => left; rfl
  | cons c t ih =>
    by_cases h : isSpace c = true
    · rw [List.dropWhile_cons_of_pos h]; exact ih
    · right
      exact ⟨c, t, List.dropWhile_cons_of_neg h, by simpa using h⟩

theorem trim_trim (s : List Char) : trim (trim s) = trim s := by
  unfold trim
  set d := s.dropWhile isSpace with hd
  have hpre : (d.reverse.dropWhile isSpace).reverse <+: d := by
    have := List.dropWhile_suffix isSpace (l := d.reverse)
    have h2 := List.reverse_prefix.2 this
    rwa [List.reverse_reverse] at h2
  have hb : ((d.reverse.dropWhile isSpace).reverse).dropWhile isSpace =
      (d.reverse.dropWhile isSpace).reverse := by
    rcases dropWhile_head s with h | ⟨c, t, h, hc⟩
    · rw [← hd] at h
      rw [h]; rfl
    · rw [← hd] at h
      rw [h] at hpre ⊢
      obtain ⟨r, hr⟩ := hpre
      cases hu : ((c :: t).reverse.dropWhile isSpace).reverse with
      | nil => rfl
      | cons c2 t2 =>
        rw [hu] at hr
        have : c2 = c := by
          simp only [List.cons_append, List.cons.injEq] at hr
          exact hr.1
        subst this
        exact List.dropWhile_cons_of_neg (by simp [hc])
  rw [hb, List.reverse_reverse, List.dropWhile_idempotent]

theorem trimText_trimText (s : String) : trimText (trimText s) = trimText s := by
  show String.mk (trim (trim s.toList)) = String.mk (trim s.toList)
  rw [trim_trim]

theorem show_handleCommand_start (p : Platform) (now : ℕ) (sessions : Store Show.ShowSession)
    (message : Message) (g pid : String) (hc : message.content = "mw show")
    (hr : p.reply = .ok pid) :
    Show.handleCommand p now sessions message g =
      ⟨sessions.set (Show.sessionKey g message)
        ⟨0, ⟨none, none, none, none, none, []⟩, now, [message.id, pid]⟩,
        .returned true, [.reply (Show.promptFor "whatnotName")]⟩ := by
  have e1 : lowerText (trimText "mw show") = "mw show" := by decide
  have e2 : startsWith "mw show" "mecha" = false := by decide
  have e3 : startsWith "mw show" "mw" = true := by decide
  have e4 : commandBody "mw show" = "show" := by decide!
  simp only [Show.handleCommand, hc, e1, e2, e3, e4, hr, Show.startSession]
  simp

theorem show_handleMessage_start (config : Show.ShowConfig) (p : Platform) (f : Show.Forum)
    (now : ℕ) (sessions : Store Show.ShowSession) (message : Message) (g pid : String)
    (hbot : message.authorBot = false) (hg : message.guildId = some g)
    (hc : message.content = "mw show") (hr : p.reply = .ok pid) :
    Show.handleMessage config p f now sessions message =
      ⟨sessions.set (Show.sessionKey g message)
        ⟨0, ⟨none, none, none, none, none, []⟩, now, [message.id, pid]⟩,
        .returned true, [.reply (Show.promptFor "whatnotName")]⟩ := by
  have e1 : lowerText (trimText "mw show") = "mw show" := by decide
  have e3 : startsWith "mw show" "mw" = true := by decide
  cases hs : sessions (Show.sessionKey g message) with
  | none =>
    rw [show_handleMessage_absent config p f now sessions message g hbot hg hs,
      show_handleCommand_start p now sessions message g pid hc hr]
  | some existing =>
    have h : Show.handleMessage config p f now sessions message =
        Show.handleCommand p now (sessions.erase (Show.sessionKey g message)) message g := by
      simp only [Show.handleMessage, hbot, hg, hs, hc, e1, e3, Bool.false_eq_true, if_false]
      simp
    rw [h, show_handleCommand_start p now _ message g pid hc hr, Store.set_erase]

theorem answerShow_name (config : Show.ShowConfig) (p : Platform) (f : Show.Forum) (now t : ℕ)
    (sessions : Store Show.ShowSession) (message : Message) (g pid : String) (ids : List String)
    (hr : p.reply = .ok pid) :
    Show.answerShow config p f now sessions message g
        ⟨0, ⟨none, none, none, none, none, []⟩, t, ids⟩ =
      ⟨sessions.set (Show.sessionKey g message)
        ⟨1, ⟨some (trimText message.content), none, none, none, none, []⟩, now,
          ids ++ [message.id, pid]⟩,
        .returned true, [.reply (Show.promptFor "date")]⟩ := by
  simp [Show.answerShow, Show.currentStep, Show.STEPS, Show.applyAnswer, Show.setField,
    Show.isComplete, truthyText, trimText_trimText, hr]

theorem answerShow_date (config : Show.ShowConfig) (p : Platform) (f : Show.Forum) (now t : ℕ)
    (sessions : Store Show.ShowSession) (message : Message) (g pid : String) (ids : List String)
    (w : String) (hr : p.reply = .ok pid) :
    Show.answerShow config p f now sessions message g
        ⟨1, ⟨some w, none, none, none, none, []⟩, t, ids⟩ =
      ⟨sessions.set (Show.sessionKey g message)
        ⟨2, ⟨some w, some (trimText message.content), none, none, none, []⟩, now,
          ids ++ [message.id, pid]⟩,
        .returned true, [.reply (Show.promptFor "time")]⟩ := by
  simp [Show.answerShow, Show.currentStep, Show.STEPS, Show.applyAnswer, Show.setField,
    Show.isComplete, truthyText, trimText_trimText, hr]

theorem answerShow_time (config : Show.ShowConfig) (p : Platform) (f : Show.Forum) (now t : ℕ)
    (sessions : Store Show.ShowSession) (message : Message) (g pid : String) (ids : List String)
    (w d : String) (hr : p.reply = .ok pid) :
    Show.answerShow config p f now sessions message g
        ⟨2, ⟨some w, some d, none, none, none, []⟩, t, ids⟩ =
      ⟨sessions.set (Show.sessionKey g message)
        ⟨3, ⟨some w, some d, some (trimText message.content), none, none, []⟩, now,
          ids ++ [message.id, pid]⟩,
        .returned true, [.reply (Show.promptFor "description")]⟩ := by
  simp [Show.answerShow, Show.currentStep, Show.STEPS, Show.applyAnswer, Show.setField,
    Show.isComplete, truthyText, trimText_trimText, hr]

theorem answerShow_description (config : Show.ShowConfig) (p : Platform) (f : Show.Forum)
    (now t : ℕ) (sessions : Store Show.ShowSession) (message : Message) (g pid : String)
    (ids : List String) (w d tm : String) (hr : p.reply = .ok pid)
    (hw : w ≠ "") (hd : d ≠ "") (htm : tm ≠ "") (ht : trimText message.content ≠ "") :
    Show.answerShow config p f now sessions message g
        ⟨3, ⟨some w, some d, some tm, none, none, []⟩, t, ids⟩ =
      ⟨sessions.set (Show.sessionKey g message)
        ⟨4, ⟨some w, some d, some tm, some (trimText message.content), none, []⟩, now,
          ids ++ [message.id, pid]⟩,
        .returned true, [.reply (Show.promptFor "link")]⟩ := by
  simp [Show.answerShow, Show.currentStep, Show.STEPS, Show.applyAnswer, Show.setField,
    Show.isComplete, truthyText, trimText_trimText, hr, hw, hd, htm, ht]

theorem answerShow_link (config : Show.ShowConfig) (p : Platform) (f : Show.Forum)
    (now t : ℕ) (sessions : Store Show.ShowSession) (message : Message) (g : String)
    (ids : List String) (w d tm ds : String)
    (hw : w ≠ "") (hd : d ≠ "") (htm : tm ≠ "") (hds : ds ≠ "") :
    Show.answerShow config p f now sessions message g
        ⟨4, ⟨some w, some d, some tm, some ds, none, []⟩, t, ids⟩ =
      Show.publishShow config p f (sessions.erase (Show.sessionKey g message)) message g
        ⟨5, ⟨some w, some d, some tm, some ds, linkOf message.content, []⟩, now,
          ids ++ [message.id]⟩ := by
  by_cases h : lowerText (trimText message.content) = "skip" ∨
      lowerText (trimText message.content) = "none"
  · simp [Show.answerShow, Show.currentStep, Show.STEPS, Show.applyAnswer,
      Show.isComplete, truthyText, trimText_trimText, hw, hd, htm, hds, h, linkOf]
  · simp [Show.answerShow, Show.currentStep, Show.STEPS, Show.applyAnswer,
      Show.isComplete, truthyText, trimText_trimText, hw, hd, htm, hds, h, linkOf]

theorem pruneAndNotify_sessions (p : Platform) (sessions : Store Show.ShowSession)
    (existing : Show.ShowSession) (before : List Show.ShowEffect) (notice : String) :
    (Show.pruneAndNotify p sessions existing before notice).sessions = sessions := by
  unfold Show.pruneAndNotify
  rw [pruneTrail_eq]

theorem pruneAndNotify_effects (p : Platform) (sessions : Store Show.ShowSession)
    (existing : Show.ShowSession) (before : List Show.ShowEffect) (notice : String) :
    (Show.pruneAndNotify p sessions existing before notice).effects =
      before ++ (callsOn p.channel (pruneTargets (existing.messageIds.map some) none)).map
        Show.ShowEffect.prune ++ [.send notice] := by
  unfold Show.pruneAndNotify
  rw [pruneTrail_eq]

theorem publishShow_sessions (config : Show.ShowConfig) (p : Platform) (f : Show.Forum)
    (sessions : Store Show.ShowSession) (message : Message) (g : String)
    (existing : Show.ShowSession) :
    (Show.publishShow config p f sessions message g existing).sessions = sessions := by
  unfold Show.publishShow
  split
  · exact pruneAndNotify_sessions _ _ _ _ _
  · split
    · rfl
    · exact pruneAndNotify_sessions _ _ _ _ _
    · split
      · rfl
      · split
        · rfl
        · exact pruneAndNotify_sessions _ _ _ _ _

theorem promptFor_ne_warn (step : String) :
    Show.promptFor step ≠ "🧠🥞 I posted/updated your show, but I couldn’t DM you (DMs closed)." := by
  unfold Show.promptFor
  split_ifs <;> decide

theorem createOrUpdate_replies (f : Show.Forum) (message : Message) (g : String)
    (shows : List Show.ShowRecord) (data : Show.ShowData) (text : String) :
    Show.ShowEffect.reply text ∉ (Show.createOrUpdate f message g shows data).1 := by
  unfold Show.createOrUpdate
  cases shows.find? (fun s => s.ownerId = message.authorId) <;> cases f.created <;>
    cases f.saved <;> cases f.updated <;> rcases f.thread with _ | _ | _ <;> simp

theorem postShow_replies (p : Platform) (f : Show.Forum) (message : Message) (g : String)
    (shows : List Show.ShowRecord) (existing : Show.ShowSession) (text : String)
    (h : Show.ShowEffect.reply text ∈ (Show.postShow p f message g shows existing).1) :
    text = "🧠🥞 I posted/updated your show, but I couldn’t DM you (DMs closed)." := by
  unfold Show.postShow at h
  simp only [pruneTrail_eq] at h
  have hc := createOrUpdate_replies f message g shows existing.data text
  rcases hcu : Show.createOrUpdate f message g shows existing.data with ⟨calls, _ | ⟨action, url⟩⟩
  · rw [hcu] at h hc
    exact absurd h hc
  · rw [hcu] at h hc
    simp only at h hc
    cases hs : p.send <;> cases hr : p.reply <;> rw [hs] at h <;> (try rw [hr] at h) <;>
      simp only [List.mem_append, List.mem_cons, List.mem_singleton, List.mem_map,
        Show.ShowEffect.reply.injEq, reduceCtorEq, false_or, or_false, and_false, exists_false,
        List.not_mem_nil, hc] at h <;>
      exact h

theorem publishShow_replies (config : Show.ShowConfig) (p : Platform) (f : Show.Forum)
    (sessions : Store Show.ShowSession) (message : Message) (g : String)
    (existing : Show.ShowSession) (text : String)
    (h : Show.ShowEffect.reply text ∈
      (Show.publishShow config p f sessions message g existing).effects) :
    text = "🧠🥞 I posted/updated your show, but I couldn’t DM you (DMs closed)." := by
  unfold Show.publishShow at h
  split at h
  · rw [pruneAndNotify_effects] at h
    simp at h
  · split at h
    · simp at h
    · rw [pruneAndNotify_effects] at h
      simp at h
    · split at h
      · simp at h
      · split at h
        · rename_i shows _ _ calls _ hp
          have := postShow_replies p f message g shows existing text
          rw [hp] at this
          simp only [List.mem_append, List.mem_cons, List.mem_singleton, reduceCtorEq,
            List.not_mem_nil, or_false, false_or] at h
          exact this h
        · rename_i shows _ _ calls e hp
          have := postShow_replies p f message g shows existing text
          rw [hp] at this
          rw [pruneAndNotify_effects] at h
          simp only [List.mem_append, List.mem_cons, List.mem_singleton, reduceCtorEq,
            List.not_mem_nil, or_false, false_or, List.mem_map, and_false, exists_false] at h
          exact this h

theorem publishShow_no_prompt (config : Show.ShowConfig) (p : Platform) (f : Show.Forum)
    (sessions : Store Show.ShowSession) (message : Message) (g : String)
    (existing : Show.ShowSession) (step : String) :
    Show.ShowEffect.reply (Show.promptFor step) ∉
      (Show.publishShow config p f sessions message g existing).effects :=
  fun h => promptFor_ne_warn step (publishShow_replies config p f sessions message g existing _ h)

/-! ## Progress of the breakdown wizard -/

theorem digit_facts {c : Char} (h : isDigit c = true) :
    isSpace c = false ∧ isCurrency c = false ∧ lowerChar c = [c] := by
  have hs := isSpace_of_isDigit h
  simp only [isDigit, Bool.and_eq_true, decide_eq_true_eq] at h
  have h1 : ¬ (65 ≤ c.toNat ∧ c.toNat ≤ 90) := by omega
  have h2 : ¬ c.toNat = 8490 := by omega
  have h3 : ¬ c.toNat = 304 := by omega
  refine ⟨hs, ?_, by simp [lowerChar, h1, h2, h3]⟩
  cases hc : isCurrency c with
  | false => rfl
  | true =>
    have := (isCurrency_iff c).1 hc
    omega

theorem toLowerCase_digits (ds : List Char) (h : ∀ c ∈ ds, isDigit c = true) :
    toLowerCase ds = ds := by
  induction ds with
  | nil => rfl
  | cons c t ih =>
    have hc := (digit_facts (h c (List.mem_cons_self _ _))).2.2
    have ht := ih (fun x hx => h x (List.mem_cons_of_mem _ hx))
    unfold toLowerCase at ht ⊢
    rw [List.flatMap_cons, hc, ht]
    rfl

theorem stripCurrency_digits (ds : List Char) (h : ∀ c ∈ ds, isDigit c = true) :
    stripCurrency ds = ds := by
  induction ds with
  | nil => rfl
  | cons c t ih =>
    have hc := (digit_facts (h c (List.mem_cons_self _ _))).2.1
    have ht := ih (fun x hx => h x (List.mem_cons_of_mem _ hx))
    unfold stripCurrency at ht ⊢
    rw [List.map_cons, ht]
    simp [hc]

theorem collapseAux_digits (ds : List Char) (h : ∀ c ∈ ds, isDigit c = true) :
    ∀ b, collapseAux b ds = ds := by
  induction ds with
  | nil => intro b; rfl
  | cons c t ih =>
    intro b
    have hc := (digit_facts (h c (List.mem_cons_self _ _))).1
    rw [collapseAux]
    simp [hc, ih (fun x hx => h x (List.mem_cons_of_mem _ hx))]

theorem dropWhile_digits (ds : List Char) (h : ∀ c ∈ ds, isDigit c = true) :
    ds.dropWhile isSpace = ds := by
  cases ds with
  | nil => rfl
  | cons c t =>
    have hc := (digit_facts (h c (List.mem_cons_self _ _))).1
    exact List.dropWhile_cons_of_neg (by simp [hc])

theorem trim_digits (ds : List Char) (h : ∀ c ∈ ds, isDigit c = true) : trim ds = ds := by
  unfold trim
  rw [dropWhile_digits ds h,
    dropWhile_digits ds.reverse (fun c hc => h c (List.mem_reverse.1 hc)), List.reverse_reverse]

theorem normalizeAnswer_digits (ds : List Char) (h : ∀ c ∈ ds, isDigit c = true) :
    normalizeAnswer ds = ds := by
  unfold normalizeAnswer collapseSpaces
  rw [toLowerCase_digits ds h, stripCurrency_digits ds h, collapseAux_digits ds h, trim_digits ds h]

theorem normalize_digits (ds : List Char) (h : ∀ c ∈ ds, isDigit c = true) :
    normalize ds = ds := by
  unfold normalize collapseSpaces
  rw [trim_digits ds h, toLowerCase_digits ds h, stripCurrency_digits ds h,
    collapseAux_digits ds h, trim_digits ds h]

theorem reSpots_exec_digits (ds : List Char) (h : ∀ c ∈ ds, isDigit c = true) :
    reSpots.exec ds = none := by
  cases ds with
  | nil => simp [Re.exec, Re.execFrom, Re.matchAt, reSpots, Re.cat, Re.plus, Re.run]
  | cons d t =>
    have hd := h d (List.mem_cons_self _ _)
    have ht : ∀ c ∈ t, isDigit c = true := fun x hx => h x (List.mem_cons_of_mem _ hx)
    have h1 : reSpots.matchAt none (d :: t) = none := by
      rw [reSpots_eq, Re.matchAt, run_seq, run_wordB]
      have hw : isWordAt (d :: t).head? = true := isWord_of_isDigit hd
      simp only [hw, isWordAt_none, bne_iff_ne, ne_eq, Bool.false_eq_true, not_false_eq_true,
        if_true]
      have := run_group_digits spotsTail
        (fun st => some (⟨(d :: t).take ((d :: t).length - st.rest.length), st.caps⟩ : Match))
        none (d :: t) [] [] (List.cons_ne_nil _ _) h rfl
        (fun q c t caps1 _ hc => spotsTail_digit _ q c t caps1 hc)
      rw [List.append_nil] at this
      rw [this]
      simp [spotsTail, Re.cat, Re.lit, Re.run, starRun]
    rw [Re.exec, execFrom_cons_none _ _ _ _ h1]
    have h2 := execFrom_skip_digits (.seq (.group (Re.plus isDigit)) spotsTail) [] t ht (some d)
      (isWord_of_isDigit hd)
    rw [List.append_nil, ← reSpots_eq] at h2
    rw [h2]
    simp [Re.execFrom, Re.matchAt, reSpots, Re.cat, Re.plus, Re.run]

theorem sniffBreak_digits_missing (ds : List Char) (h : ∀ c ∈ ds, isDigit c = true) :
    (sniffBreak (String.mk ds)).missing ≠ [] := by
  have hs : (sniffBreak (String.mk ds)).data.spots = none := by
    show finiteOrNull (labeledSpots (normalize ds)) = none
    rw [normalize_digits ds h, labeledSpots, pickNum, reSpots_exec_digits ds h]
    rfl
  intro hm
  have h1 : present (sniffBreak (String.mk ds)).data.spots = true :=
    ((missingOf_nil_iff _).1 hm).1
  rw [hs] at h1
  simp [present] at h1

theorem reToken_matchAt_digits (ds : List Char) (hne : ds ≠ [])
    (h : ∀ c ∈ ds, isDigit c = true) : reToken.matchAt none ds = some ⟨ds, []⟩ := by
  have hw : isWordAt ds.head? = true := by
    obtain ⟨d, t, rfl⟩ := List.exists_cons_of_ne_nil hne
    exact isWord_of_isDigit (h d (List.mem_cons_self _ _))
  have hp : isWordAt (prevAfter none ds) = true := isWordAt_prevAfter none ds hne h
  show (Re.seq .wordB (.seq reNumber (.seq .wordB .eps))).run ⟨none, ds, []⟩ _ = _
  rw [run_seq, run_wordB]
  simp only [hw, isWordAt_none, bne_iff_ne, ne_eq, Bool.false_eq_true, not_false_eq_true,
    if_true]
  rw [reNumber_eq, run_seq, run_seq]
  have := run_plus_digits
    (fun st1 => reFraction.run st1 (fun st1 => (Re.seq Re.wordB Re.eps).run st1
      (fun st => some (⟨ds.take (ds.length - st.rest.length), st.caps⟩ : Match))))
    none ds [] [] hne h rfl
    (by
      intro q c t hq hc
      simp only []
      rw [reFraction_run_digit _ _ _ _ _ hc, run_seq, run_wordB]
      simp [isWordAt, isWord_of_isDigit hq, isWord_of_isDigit hc])
  rw [List.append_nil] at this
  rw [this]
  simp only [reFraction, Re.cat, Re.run, List.foldr, hp, List.head?_nil]
  simp [isWordAt]

theorem answerValue_digits (ds : List Char) (hne : ds ≠ [])
    (h : ∀ c ∈ ds, isDigit c = true) :
    answerValue (String.mk ds) = some (roundDouble (natOfDigits ds : ℚ)) := by
  show (reToken.exec (normalizeAnswer ds)).map _ = _
  rw [normalizeAnswer_digits ds h, Re.exec,
    execFrom_some _ _ _ _ (reToken_matchAt_digits ds hne h)]
  simp [toNumber_digits ds h]

theorem one_le_tdiv (r : ℚ) (h : 1 ≤ r) : (1 : ℤ) ≤ r.num.tdiv (r.den : ℤ) := by
  have hpos : 0 < r := lt_of_lt_of_le one_pos h
  have hn : 0 ≤ r.num := le_of_lt (Rat.num_pos.mpr hpos)
  have hd : (0 : ℤ) < (r.den : ℤ) := by exact_mod_cast r.den_pos
  rw [Int.tdiv_eq_ediv hn (le_of_lt hd), Int.le_ediv_iff_mul_le hd, one_mul]
  have h1 : (1 : ℚ) ≤ (r.num : ℚ) / (r.den : ℚ) := by rw [Rat.num_div_den]; exact h
  have hdq : (0 : ℚ) < (r.den : ℚ) := by exact_mod_cast r.den_pos
  rw [le_div_iff₀ hdq, one_mul] at h1
  exact_mod_cast h1

/-- The value of a whole answer: the double of a whole number that is at least
1 is positive, and so is its integer part. -/
theorem whole_value (n : ℕ) (hn : 1 ≤ n) :
    0 < roundDouble (n : ℚ) ∧ truthy (some (trunc (roundDouble (n : ℚ)))) = true := by
  have h1 : (1 : ℚ) ≤ n := by exact_mod_cast hn
  rcases roundDouble_ge_one _ h1 with h | ⟨r, h, hr⟩
  · rw [h]
    exact ⟨Num.zero_lt_posInf, rfl⟩
  · rw [h]
    refine ⟨(Num.zero_lt_fin r).2 (lt_of_lt_of_le one_pos hr), ?_⟩
    have h2 := one_le_tdiv r hr
    have h3 : ((r.num.tdiv (r.den : ℤ) : ℤ) : ℚ) ≠ 0 := by
      have : (0 : ℤ) < r.num.tdiv (r.den : ℤ) := by omega
      exact_mod_cast ne_of_gt this
    simp [trunc, truthy, h3]

theorem applyValue_whole (d : BreakData) (v : Num) (hpos : 0 < v)
    (hz : truthy (some (trunc v)) = true) :
    neededOf (applyValue (stepOf d) (some v) d) = (neededOf d).tail := by
  have ht := truthy_of_zero_lt v hpos
  rw [applyValue_of_pos _ _ _ hpos]
  obtain ⟨s, b, c⟩ := d
  cases hs : truthy s <;> cases hb : truthy b <;> cases hc : truthy c <;>
    simp [stepOf, neededOf, hs, hb, hc, ht, hz]

theorem applyValue_length (d : BreakData) (v : Option Num) :
    (neededOf (applyValue (stepOf d) v d)).length ≤ (neededOf d).length := by
  cases v with
  | none => exact le_of_eq rfl
  | some v =>
    by_cases hv : 0 < v
    · have ht := truthy_of_zero_lt v hv
      rw [applyValue_of_pos _ _ _ hv]
      obtain ⟨s, b, c⟩ := d
      cases hs : truthy s <;> cases hb : truthy b <;> cases hc : truthy c <;>
        cases hz : truthy (some (trunc v)) <;>
        simp [stepOf, neededOf, hs, hb, hc, ht, hz]
    · have : applyValue (stepOf d) (some v) d = d := by
        simp [applyValue, hv]
      rw [this]

theorem neededOf_of_missing_nil (d : BreakData) (h : missingOf d = []) : neededOf d = [] := by
  obtain ⟨h1, h2, h3⟩ := (missingOf_nil_iff d).1 h
  have key : ∀ x : Option Num, present x = true → truthy x = true := by
    intro x hx
    cases x with
    | none => simp [present] at hx
    | some v =>
      have : 0 < v := by simpa [present] using hx
      exact truthy_of_zero_lt v this
  exact (neededOf_nil_iff d).2 ⟨key _ h1, key _ h2, key _ h3⟩

theorem start_stepOf (d : BreakData) (now : ℕ) :
    (startBreakdownWizard d now).step = stepOf (startBreakdownWizard d now).data ∧
    (startBreakdownWizard d now).needed = neededOf (startBreakdownWizard d now).data :=
  ⟨rfl, rfl⟩

theorem advance_stepOf (s : Session) (a : String) (now : ℕ) :
    (advanceBreakdownWizard s a now).step = stepOf (advanceBreakdownWizard s a now).data := by
  by_cases hm : (sniffBreak a).missing = []
  · have hn : neededOf (sniffBreak a).data = [] := neededOf_of_missing_nil _ hm
    rw [advance_of_complete s a now hm]
    simp [stepOf, hn]
  · cases hn : neededOf (applyValue s.step (answerValue a) s.data) with
    | nil =>
      rw [advance_of_needed_nil s a now hm hn]
      simp [stepOf, hn]
    | cons x rest =>
      rw [advance_of_needed_cons s a now x rest hm hn]
      simp [stepOf, hn]

theorem advance_needed_le (s : Session) (a : String) (now : ℕ)
    (hk : s.step = stepOf s.data) (hm : (neededOf s.data).length ≤ s.needed.length) :
    (advanceBreakdownWizard s a now).needed.length ≤ s.needed.length ∧
    (neededOf (advanceBreakdownWizard s a now).data).length ≤
      (advanceBreakdownWizard s a now).needed.length := by
  by_cases hc : (sniffBreak a).missing = []
  · have hn : neededOf (sniffBreak a).data = [] := neededOf_of_missing_nil _ hc
    rw [advance_of_complete s a now hc]
    simp [hn]
  · have hl := applyValue_length s.data (answerValue a)
    rw [← hk] at hl
    cases hn : neededOf (applyValue s.step (answerValue a) s.data) with
    | nil =>
      rw [advance_of_needed_nil s a now hc hn]
      simp [hn]
    | cons x rest =>
      rw [advance_of_needed_cons s a now x rest hc hn]
      rw [hn] at hl
      simp only [hn, le_refl, and_true]
      exact le_trans hl hm

theorem runWizard_inv (answers : List (String × ℕ)) :
    ∀ s : Session, s.step = stepOf s.data → (neededOf s.data).length ≤ s.needed.length →
      (runWizard s answers).step = stepOf (runWizard s answers).data ∧
      (neededOf (runWizard s answers).data).length ≤ (runWizard s answers).needed.length := by
  induction answers with
  | nil => intro s hk hm; exact ⟨hk, hm⟩
  | cons a rest ih =>
    intro s hk hm
    rw [runWizard_cons]
    exact ih _ (advance_stepOf _ _ _) (advance_needed_le s a.1 a.2 hk hm).2

theorem runWizard_start_inv (d : BreakData) (now : ℕ) (answers : List (String × ℕ)) :
    (runWizard (startBreakdownWizard d now) answers).step =
      stepOf (runWizard (startBreakdownWizard d now) answers).data ∧
    (neededOf (runWizard (startBreakdownWizard d now) answers).data).length ≤
      (runWizard (startBreakdownWizard d now) answers).needed.length :=
  runWizard_inv answers _ (start_stepOf d now).1 (le_of_eq (by rw [(start_stepOf d now).2]))

theorem advance_whole (s : Session) (a : String) (now : ℕ) (hk : s.step = stepOf s.data)
    (ha : isWholeAnswer a) :
    neededOf (advanceBreakdownWizard s a now).data = (neededOf s.data).tail := by
  obtain ⟨⟨hne, hd⟩, h1⟩ := ha
  have hm : (sniffBreak a).missing ≠ [] := sniffBreak_digits_missing a.toList hd
  have hv : answerValue a = some (roundDouble ((natOfDigits a.toList : ℕ) : ℚ)) :=
    answerValue_digits a.toList hne hd
  have hw := whole_value (natOfDigits a.toList) h1
  rw [advance_data_of_incomplete s a now hm, hv, hk]
  exact applyValue_whole s.data _ hw.1 hw.2

theorem neededOf_length_le (d : BreakData) : (neededOf d).length ≤ 3 := by
  obtain ⟨s, b, c⟩ := d
  cases hs : truthy s <;> cases hb : truthy b <;> cases hc : truthy c <;>
    simp [neededOf, hs, hb, hc]

theorem runWizard_whole (answers : List (String × ℕ)) :
    ∀ s : Session, s.step = stepOf s.data → (∀ a ∈ answers, isWholeAnswer a.1) →
      (runWizard s answers).step = stepOf (runWizard s answers).data ∧
      missingCount (runWizard s answers) = missingCount s - answers.length := by
  induction answers with
  | nil => intro s hk _; exact ⟨hk, rfl⟩
  | cons a rest ih =>
    intro s hk ha
    rw [runWizard_cons]
    have h1 := advance_whole s a.1 a.2 hk (ha a (List.mem_cons_self _ _))
    have h2 := ih (advanceBreakdownWizard s a.1 a.2) (advance_stepOf _ _ _)
      (fun x hx => ha x (List.mem_cons_of_mem _ hx))
    refine ⟨h2.1, ?_⟩
    rw [h2.2, missingCount, h1, missingCount, List.length_tail, List.length_cons]
    omega

theorem stepOf_of_nil (d : BreakData) (h : (neededOf d).length = 0) : stepOf d = "done" := by
  rw [List.length_eq_zero] at h
  simp [stepOf, h]

/-! ## The labeled phrases that the extractor reads -/

/-- The labeled phrases that the extractor reads.  Let `N` and `M` be strings of
digits and `P` the text of a price (digits `ip`, then nothing or a point and one
or two digits `fp`), read as the positive finite doubles `n`, `m` and `p`, and
let `pre`, `m1` and `m2` be other words (texts without digits and without `@`
that do not end with `at`, each empty or ending with a space).  When the
normalized text is `pre N spots m1 M boxes m2 at P` followed by nothing or by a
space and any text, or is `pre N spots m1 M boxes m2 P each` followed by nothing
or by a space and a text without digits, then `sniffBreak` returns exactly the
record of `n`, `m` and `p`, and an empty `missing` list. -/
theorem sniffBreak_labeled_phrases (input : String) (pre N m1 M m2 ip fp rest : List Char)
    (n m p : ℚ)
    (hpre : isGap pre) (hN : isDigits N) (hm1 : isGap m1) (hM : isDigits M) (hm2 : isGap m2)
    (hip : isDigits ip) (hfp : ∀ c ∈ fp, isDigit c = true) (hlen : fp.length ≤ 2)
    (hrest : wordEnd rest)
    (hn : toNumber N = .fin n) (hm : toNumber M = .fin m)
    (hp : toNumber (priceText ip fp) = .fin p)
    (hpos : 0 < n ∧ 0 < m ∧ 0 < p)
    (hnorm : (sniffBreak input).normalized =
        pre ++ N ++ " spots ".toList ++ m1 ++ M ++ " boxes ".toList ++ m2 ++ "at ".toList ++
          priceText ip fp ++ rest ∨
      ((sniffBreak input).normalized =
        pre ++ N ++ " spots ".toList ++ m1 ++ M ++ " boxes ".toList ++ m2 ++
          priceText ip fp ++ " each".toList ++ rest
        ∧ ∀ c ∈ rest, isDigit c = false)) :
    (sniffBreak input).data =
      { spots := some (.fin n), boxes := some (.fin m), costPerBox := some (.fin p) } ∧
    (sniffBreak input).missing = [] := by
  have hppos : 0 < toNumber (priceText ip fp) := by
    rw [hp]; exact (Num.zero_lt_fin p).2 hpos.2.2
  have hdata : (sniffBreak input).data =
      { spots := some (.fin n), boxes := some (.fin m), costPerBox := some (.fin p) } := by
    have target : (⟨finiteOrNull (some (toNumber N)), finiteOrNull (some (toNumber M)),
        finiteOrNull (some (toNumber (priceText ip fp)))⟩ : BreakData) =
        { spots := some (.fin n), boxes := some (.fin m), costPerBox := some (.fin p) } := by
      rw [hn, hm, hp]
      rfl
    rw [← target]
    show sniffData (sniffBreak input).normalized = _
    rcases hnorm with h | ⟨h, hnd⟩
    · have e : pre ++ N ++ " spots ".toList ++ m1 ++ M ++ " boxes ".toList ++ m2 ++
          "at ".toList ++ priceText ip fp ++ rest =
          phrasesText pre N m1 M m2 ('a' :: 't' :: ' ' :: (priceText ip fp ++ rest)) := by
        simp [phrasesText, spotsLabel, boxesLabel]
      rw [h, e]
      exact sniffData_at_text pre N m1 M m2 ip fp rest hpre hN hm1 hM hm2 hip hfp hlen hrest
        hppos
    · have e : pre ++ N ++ " spots ".toList ++ m1 ++ M ++ " boxes ".toList ++ m2 ++
          priceText ip fp ++ " each".toList ++ rest =
          phrasesText pre N m1 M m2
            (priceText ip fp ++ ' ' :: 'e' :: 'a' :: 'c' :: 'h' :: rest) := by
        simp [phrasesText, spotsLabel, boxesLabel]
      rw [h, e]
      exact sniffData_each_text pre N m1 M m2 ip fp rest hpre hN hm1 hM hm2 hip hfp hlen
        hrest hnd
  refine ⟨hdata, ?_⟩
  show missingOf (sniffBreak input).data = []
  rw [hdata, missingOf_nil_iff]
  simp [present, Num.zero_lt_fin, hpos.1, hpos.2.1, hpos.2.2]

/-- The labeled phrases on two texts: a command body in capitals, with a comma,
a dollar sign, words before and between the phrases, and trailing words with
another number; and a text of the form `P each`. -/
theorem sniffBreak_labeled_phrases_examples :
    ((sniffBreak "Breakdown for 75 SPOTS, and 3 Boxes at $98.98 please ship 2 today").data =
      { spots := some 75, boxes := some 3, costPerBox := some (9898 / 100) } ∧
    (sniffBreak "Breakdown for 75 SPOTS, and 3 Boxes at $98.98 please ship 2 today").missing
      = []) ∧
    ((sniffBreak "breakdown 30 spots 2 boxes 45.5 each thanks").data =
      { spots := some 30, boxes := some 2, costPerBox := some (455 / 10) } ∧
    (sniffBreak "breakdown 30 spots 2 boxes 45.5 each thanks").missing = []) := by
  have h := sniffBreak_labeled_phrases
    "Breakdown for 75 SPOTS, and 3 Boxes at $98.98 please ship 2 today"
    "breakdown for ".toList ['7', '5'] "and ".toList ['3'] [] ['9', '8'] ['9', '8']
    " please ship 2 today".toList 75 3 (6965098298705183 / 70368744177664)
    ⟨by decide, by decide, Or.inr (by decide)⟩ ⟨by decide, by decide⟩
    ⟨by decide, by decide, Or.inr (by decide)⟩ ⟨by decide, by decide⟩
    ⟨by decide, by decide, Or.inl rfl⟩ ⟨by decide, by decide⟩ (by decide) (by decide)
    (Or.inr ⟨_, rfl⟩) (by decide!) (by decide!) (by decide!)
    ⟨by norm_num, by norm_num, by norm_num⟩ (Or.inl (by decide!))
  have g := sniffBreak_labeled_phrases "breakdown 30 spots 2 boxes 45.5 each thanks"
    "breakdown ".toList ['3', '0'] [] ['2'] [] ['4', '5'] ['5'] " thanks".toList
    30 2 (91 / 2)
    ⟨by decide, by decide, Or.inr (by decide)⟩ ⟨by decide, by decide⟩
    ⟨by decide, by decide, Or.inl rfl⟩ ⟨by decide, by decide⟩
    ⟨by decide, by decide, Or.inl rfl⟩ ⟨by decide, by decide⟩ (by decide) (by decide)
    (Or.inr ⟨_, rfl⟩) (by decide!) (by decide!) (by decide!)
    ⟨by norm_num, by norm_num, by norm_num⟩ (Or.inr ⟨by decide!, by decide⟩)
  have e1 : (Num.fin 75) = 75 := by decide!
  have e2 : (Num.fin 3) = 3 := by decide!
  have e3 : Num.fin (6965098298705183 / 70368744177664) = 9898 / 100 := by decide!
  have e4 : (Num.fin 30) = 30 := by decide!
  have e5 : (Num.fin 2) = 2 := by decide!
  have e6 : Num.fin (91 / 2) = 455 / 10 := by decide!
  rw [e1, e2, e3] at h
  rw [e4, e5, e6] at g
  exact ⟨h, g⟩

/-! ## The claims -/

/-- Claim C1, failing input: the text `75 spots 3 boxes @3` holds the phrases
`75 spots`, `3 boxes` and `@3`, and `sniffBreak` returns no cost per box and
the list `missing` with `cost per box`.  The pattern of rule 2 asks for a word
boundary before the `@`, so an `@` after a space is not seen; the price is left
to rule 5, which drops the 3 as equal to the boxes.  In `75 spots 3 boxes @92 5`
rule 5 takes the last number, 5, and not the 92 after the `@`; an `@` that
follows a letter is seen. -/
theorem sniffBreak_at_sign_after_space :
    containsText "75 spots" "75 spots 3 boxes @3" = true ∧
    containsText "3 boxes" "75 spots 3 boxes @3" = true ∧
    containsText "@3" "75 spots 3 boxes @3" = true ∧
    (sniffBreak "75 spots 3 boxes @3").data =
      { spots := some 75, boxes := some 3, costPerBox := none } ∧
    (sniffBreak "75 spots 3 boxes @3").missing = ["cost per box"] ∧
    (sniffBreak "75 spots 3 boxes @92 5").data =
      { spots := some 75, boxes := some 3, costPerBox := some 5 } ∧
    (sniffBreak "75 spots 3 boxes@92 5").data =
      { spots := some 75, boxes := some 3, costPerBox := some 92 } := by
  decide!

/-- Claim C2: the documented example, end to end.  The extractor returns
`{75, 3, 92}` with nothing missing, and the calculator, with fee rate 0.08,
transaction fee 0.30, supplies 0.10 and shipping 1.00 per spot, returns product
cost 276, transaction fees 22.5, supplies 7.5, break-even revenue `306 / 0.92`,
printed as 332.61, and break-even per spot `306 / 0.92 / 75`, printed as 4.43.
The numbers are doubles and the two quotients are quotients of doubles: they
are the doubles written out below, which differ from the exact quotients
`306 / 0.92` and `306 / 0.92 / 75` by less than `10^(-13)`. -/
theorem documented_example :
    sniffBreak "75 spots 3 boxes at 92 each" =
      { data := { spots := some 75, boxes := some 3, costPerBox := some 92 }, missing := [],
        normalized := "75 spots 3 boxes at 92 each".toList } ∧
    (calculateBreakdown exampleFees (sniffBreak "75 spots 3 boxes at 92 each").data).productCost
      = 276 ∧
    (calculateBreakdown exampleFees (sniffBreak "75 spots 3 boxes at 92 each").data).txFees
      = 225 / 10 ∧
    (calculateBreakdown exampleFees (sniffBreak "75 spots 3 boxes at 92 each").data).supplies
      = 75 / 10 ∧
    (calculateBreakdown exampleFees
      (sniffBreak "75 spots 3 boxes at 92 each").data).breakevenRevenueNoShip
      = 306 / (92 / 100) ∧
    money (306 / (92 / 100) : Num).toAmount = MoneyText.fixed "$332.61" ∧
    (calculateBreakdown exampleFees
      (sniffBreak "75 spots 3 boxes at 92 each").data).breakevenPerSpotNoShip
      = 306 / (92 / 100) / 75 ∧
    money (306 / (92 / 100) / 75 : Num).toAmount = MoneyText.fixed "$4.43" ∧
    (225 / 10 : Num) = .fin (45 / 2) ∧ (75 / 10 : Num) = .fin (15 / 2) ∧
    (306 / (92 / 100) : Num) = .fin (2925657026951791 / 8796093022208) ∧
    |(2925657026951791 / 8796093022208 : ℚ) - 306 / (92 / 100)| < 1 / 10 ^ 13 ∧
    (306 / (92 / 100) / 75 : Num) = .fin (4993121325997723 / 1125899906842624) ∧
    |(4993121325997723 / 1125899906842624 : ℚ) - 306 / (92 / 100) / 75| < 1 / 10 ^ 13 := by
  decide!

/-- Claim C3, counterexample: for the record `{2, 1, 7.25}` and the fees of the
documented example the formula of the break-even price per spot has the exact
value 4.375, printed as `$4.38`, also when the fees are taken with the exact
values of their doubles.  `calculateBreakdown` returns the double
4.374999999999999, which is less and is printed as `$4.37`: every operation
rounds its result to a double. -/
theorem calculateBreakdown_rounds_each_step :
    exampleFees.feeRate = .fin (5764607523034235 / 72057594037927936) ∧
    exampleFees.txFee = .fin (5404319552844595 / 18014398509481984) ∧
    exampleFees.suppliesPerSpot = some (.fin (3602879701896397 / 36028797018963968)) ∧
    (725 / 100 : Num) = .fin (29 / 4) ∧
    exactPerSpotNoShip (8 / 100) (30 / 100) (10 / 100) 2 1 (725 / 100) = 35 / 8 ∧
    money (some (exactPerSpotNoShip (8 / 100) (30 / 100) (10 / 100) 2 1 (725 / 100))) =
      MoneyText.fixed "$4.38" ∧
    money (some (exactPerSpotNoShip (5764607523034235 / 72057594037927936)
      (5404319552844595 / 18014398509481984) (3602879701896397 / 36028797018963968)
      2 1 (29 / 4))) = MoneyText.fixed "$4.38" ∧
    (calculateBreakdown exampleFees ⟨some 2, some 1, some (725 / 100)⟩).breakevenPerSpotNoShip =
      .fin (4925812092436479 / 1125899906842624) ∧
    (4925812092436479 / 1125899906842624 : ℚ) < 35 / 8 ∧
    money (calculateBreakdown exampleFees
      ⟨some 2, some 1, some (725 / 100)⟩).breakevenPerSpotNoShip.toAmount =
      MoneyText.fixed "$4.37" := by
  decide!

/-- Claim C3, as amended: for every record and every fee schedule,
`calculateBreakdown` returns the product cost, the fees, the supplies, the
shipping and the four break-even figures given by the formulas of the claim
evaluated in double arithmetic: each product, sum, difference and quotient is
the exact result rounded to the nearest double (an infinity on overflow, and
`NaN` or an infinity for a divisor zero).  Nothing else is rounded: no figure is
rounded to cents. -/
theorem calculateBreakdown_formulas (config : FeeSchedule) (spots boxes costPerBox : Num) :
    (calculateBreakdown config ⟨some spots, some boxes, some costPerBox⟩).productCost =
      boxes * costPerBox ∧
    (calculateBreakdown config ⟨some spots, some boxes, some costPerBox⟩).txFees =
      spots * config.txFee ∧
    (calculateBreakdown config ⟨some spots, some boxes, some costPerBox⟩).supplies =
      spots * config.suppliesPerSpot.getD 0 ∧
    (calculateBreakdown config ⟨some spots, some boxes, some costPerBox⟩).shipping =
      spots * config.shipPerSpot.getD 0 ∧
    (calculateBreakdown config ⟨some spots, some boxes, some costPerBox⟩).breakevenRevenueNoShip =
      (boxes * costPerBox + spots * config.txFee + spots * config.suppliesPerSpot.getD 0) /
        (1 - config.feeRate) ∧
    (calculateBreakdown config ⟨some spots, some boxes, some costPerBox⟩).breakevenPerSpotNoShip =
      (boxes * costPerBox + spots * config.txFee + spots * config.suppliesPerSpot.getD 0) /
        (1 - config.feeRate) / spots ∧
    (calculateBreakdown config
        ⟨some spots, some boxes, some costPerBox⟩).breakevenRevenueWithShip =
      (boxes * costPerBox + spots * config.txFee + spots * config.suppliesPerSpot.getD 0 +
        spots * config.shipPerSpot.getD 0) / (1 - config.feeRate) ∧
    (calculateBreakdown config
        ⟨some spots, some boxes, some costPerBox⟩).breakevenPerSpotWithShip =
      (boxes * costPerBox + spots * config.txFee + spots * config.suppliesPerSpot.getD 0 +
        spots * config.shipPerSpot.getD 0) / (1 - config.feeRate) / spots :=
  ⟨rfl, rfl, rfl, rfl, rfl, rfl, rfl, rfl⟩

/-- Claim C4, counterexample: in the text `75 spots 3 boxes 99…9 50`, with a
numeral of 310 digits `9`, the spots and the boxes are found by label and rules
2 to 4 find no price.  The rule of the claim gives a price: the tokens other
than 75 and 3 are the whole number `10^310 - 1` and 50, so the price is the last
one, 50; and with the long numeral read as the double `Infinity`, which is not
an integer for `Number.isInteger`, the price is that token.  `sniffBreak`
stores no price: it takes `Infinity` and then replaces it by `null`, because it
is not finite, and the cost per box is missing.  In the second text the numeral
9007199254740993 is read as the double 9007199254740992, equal to the spots, and
is dropped: the rule of the claim on the numerals gives 9007199254740993,
`sniffBreak` gives nothing. -/
theorem sniffBreak_overflow_token :
    labeledSpots (sniffBreak overflowText).normalized = some 75 ∧
    labeledBoxes (sniffBreak overflowText).normalized = some 3 ∧
    priceAfterTimes (sniffBreak overflowText).normalized = none ∧
    exactTokens (sniffBreak overflowText).normalized = [75, 3, 10 ^ 310 - 1, 50] ∧
    disambiguateExact (exactTokens (sniffBreak overflowText).normalized) 75 3 = some 50 ∧
    numericTokens (sniffBreak overflowText).normalized = [75, 3, .posInf, 50] ∧
    disambiguate (numericTokens (sniffBreak overflowText).normalized) 75 3 = some .posInf ∧
    (sniffBreak overflowText).data = { spots := some 75, boxes := some 3, costPerBox := none } ∧
    (sniffBreak overflowText).missing = ["cost per box"] ∧
    disambiguateExact
      (exactTokens (sniffBreak "9007199254740992 spots 3 boxes 9007199254740993").normalized)
      9007199254740992 3 = some 9007199254740993 ∧
    (sniffBreak "9007199254740992 spots 3 boxes 9007199254740993").data =
      { spots := some 9007199254740992, boxes := some 3, costPerBox := none } := by
  decide!

/-- Claim C4, as amended: when spots and boxes are found by label and rules 2 to
4 leave the price unset, the price is chosen from the numeric tokens of the
normalized text read as doubles (a numeral may be rounded, and is `Infinity`
from `2^1024` on), other than those equal as doubles to the spots or to the
boxes: the first one that is not a whole number, where `Infinity` is not a
whole number, or else the last one, or else nothing.  Each of the three values
is stored only if it is finite, and is `null` otherwise.  So
`75 spots 3 boxes 98.98` gives the price 98.98 with 75 spots, 3 boxes and
nothing missing. -/
theorem sniffBreak_disambiguation :
    (∀ (input : String) (s b : Num),
      labeledSpots (sniffBreak input).normalized = some s →
      labeledBoxes (sniffBreak input).normalized = some b →
      priceAfterTimes (sniffBreak input).normalized = none →
      (sniffBreak input).data.spots = finiteOrNull (some s) ∧
      (sniffBreak input).data.boxes = finiteOrNull (some b) ∧
      (sniffBreak input).data.costPerBox =
        finiteOrNull (disambiguate (numericTokens (sniffBreak input).normalized) s b)) ∧
    sniffBreak "75 spots 3 boxes 98.98" =
      { data := { spots := some 75, boxes := some 3, costPerBox := some (9898 / 100) },
        missing := [], normalized := "75 spots 3 boxes 98.98".toList } := by
  refine ⟨?_, by decide!⟩
  intro input s b hs hb hp
  have hn : (sniffBreak input).normalized = normalize input.toList := rfl
  rw [hn] at hs hb hp ⊢
  unfold priceAfterTimes at hp
  have h1 := afterTimes_boxes_some (normalize input.toList) b
    (priceAfterPerBox (normalize input.toList))
  rw [hb] at hp
  have h2 := afterLoose_eq_disambiguate (normalize input.toList) s b
    (pickNum_ne_nan _ _ s hs) (pickNum_ne_nan _ _ b hb)
  show (sniffData (normalize input.toList)).spots = _ ∧
    (sniffData (normalize input.toList)).boxes = _ ∧
    (sniffData (normalize input.toList)).costPerBox = _
  simp only [sniffData, hs, hb, h1, hp, h2, afterABox]
  simp

/-- Claim C4, witness: the tokens `5.0` and `2.00` equal the spots and the boxes
and are dropped, no other token has decimals, and the last one, `8`, is the
price. -/
theorem sniffBreak_disambiguation_witness :
    labeledSpots (sniffBreak "5 spots 2 boxes 5.0 2.00 7 8").normalized = some 5 ∧
    labeledBoxes (sniffBreak "5 spots 2 boxes 5.0 2.00 7 8").normalized = some 2 ∧
    priceAfterTimes (sniffBreak "5 spots 2 boxes 5.0 2.00 7 8").normalized = none ∧
    disambiguate (numericTokens (sniffBreak "5 spots 2 boxes 5.0 2.00 7 8").normalized) 5 2
      = some 8 ∧
    (sniffBreak "5 spots 2 boxes 5.0 2.00 7 8").data.costPerBox =
      finiteOrNull
        (disambiguate (numericTokens (sniffBreak "5 spots 2 boxes 5.0 2.00 7 8").normalized) 5 2) :=
  ⟨by decide!, by decide!, by decide!, by decide!,
    (sniffBreak_disambiguation.1 "5 spots 2 boxes 5.0 2.00 7 8" 5 2
      (by decide!) (by decide!) (by decide!)).2.2⟩

/-- Claim C5: the `missing` list of `sniffBreak` is the list of the labels
`spots`, `boxes`, `cost per box`, in this order, of the fields of the returned
record that are not a number greater than zero; it is empty exactly when all
three fields are positive.  A field of the returned record is `null` or a finite
number. -/
theorem sniffBreak_missing (input : String) :
    (sniffBreak input).missing =
      labelsWhere (fun x => !present x)
        [("spots", (sniffBreak input).data.spots), ("boxes", (sniffBreak input).data.boxes),
         ("cost per box", (sniffBreak input).data.costPerBox)] ∧
    ((sniffBreak input).missing = [] ↔
      present (sniffBreak input).data.spots = true ∧ present (sniffBreak input).data.boxes = true ∧
      present (sniffBreak input).data.costPerBox = true) ∧
    (nullOrFinite (sniffBreak input).data.spots ∧ nullOrFinite (sniffBreak input).data.boxes ∧
      nullOrFinite (sniffBreak input).data.costPerBox) :=
  ⟨missingOf_eq _, missingOf_nil_iff _,
    nullOrFinite_finiteOrNull _, nullOrFinite_finiteOrNull _, nullOrFinite_finiteOrNull _⟩

/-- Claim C6, counterexample: for `0 spots` the field `spots` of the record is
the number 0: it is neither `null` nor positive. -/
theorem sniffBreak_stores_zero :
    (sniffBreak "0 spots").data.spots = some 0 ∧
    ¬ ((sniffBreak "0 spots").data.spots = none ∨
       ∃ v, (sniffBreak "0 spots").data.spots = some v ∧ 0 < v) := by
  have h : (sniffBreak "0 spots").data.spots = some 0 := by decide!
  refine ⟨h, ?_⟩
  rw [h]
  simp [Num.zero_eq, Num.fin_lt_fin]

/-- Claim C6, as amended: each field of the record returned by `sniffBreak` is
`null` or a number that is not negative; a field that holds zero is kept as the
number 0 and its label is on the `missing` list. -/
theorem sniffBreak_fields_nonneg (input : String) :
    (nullOrNonneg (sniffBreak input).data.spots ∧ nullOrNonneg (sniffBreak input).data.boxes ∧
      nullOrNonneg (sniffBreak input).data.costPerBox) ∧
    ((sniffBreak input).data.spots = some 0 → "spots" ∈ (sniffBreak input).missing) ∧
    ((sniffBreak input).data.boxes = some 0 → "boxes" ∈ (sniffBreak input).missing) ∧
    ((sniffBreak input).data.costPerBox = some 0 → "cost per box" ∈ (sniffBreak input).missing) :=
  ⟨sniffData_nonneg _, missingOf_of_zero _⟩

/-- Claim C6, witness: the text `0 spots`. -/
theorem sniffBreak_fields_nonneg_witness :
    (sniffBreak "0 spots").data.spots = some 0 ∧ "spots" ∈ (sniffBreak "0 spots").missing :=
  ⟨by decide!, (sniffBreak_fields_nonneg "0 spots").2.1 (by decide!)⟩

/-- Claim C7, counterexample: with the comma deleted the text has 1500 spots,
and `sniffBreak` on the text with the comma returns 500 spots. -/
theorem sniffBreak_comma_splits_number :
    deleteCurrency "1,500 spots 3 boxes at 92" = "1500 spots 3 boxes at 92" ∧
    (sniffBreak "1,500 spots 3 boxes at 92").data.spots = some 500 ∧
    (sniffBreak (deleteCurrency "1,500 spots 3 boxes at 92")).data.spots = some 1500 ∧
    (sniffBreak "1,500 spots 3 boxes at 92").data ≠
      (sniffBreak (deleteCurrency "1,500 spots 3 boxes at 92")).data := by
  decide!

/-- Claim C7, as amended: `sniffBreak` returns the same result for a text and for
the same text with every `$` and `,` replaced by a space. -/
theorem sniffBreak_blankCurrency (input : String) :
    sniffBreak (blankCurrency input) = sniffBreak input := by
  simp only [sniffBreak, blankCurrency, String.toList, normalize_stripCurrency]

/-- Rule 4 fills only what rules 1 to 3 of the code left unset: a number of
boxes found by the pattern of rule 1 is kept, a price found by the patterns of
rules 2 and 3 is kept, and when the pattern `A x B` occurs in the text the boxes
are those of rule 1 or else `A`, and the price is the one of rules 2 and 3 or
else `B`; each is stored if it is finite. -/
theorem afterTimes_fills_unset (input : String) :
    (∀ b, labeledBoxes (sniffBreak input).normalized = some b →
      (sniffBreak input).data.boxes = finiteOrNull (some b)) ∧
    (∀ p, priceAfterPerBox (sniffBreak input).normalized = some p →
      (sniffBreak input).data.costPerBox = finiteOrNull (some p)) ∧
    (∀ m, reTimes.exec (sniffBreak input).normalized = some m →
      (sniffBreak input).data.boxes = finiteOrNull
        (some ((labeledBoxes (sniffBreak input).normalized).getD (toNumber (m.group 1)))) ∧
      (sniffBreak input).data.costPerBox = finiteOrNull
        (some ((priceAfterPerBox (sniffBreak input).normalized).getD
          (toNumber (m.group 2))))) := by
  show (∀ b, labeledBoxes (normalize input.toList) = some b →
        (sniffData (normalize input.toList)).boxes = finiteOrNull (some b)) ∧
      (∀ p, priceAfterPerBox (normalize input.toList) = some p →
        (sniffData (normalize input.toList)).costPerBox = finiteOrNull (some p)) ∧
      (∀ m, reTimes.exec (normalize input.toList) = some m →
        (sniffData (normalize input.toList)).boxes = finiteOrNull
          (some ((labeledBoxes (normalize input.toList)).getD (toNumber (m.group 1)))) ∧
        (sniffData (normalize input.toList)).costPerBox = finiteOrNull
          (some ((priceAfterPerBox (normalize input.toList)).getD (toNumber (m.group 2)))))
  generalize normalize input.toList = n
  refine ⟨?_, ?_, ?_⟩
  · intro b hb
    simp [sniffData, hb, afterTimes_boxes_some, afterABox]
  · intro p hp
    simp [sniffData, hp, afterTimes_price_some, afterLoose]
  · intro m hm
    cases hb : labeledBoxes n <;> cases hp : priceAfterPerBox n <;>
      simp [sniffData, hb, hp, hm, afterTimes, afterLoose, afterABox]

/-- Claim C8, failing inputs: in `30 spots 2 box 3 x 98.98` the labeled value
`2 box` is not found, because the pattern of rule 1 is `boxes?` and asks for the
letters `boxe`, while rule 3 of the same function reads `box(?:es)?`; the boxes
are then the `A = 3` of `3 x 98.98`, not the labeled 2.  In
`30 spots 3 x 50 @92` the price `@92` is not found, because the pattern of
rule 2 asks for a word boundary before the `@`; the price is then the `B = 50`,
not 92.  On the two examples of the claim, with `boxes` and `at`, the result is
the one of the claim. -/
theorem sniffBreak_times_overwrites :
    labeledBoxes (sniffBreak "30 spots 2 box 3 x 98.98").normalized = none ∧
    (sniffBreak "30 spots 2 box 3 x 98.98").data =
      { spots := some 30, boxes := some 3, costPerBox := some (9898 / 100) } ∧
    priceAfterPerBox (sniffBreak "30 spots 3 x 50 @92").normalized = none ∧
    (sniffBreak "30 spots 3 x 50 @92").data =
      { spots := some 30, boxes := some 3, costPerBox := some 50 } ∧
    (sniffBreak "30 spots 2 boxes 3 x 98.98").data =
      { spots := some 30, boxes := some 2, costPerBox := some (9898 / 100) } ∧
    (sniffBreak "30 spots 3 x 50 at 92").data =
      { spots := some 30, boxes := some 3, costPerBox := some 92 } := by
  decide!

/-- Claim C9: `startBreakdownWizard` sets `needed` to the absent fields (`null`
or zero) in the order spots, boxes, costPerBox, and `step` to the first of them,
or to `done`; for a record without negative numbers, as `sniffBreak` returns
them, the absent fields are the fields that are not a positive number.  A wizard
started with only the spots known asks for the boxes, and after any answer that
is not a complete command and whose first number is a positive whole number it
asks for the cost per box. -/
theorem startBreakdownWizard_order :
    (∀ (partialData : BreakData) (now : ℕ),
      (startBreakdownWizard partialData now).needed =
        labelsWhere absent [("spots", partialData.spots), ("boxes", partialData.boxes),
          ("costPerBox", partialData.costPerBox)] ∧
      (startBreakdownWizard partialData now).step =
        ((startBreakdownWizard partialData now).needed.head?).getD "done") ∧
    (∀ (partialData : BreakData) (now : ℕ),
      nullOrNonneg partialData.spots → nullOrNonneg partialData.boxes →
      nullOrNonneg partialData.costPerBox →
      (startBreakdownWizard partialData now).needed =
        labelsWhere (fun x => !present x) [("spots", partialData.spots),
          ("boxes", partialData.boxes), ("costPerBox", partialData.costPerBox)]) ∧
    (∀ (s : Num) (now : ℕ), 0 < s →
      (startBreakdownWizard ⟨some s, none, none⟩ now).step = "boxes" ∧
      ∀ (answer : String) (v : Num) (later : ℕ),
        (sniffBreak answer).missing ≠ [] → answerValue answer = some v →
        0 < v → isInteger v = true →
        (advanceBreakdownWizard (startBreakdownWizard ⟨some s, none, none⟩ now) answer later).step
          = "costPerBox") := by
  have hneeded : ∀ (d : BreakData) (now : ℕ), (startBreakdownWizard d now).needed =
      labelsWhere absent [("spots", d.spots), ("boxes", d.boxes),
        ("costPerBox", d.costPerBox)] := by
    intro d now
    simp only [startBreakdownWizard, neededOf, truthy_eq, labelsWhere, List.filter]
    cases absent d.spots <;> cases absent d.boxes <;> cases absent d.costPerBox <;> rfl
  refine ⟨fun d now => ⟨hneeded d now, rfl⟩, ?_, ?_⟩
  · intro d now h1 h2 h3
    rw [hneeded d now]
    simp only [labelsWhere, List.filter, absent_eq_of_nonneg _ h1, absent_eq_of_nonneg _ h2,
      absent_eq_of_nonneg _ h3]
  · intro s now hs
    have hs0 : truthy (some s) = true := truthy_of_zero_lt s hs
    have hn0 : truthy (none : Option Num) = false := rfl
    have hstart : startBreakdownWizard ⟨some s, none, none⟩ now =
        ⟨"boxes", ["boxes", "costPerBox"], ⟨some s, none, none⟩, now, promptForStep "boxes", []⟩ := by
      simp [startBreakdownWizard, neededOf, hs0, hn0]
    refine ⟨by rw [hstart], ?_⟩
    intro answer v later hm hv hpos hint
    have hv0 : truthy (some v) = true := truthy_of_zero_lt v hpos
    have hlen : ¬ (sniffBreak answer).missing.length = 0 := by
      simpa [List.length_eq_zero] using hm
    rw [hstart]
    simp [advanceBreakdownWizard, hlen, hv, applyValue, hv0, hpos, neededOf,
      trunc_of_isInteger v hint, hs0, hn0]

/-- Claim C9, witness: 75 spots known, and the answer `3 please, 2 spare`. -/
theorem startBreakdownWizard_order_witness :
    (0 : Num) < 75 ∧ (sniffBreak "3 please, 2 spare").missing ≠ [] ∧
    answerValue "3 please, 2 spare" = some 3 ∧
    (advanceBreakdownWizard (startBreakdownWizard ⟨some 75, none, none⟩ 0)
        "3 please, 2 spare" 1).step = "costPerBox" :=
  ⟨by decide!, by decide!, by decide!,
    (startBreakdownWizard_order.2.2 75 0 (by decide!)).2 "3 please, 2 spare" 3 1
      (by decide!) (by decide!) (by decide!) (by decide!)⟩

/-- Claim C10: when the answer is a complete command, `advanceBreakdownWizard`
returns the step `done` and exactly the record parsed from the answer, whatever
the step and the record of the session were. -/
theorem advance_complete_command (session : Session) (t : String) (now : ℕ)
    (h : (sniffBreak t).missing = []) :
    (advanceBreakdownWizard session t now).step = "done" ∧
    (advanceBreakdownWizard session t now).data = (sniffBreak t).data := by
  simp [advanceBreakdownWizard, h]

/-- Claim C10, witness: a session that holds 10 spots and asks for the boxes;
the record of the answer has 75 spots. -/
theorem advance_complete_command_witness :
    (sniffBreak "75 spots 3 boxes at 92").missing = [] ∧
    (advanceBreakdownWizard ⟨"boxes", ["boxes", "costPerBox"], ⟨some 10, none, none⟩, 0, "", []⟩
        "75 spots 3 boxes at 92" 5).step = "done" ∧
    (advanceBreakdownWizard ⟨"boxes", ["boxes", "costPerBox"], ⟨some 10, none, none⟩, 0, "", []⟩
        "75 spots 3 boxes at 92" 5).data = (sniffBreak "75 spots 3 boxes at 92").data :=
  ⟨by decide!, advance_complete_command _ _ _ (by decide!)⟩

/-- Claim C11: for an answer that is not a complete command and whose first
numeric token `v` is positive, `advanceBreakdownWizard` sets the field named by
the step to `trunc v` (spots, boxes) or to `v` (costPerBox) and leaves the other
two fields of the record as they were. -/
theorem advance_sets_field (session : Session) (answer : String) (v : Num) (now : ℕ)
    (hm : (sniffBreak answer).missing ≠ []) (hv : answerValue answer = some v) (hpos : 0 < v) :
    (session.step = "spots" →
      (advanceBreakdownWizard session answer now).data =
        { spots := some (trunc v), boxes := session.data.boxes,
          costPerBox := session.data.costPerBox }) ∧
    (session.step = "boxes" →
      (advanceBreakdownWizard session answer now).data =
        { spots := session.data.spots, boxes := some (trunc v),
          costPerBox := session.data.costPerBox }) ∧
    (session.step = "costPerBox" →
      (advanceBreakdownWizard session answer now).data =
        { spots := session.data.spots, boxes := session.data.boxes,
          costPerBox := some v }) := by
  rw [advance_data_of_incomplete session answer now hm, hv, applyValue_of_pos _ v _ hpos]
  refine ⟨fun h => ?_, fun h => ?_, fun h => ?_⟩
  · simp [h]
  · simp [h]
  · simp [h]

/-- Claim C11, witness: the answer `2.75 please` at the step boxes stores 2
boxes and keeps the 75 spots and the price 92. -/
theorem advance_sets_field_witness :
    (sniffBreak "2.75 please").missing ≠ [] ∧ answerValue "2.75 please" = some (275 / 100) ∧
    (0 : Num) < 275 / 100 ∧
    (advanceBreakdownWizard ⟨"boxes", ["boxes"], ⟨some 75, none, some 92⟩, 0, "", []⟩
        "2.75 please" 1).data = { spots := some 75, boxes := some 2, costPerBox := some 92 } := by
  have h := (advance_sets_field ⟨"boxes", ["boxes"], ⟨some 75, none, some 92⟩, 0, "", []⟩
    "2.75 please" (275 / 100) 1 (by decide!) (by decide!) (by decide!)).2.1 rfl
  have e : trunc (275 / 100) = 2 := by decide!
  rw [e] at h
  exact ⟨by decide!, by decide!, by decide!, h⟩

/-- Claim C12, counterexample: a session that asks for the cost per box, its
first missing field, and whose prompt is the notice (the session reached from
75 spots and 3 boxes by the answer `idk`).  The answer `92` is not a complete
command and holds a usable number; the session returned is `done` and its
prompt is still the notice. -/
theorem advance_keeps_stale_notice :
    advanceBreakdownWizard (startBreakdownWizard ⟨some 75, some 3, none⟩ 0) "idk" 1 =
      ⟨"costPerBox", ["costPerBox"], ⟨some 75, some 3, none⟩, 1, noNumberNotice, []⟩ ∧
    neededOf (⟨some 75, some 3, none⟩ : BreakData) = ["costPerBox"] ∧
    (sniffBreak "92").missing ≠ [] ∧ answerValue "92" = some 92 ∧
    (advanceBreakdownWizard
      ⟨"costPerBox", ["costPerBox"], ⟨some 75, some 3, none⟩, 1, noNumberNotice, []⟩ "92" 2).step
        = "done" ∧
    (advanceBreakdownWizard
      ⟨"costPerBox", ["costPerBox"], ⟨some 75, some 3, none⟩, 1, noNumberNotice, []⟩ "92" 2).prompt
        = noNumberNotice := by
  decide!

/-- Claim C12, as amended: let the step of the session be its first missing
field and the answer not a complete command.  When the answer has no usable
number (no numeric token, or a first token equal to 0), the record and the step
stay as they were and the prompt is the notice.  Conversely, when the session
returned is not `done`, its prompt is the notice only if the answer has no
usable number. -/
theorem advance_no_number :
    (∀ (session : Session) (answer : String) (now : ℕ) (rest : List String),
      neededOf session.data = session.step :: rest →
      (sniffBreak answer).missing ≠ [] →
      (answerValue answer = none ∨ answerValue answer = some 0) →
      (advanceBreakdownWizard session answer now).data = session.data ∧
      (advanceBreakdownWizard session answer now).step = session.step ∧
      (advanceBreakdownWizard session answer now).prompt = noNumberNotice) ∧
    (∀ (session : Session) (answer : String) (now : ℕ),
      (sniffBreak answer).missing ≠ [] →
      (advanceBreakdownWizard session answer now).step ≠ "done" →
      (advanceBreakdownWizard session answer now).prompt = noNumberNotice →
      (answerValue answer = none ∨ answerValue answer = some 0)) := by
  have hfalsy : ∀ answer : String, truthy (answerValue answer) = false ↔
      (answerValue answer = none ∨ answerValue answer = some 0) := by
    intro answer
    have hnan := answerValue_ne_nan answer
    cases hx : answerValue answer with
    | none => simp [truthy]
    | some v =>
      cases v with
      | fin q => simp [truthy, Num.zero_eq]
      | posInf => simp [truthy, Num.zero_eq]
      | negInf => simp [truthy, Num.zero_eq]
      | nan => exact absurd hx hnan
  constructor
  · intro session answer now rest hstep hm hv
    have ht := (hfalsy _).2 hv
    have hd := applyValue_of_falsy session.step _ session.data ht
    have hn : neededOf (applyValue session.step (answerValue answer) session.data) =
        session.step :: rest := by rw [hd, hstep]
    rw [advance_of_needed_cons session answer now _ rest hm hn]
    simp [hd, ht]
  · intro session answer now hm hstep hp
    cases hd : neededOf (applyValue session.step (answerValue answer) session.data) with
    | nil =>
      rw [advance_of_needed_nil session answer now hm hd] at hstep
      exact absurd rfl hstep
    | cons x xs =>
      rw [advance_of_needed_cons session answer now x xs hm hd] at hp
      apply (hfalsy _).1
      by_contra hne
      have ht : truthy (answerValue answer) = true := by simpa using hne
      simp only [ht, if_true] at hp
      exact promptForStep_ne_notice x hp

/-- Claim C12, witness: the answer `0 maybe` at the step boxes. -/
theorem advance_no_number_witness :
    neededOf (⟨some 75, none, none⟩ : BreakData) = ["boxes", "costPerBox"] ∧
    (sniffBreak "0 maybe").missing ≠ [] ∧ answerValue "0 maybe" = some 0 ∧
    (advanceBreakdownWizard ⟨"boxes", ["boxes", "costPerBox"], ⟨some 75, none, none⟩, 0,
        promptForStep "boxes", []⟩ "0 maybe" 1).data = ⟨some 75, none, none⟩ ∧
    (advanceBreakdownWizard ⟨"boxes", ["boxes", "costPerBox"], ⟨some 75, none, none⟩, 0,
        promptForStep "boxes", []⟩ "0 maybe" 1).step = "boxes" ∧
    (advanceBreakdownWizard ⟨"boxes", ["boxes", "costPerBox"], ⟨some 75, none, none⟩, 0,
        promptForStep "boxes", []⟩ "0 maybe" 1).prompt = noNumberNotice :=
  ⟨by decide!, by decide!, by decide!,
    advance_no_number.1 ⟨"boxes", ["boxes", "costPerBox"], ⟨some 75, none, none⟩, 0,
        promptForStep "boxes", []⟩ "0 maybe" 1 ["costPerBox"] (by decide!) (by decide!)
      (Or.inr (by decide!))⟩

/-- Claim C13, failing input: the fields of the session are `null` or positive,
the answer `0.5` passes the guard `value > 0`, and the number stored for the
boxes is `Math.trunc(0.5)`, which is 0; the wizard asks for the boxes again,
without the notice. -/
theorem advance_stores_zero_count :
    answerValue "0.5" = some (1 / 2) ∧
    (advanceBreakdownWizard ⟨"boxes", ["boxes", "costPerBox"], ⟨some 75, none, none⟩, 0,
        promptForStep "boxes", []⟩ "0.5" 1).data = ⟨some 75, some 0, none⟩ ∧
    (advanceBreakdownWizard ⟨"boxes", ["boxes", "costPerBox"], ⟨some 75, none, none⟩, 0,
        promptForStep "boxes", []⟩ "0.5" 1).step = "boxes" ∧
    (advanceBreakdownWizard ⟨"boxes", ["boxes", "costPerBox"], ⟨some 75, none, none⟩, 0,
        promptForStep "boxes", []⟩ "0.5" 1).prompt = promptForStep "boxes" := by
  decide!

/-- Claim C14: when `sniffBreak` reports nothing missing, the three fields of
its record are positive; and whenever a session reached from
`startBreakdownWizard (sniffBreak t).data` by any answers is at the step `done`,
the three fields of its record are positive.  For a record with three positive
fields the numbers that `calculateBreakdown` works with are positive, and its
divisor `spots` is not zero. -/
theorem calculator_precondition :
    (∀ (t : String), (sniffBreak t).missing = [] → allPresent (sniffBreak t).data) ∧
    (∀ (t : String) (now : ℕ) (answers : List (String × ℕ)),
      (runWizard (startBreakdownWizard (sniffBreak t).data now) answers).step = "done" →
      allPresent (runWizard (startBreakdownWizard (sniffBreak t).data now) answers).data) ∧
    (∀ (config : FeeSchedule) (d : BreakData), allPresent d →
      (0 < (calculateBreakdown config d).spots ∧ 0 < (calculateBreakdown config d).boxes ∧
       0 < (calculateBreakdown config d).costPerBox) ∧
      (calculateBreakdown config d).spots ≠ 0 ∧
      (calculateBreakdown config d).breakevenPerSpotNoShip =
        (calculateBreakdown config d).breakevenRevenueNoShip /
          (calculateBreakdown config d).spots ∧
      (calculateBreakdown config d).breakevenPerSpotWithShip =
        (calculateBreakdown config d).breakevenRevenueWithShip /
          (calculateBreakdown config d).spots) := by
  refine ⟨fun t h => (missingOf_nil_iff _).1 h, ?_, ?_⟩
  · intro t now answers hstep
    exact (wizardInv_run answers _
      (wizardInv_start (sniffBreak t).data now (sniffData_nonneg _))).2 hstep
  · intro config d hd
    obtain ⟨s, b, c⟩ := d
    obtain ⟨h1, h2, h3⟩ := hd
    cases s with
    | none => simp [present] at h1
    | some s =>
      cases b with
      | none => simp [present] at h2
      | some b =>
        cases c with
        | none => simp [present] at h3
        | some c =>
          have hs : 0 < s := by simpa [present] using h1
          have hb : 0 < b := by simpa [present] using h2
          have hc : 0 < c := by simpa [present] using h3
          refine ⟨⟨hs, hb, hc⟩, ?_, rfl, rfl⟩
          intro h0
          have h0' : s = 0 := h0
          rw [h0'] at hs
          exact absurd hs (by decide!)

/-- Claim C14, witness: the trigger `breakdown 75 spots` and the answers `3`
and `92`; the record reached is `{75, 3, 92}` and the divisor is 75.  And the
trigger `breakdown 75 spots 3 boxes` with an answer of 310 digits `9`: the
price stored is `Infinity`, which is positive. -/
theorem calculator_precondition_witness :
    ((runWizard (startBreakdownWizard (sniffBreak "breakdown 75 spots").data 0)
      [("3", 1), ("92", 2)]).step = "done" ∧
    (runWizard (startBreakdownWizard (sniffBreak "breakdown 75 spots").data 0)
      [("3", 1), ("92", 2)]).data = ⟨some 75, some 3, some 92⟩ ∧
    allPresent (runWizard (startBreakdownWizard (sniffBreak "breakdown 75 spots").data 0)
      [("3", 1), ("92", 2)]).data ∧
    (calculateBreakdown exampleFees ⟨some 75, some 3, some 92⟩).spots ≠ 0) ∧
    ((runWizard (startBreakdownWizard (sniffBreak "breakdown 75 spots 3 boxes").data 0)
      [(ninesText, 1)]).step = "done" ∧
    (runWizard (startBreakdownWizard (sniffBreak "breakdown 75 spots 3 boxes").data 0)
      [(ninesText, 1)]).data = ⟨some 75, some 3, some .posInf⟩ ∧
    allPresent (runWizard (startBreakdownWizard (sniffBreak "breakdown 75 spots 3 boxes").data 0)
      [(ninesText, 1)]).data) :=
  ⟨⟨by decide!, by decide!,
    calculator_precondition.2.1 "breakdown 75 spots" 0 [("3", 1), ("92", 2)] (by decide!),
    (calculator_precondition.2.2 exampleFees ⟨some 75, some 3, some 92⟩
      ⟨by decide!, by decide!, by decide!⟩).2.1⟩,
   ⟨by decide!, by decide!,
    calculator_precondition.2.1 "breakdown 75 spots 3 boxes" 0 [(ninesText, 1)] (by decide!)⟩⟩

/-- C15: the two handlers take a stored session for expired exactly when
`now - startedAt ≥ TTL`, with a TTL of 120000 ms in the breakdown feature and
of 240000 ms in the show board (a difference equal to the TTL is expired).  On
an expired session the run of the handler equals, in the store it leaves, in
its outcome and in its calls, the run on the store without the session; an
answer-shaped text is then left unhandled and nothing is applied to the old
record.  On a session that is not expired an answer-shaped text is applied to
the stored session. -/
theorem expired_session_not_resumed :
    SESSION_TTL_MS = 120000 ∧ Show.SHOW_SESSION_TTL_MS = 240000 ∧
    (∀ ttl now startedAt : ℕ,
      isExpired ttl now startedAt = true ↔ (ttl : ℤ) ≤ (now : ℤ) - (startedAt : ℤ)) ∧
    (∀ (config : FeeSchedule) (p : Platform) (now : ℕ) (sessions : Store Wizard)
      (message : Message) (existing : Wizard),
      message.authorBot = false → sessions message.authorId = some existing →
      (isExpired SESSION_TTL_MS now existing.session.startedAt = true →
        handleMessage config p now sessions message =
          handleMessage config p now (sessions.erase message.authorId) message ∧
        (isAnswer message.content = true →
          handleMessage config p now sessions message =
            ⟨sessions.erase message.authorId, .returned false, []⟩)) ∧
      (isExpired SESSION_TTL_MS now existing.session.startedAt = false →
        isAnswer message.content = true →
        handleMessage config p now sessions message =
          answerWizard config p now sessions message existing)) ∧
    (∀ (config : Show.ShowConfig) (p : Platform) (f : Show.Forum) (now : ℕ)
      (sessions : Store Show.ShowSession) (message : Message) (guildId : String)
      (existing : Show.ShowSession),
      message.authorBot = false → message.guildId = some guildId →
      sessions (Show.sessionKey guildId message) = some existing →
      (isExpired Show.SHOW_SESSION_TTL_MS now existing.startedAt = true →
        Show.handleMessage config p f now sessions message =
          Show.handleMessage config p f now
            (sessions.erase (Show.sessionKey guildId message)) message ∧
        (isAnswer message.content = true →
          Show.handleMessage config p f now sessions message =
            ⟨sessions.erase (Show.sessionKey guildId message), .returned false, []⟩)) ∧
      (isExpired Show.SHOW_SESSION_TTL_MS now existing.startedAt = false →
        isAnswer message.content = true →
        Show.handleMessage config p f now sessions message =
          Show.answerShow config p f now sessions message guildId existing)) := by
  refine ⟨rfl, rfl, isExpired_iff, ?_, ?_⟩
  · intro config p now sessions message existing hbot hs
    refine ⟨fun hexp => ⟨?_, fun ha => ?_⟩, fun hexp ha => ?_⟩
    · rw [handleMessage_expired config p now sessions message existing hbot hs hexp,
        handleMessage_absent config p now _ message hbot (Store.erase_self _ _)]
    · rw [handleMessage_expired config p now sessions message existing hbot hs hexp,
        handleCommand_of_answer config p now _ message ha]
    · exact handleMessage_answer config p now sessions message existing hbot hs hexp ha
  · intro config p f now sessions message guildId existing hbot hg hs
    refine ⟨fun hexp => ⟨?_, fun ha => ?_⟩, fun hexp ha => ?_⟩
    · rw [show_handleMessage_expired config p f now sessions message guildId existing hbot hg
          hs hexp,
        show_handleMessage_absent config p f now _ message guildId hbot hg
          (Store.erase_self _ _)]
    · rw [show_handleMessage_expired config p f now sessions message guildId existing hbot hg
          hs hexp,
        show_handleCommand_of_answer p now _ message guildId ha]
    · exact show_handleMessage_answer config p f now sessions message guildId existing hbot hg
        hs hexp ha

/-- C15 at the boundary: a breakdown session started at time 0 that waits for
the cost per box, and the answer `92` at time 120000.  The session is expired
and the answer is left unhandled; one millisecond earlier the session is not
expired. -/
theorem expired_session_not_resumed_witness :
    isExpired SESSION_TTL_MS 119999 0 = false ∧
    isExpired SESSION_TTL_MS 120000 0 = true ∧
    isAnswer "92" = true ∧
    handleMessage exampleFees
      ⟨.ok "r", .ok (), .ok (), .ok "d", ⟨fun _ _ => .ok (), fun _ _ => .ok ()⟩⟩ 120000
      (Store.set Store.empty "u"
        ⟨⟨"costPerBox", ["costPerBox"], ⟨some 75, some 3, none⟩, 0,
          promptForStep "costPerBox", ["m0", "m1"]⟩, none⟩)
      ⟨false, "u", none, "c", "m2", "92"⟩ =
      ⟨(Store.set Store.empty "u"
        ⟨⟨"costPerBox", ["costPerBox"], ⟨some 75, some 3, none⟩, 0,
          promptForStep "costPerBox", ["m0", "m1"]⟩, none⟩).erase "u", .returned false, []⟩ :=
  ⟨by decide, by decide, by decide,
    ((expired_session_not_resumed.2.2.2.1 exampleFees
      ⟨.ok "r", .ok (), .ok (), .ok "d", ⟨fun _ _ => .ok (), fun _ _ => .ok ()⟩⟩ 120000
      (Store.set Store.empty "u"
        ⟨⟨"costPerBox", ["costPerBox"], ⟨some 75, some 3, none⟩, 0,
          promptForStep "costPerBox", ["m0", "m1"]⟩, none⟩)
      ⟨false, "u", none, "c", "m2", "92"⟩
      ⟨⟨"costPerBox", ["costPerBox"], ⟨some 75, some 3, none⟩, 0,
          promptForStep "costPerBox", ["m0", "m1"]⟩, none⟩ rfl rfl).1 (by decide)).2 (by decide)⟩

/-- C16, the claim as written fails: `money` of the finite number `10^21` is
not a numeral with two digits after the point; `toFixed` returns the exponent
notation of the number from `10^21` on (`"$1e+21"`). -/
theorem money_large_is_exponent :
    money (some ((10 : ℚ) ^ 21)) = MoneyText.exponent ((10 : ℚ) ^ 21) := by
  have h : toFixed2 ((10 : ℚ) ^ 21) = none := by
    unfold toFixed2
    rw [if_pos (by rw [abs_of_nonneg (by positivity)])]
  unfold money
  simp only [h]

/-- C16, amended: `money` of a non-finite value is the placeholder dash, and
for every number `x` with `|x| < 10^21` the text `money(x)` is the marker `$`,
a minus sign when `x < 0`, the digits of a whole part (at least one), a point
and exactly two digits; the numeral printed is `|x|` rounded to the nearest
hundredth, upward from the middle.  `money` is a total function, so it never
throws, and every amount in the text of `formatBreakdown` is put there through
`money`. -/
theorem money_two_decimals :
    money none = MoneyText.dash ∧
    (∀ x : ℚ, |x| < (10 : ℚ) ^ 21 →
      ∃ (whole : List Char) (d1 d2 : Char),
        isDigits whole ∧ isDigit d1 = true ∧ isDigit d2 = true ∧
        money (some x) = MoneyText.fixed
          (String.mk ('$' :: ((if x < 0 then ['-'] else []) ++ whole ++ ['.', d1, d2]))) ∧
        |x| - 1 / 200 <
          (natOfDigits whole : ℚ) + ((10 * digitVal d1 + digitVal d2 : ℕ) : ℚ) / 100 ∧
        (natOfDigits whole : ℚ) + ((10 * digitVal d1 + digitVal d2 : ℕ) : ℚ) / 100 ≤
          |x| + 1 / 200) ∧
    (∀ (r : Report) (m : MoneyText), Piece.amount m ∈ formatBreakdown r → ∃ a, m = money a) := by
  refine ⟨rfl, ?_, ?_⟩
  · intro x hx
    refine ⟨natText ((⌊|x| * 100 + 1 / 2⌋).toNat / 100),
      digitChar ((⌊|x| * 100 + 1 / 2⌋).toNat / 10 % 10),
      digitChar ((⌊|x| * 100 + 1 / 2⌋).toNat % 10),
      natText_digits _, digitChar_isDigit _, digitChar_isDigit _, ?_, ?_⟩
    · exact money_of_small x hx
    · rw [natOfDigits_natText, digitVal_digitChar _ (Nat.mod_lt _ (by norm_num)),
        digitVal_digitChar _ (Nat.mod_lt _ (by norm_num)), cents_split]
      exact cents_near |x| (abs_nonneg x)
  · exact amounts_formatBreakdown

/-- C16, amended, at `x = -1234.565`: the text is `$-1234.57`. -/
theorem money_two_decimals_witness :
    |(-1234565 / 1000 : ℚ)| < (10 : ℚ) ^ 21 ∧
    money (some (-1234565 / 1000)) = MoneyText.fixed "$-1234.57" ∧
    ∃ (whole : List Char) (d1 d2 : Char),
      isDigits whole ∧ isDigit d1 = true ∧ isDigit d2 = true ∧
      money (some (-1234565 / 1000 : ℚ)) = MoneyText.fixed
        (String.mk ('$' :: ((if (-1234565 / 1000 : ℚ) < 0 then ['-'] else []) ++ whole ++
          ['.', d1, d2]))) ∧
      |(-1234565 / 1000 : ℚ)| - 1 / 200 <
        (natOfDigits whole : ℚ) + ((10 * digitVal d1 + digitVal d2 : ℕ) : ℚ) / 100 ∧
      (natOfDigits whole : ℚ) + ((10 * digitVal d1 + digitVal d2 : ℕ) : ℚ) / 100 ≤
        |(-1234565 / 1000 : ℚ)| + 1 / 200 :=
  ⟨by rw [abs_lt]; constructor <;> norm_num, by decide!,
    money_two_decimals.2.1 _ (by rw [abs_lt]; constructor <;> norm_num)⟩

/-- C17: at the link step, an answer that is `skip` or `none` after trimming
and lower-casing stores `link = null` and leaves every other field of the
session as it was, and the receipt of a record whose link is `null` holds the
line `**Link:** (none)`; any other answer stores its trimmed text as the link,
and the receipt of a record with a link holds that text after `**Link:** `. -/
theorem show_link_optional :
    (∀ (session : Show.ShowSession) (rawText : String), Show.currentStep session = "link" →
      (lowerText (trimText rawText) = "skip" ∨ lowerText (trimText rawText) = "none") →
      Show.applyAnswer session (Show.currentStep session) rawText =
        { session with data := { session.data with link := none } }) ∧
    (∀ (session : Show.ShowSession) (rawText : String), Show.currentStep session = "link" →
      ¬ (lowerText (trimText rawText) = "skip" ∨ lowerText (trimText rawText) = "none") →
      Show.applyAnswer session (Show.currentStep session) rawText =
        { session with data := { session.data with link := some (trimText rawText) } }) ∧
    (∀ (action : String) (data : Show.ShowData) (threadUrl : Option String), data.link = none →
      hasLine (Show.receiptText action data threadUrl) "**Link:** (none)\n") ∧
    (∀ (action : String) (data : Show.ShowData) (threadUrl : Option String) (t : String),
      data.link = some t →
      hasLine (Show.receiptText action data threadUrl) ("**Link:** " ++ t ++ "\n")) := by
  refine ⟨?_, ?_, ?_, ?_⟩
  · intro session rawText hstep h
    rw [hstep, Show.applyAnswer]
    simp only [if_true, if_pos h]
  · intro session rawText hstep h
    rw [hstep, Show.applyAnswer]
    simp only [if_true, if_neg h]
  · intro action data threadUrl h
    refine ⟨receiptHead action data, receiptTail threadUrl, ?_⟩
    rw [receiptText_split, h]
    rfl
  · intro action data threadUrl t h
    refine ⟨receiptHead action data, receiptTail threadUrl, ?_⟩
    rw [receiptText_split, h]
    rfl

/-- C17 on the answer `  Skip ` at the link step. -/
theorem show_link_optional_witness :
    Show.currentStep ⟨4, ⟨some "ace", some "Jan 9", some "7pm", some "hobby boxes", none, []⟩, 0, []⟩
      = "link" ∧
    (lowerText (trimText "  Skip ") = "skip" ∨ lowerText (trimText "  Skip ") = "none") ∧
    Show.applyAnswer ⟨4, ⟨some "ace", some "Jan 9", some "7pm", some "hobby boxes", none, []⟩, 0, []⟩
      (Show.currentStep
        ⟨4, ⟨some "ace", some "Jan 9", some "7pm", some "hobby boxes", none, []⟩, 0, []⟩)
      "  Skip " =
      ⟨4, ⟨some "ace", some "Jan 9", some "7pm", some "hobby boxes", none, []⟩, 0, []⟩ :=
  ⟨by decide, Or.inl (by decide),
    show_link_optional.1 _ "  Skip " (by decide) (Or.inl (by decide))⟩

/-- C18: the command `mw show` followed by five answers of the same author in
the same channel, each handled before the session expires and none of them a
cancel word or a command, the first four not empty after trimming, with every
reply of the bot delivered.  The six runs of the handler reply with the
prompts for whatnotName, date, time, description and link, in this order, and
store the trimmed answers one by one; after the fourth answer the record is
complete but the session stays stored, at the link step; the run on the fifth
answer is the last step of the wizard (`publishShow`) on the record that holds
the four trimmed answers and the link (`null` for `skip` and `none`): it
leaves no session stored and its calls hold no prompt. -/
theorem show_flow (config : Show.ShowConfig) (sessions : Store Show.ShowSession)
    (g c u i0 i1 i2 i3 i4 i5 a1 a2 a3 a4 a5 r0 r1 r2 r3 r4 : String)
    (p0 p1 p2 p3 p4 p5 : Platform) (f0 f1 f2 f3 f4 f5 : Show.Forum) (t0 t1 t2 t3 t4 t5 : ℕ)
    (hp0 : p0.reply = .ok r0) (hp1 : p1.reply = .ok r1) (hp2 : p2.reply = .ok r2)
    (hp3 : p3.reply = .ok r3) (hp4 : p4.reply = .ok r4)
    (ha1 : isAnswer a1 = true) (ha2 : isAnswer a2 = true) (ha3 : isAnswer a3 = true)
    (ha4 : isAnswer a4 = true) (ha5 : isAnswer a5 = true)
    (hn1 : trimText a1 ≠ "") (hn2 : trimText a2 ≠ "") (hn3 : trimText a3 ≠ "")
    (hn4 : trimText a4 ≠ "")
    (he1 : isExpired Show.SHOW_SESSION_TTL_MS t1 t0 = false)
    (he2 : isExpired Show.SHOW_SESSION_TTL_MS t2 t1 = false)
    (he3 : isExpired Show.SHOW_SESSION_TTL_MS t3 t2 = false)
    (he4 : isExpired Show.SHOW_SESSION_TTL_MS t4 t3 = false)
    (he5 : isExpired Show.SHOW_SESSION_TTL_MS t5 t4 = false) :
    runShow config sessions
      [(p0, f0, t0, ⟨false, u, some g, c, i0, "mw show"⟩),
       (p1, f1, t1, ⟨false, u, some g, c, i1, a1⟩),
       (p2, f2, t2, ⟨false, u, some g, c, i2, a2⟩),
       (p3, f3, t3, ⟨false, u, some g, c, i3, a3⟩),
       (p4, f4, t4, ⟨false, u, some g, c, i4, a4⟩),
       (p5, f5, t5, ⟨false, u, some g, c, i5, a5⟩)] =
      [⟨sessions.set (g ++ ":" ++ c ++ ":" ++ u)
          ⟨0, ⟨none, none, none, none, none, []⟩, t0, [i0, r0]⟩,
          .returned true, [.reply (Show.promptFor "whatnotName")]⟩,
       ⟨sessions.set (g ++ ":" ++ c ++ ":" ++ u)
          ⟨1, ⟨some (trimText a1), none, none, none, none, []⟩, t1, [i0, r0, i1, r1]⟩,
          .returned true, [.reply (Show.promptFor "date")]⟩,
       ⟨sessions.set (g ++ ":" ++ c ++ ":" ++ u)
          ⟨2, ⟨some (trimText a1), some (trimText a2), none, none, none, []⟩, t2,
            [i0, r0, i1, r1, i2, r2]⟩,
          .returned true, [.reply (Show.promptFor "time")]⟩,
       ⟨sessions.set (g ++ ":" ++ c ++ ":" ++ u)
          ⟨3, ⟨some (trimText a1), some (trimText a2), some (trimText a3), none, none, []⟩, t3,
            [i0, r0, i1, r1, i2, r2, i3, r3]⟩,
          .returned true, [.reply (Show.promptFor "description")]⟩,
       ⟨sessions.set (g ++ ":" ++ c ++ ":" ++ u)
          ⟨4, ⟨some (trimText a1), some (trimText a2), some (trimText a3), some (trimText a4),
            none, []⟩, t4, [i0, r0, i1, r1, i2, r2, i3, r3, i4, r4]⟩,
          .returned true, [.reply (Show.promptFor "link")]⟩,
       Show.publishShow config p5 f5 (sessions.erase (g ++ ":" ++ c ++ ":" ++ u))
          ⟨false, u, some g, c, i5, a5⟩ g
          ⟨5, ⟨some (trimText a1), some (trimText a2), some (trimText a3), some (trimText a4),
            linkOf a5, []⟩, t5, [i0, r0, i1, r1, i2, r2, i3, r3, i4, r4, i5]⟩] ∧
    (Show.publishShow config p5 f5 (sessions.erase (g ++ ":" ++ c ++ ":" ++ u))
          ⟨false, u, some g, c, i5, a5⟩ g
          ⟨5, ⟨some (trimText a1), some (trimText a2), some (trimText a3), some (trimText a4),
            linkOf a5, []⟩, t5, [i0, r0, i1, r1, i2, r2, i3, r3, i4, r4, i5]⟩).sessions
        (g ++ ":" ++ c ++ ":" ++ u) = none ∧
    ∀ step : String, Show.ShowEffect.reply (Show.promptFor step) ∉
      (Show.publishShow config p5 f5 (sessions.erase (g ++ ":" ++ c ++ ":" ++ u))
          ⟨false, u, some g, c, i5, a5⟩ g
          ⟨5, ⟨some (trimText a1), some (trimText a2), some (trimText a3), some (trimText a4),
            linkOf a5, []⟩, t5, [i0, r0, i1, r1, i2, r2, i3, r3, i4, r4, i5]⟩).effects := by
  have hk : ∀ i a : String, Show.sessionKey g ⟨false, u, some g, c, i, a⟩ =
      g ++ ":" ++ c ++ ":" ++ u := fun _ _ => rfl
  refine ⟨?_, ?_, fun step => publishShow_no_prompt _ _ _ _ _ _ _ step⟩
  · have h0 := show_handleMessage_start config p0 f0 t0 sessions
      ⟨false, u, some g, c, i0, "mw show"⟩ g r0 rfl rfl rfl hp0
    rw [hk] at h0
    have h1 := show_handleMessage_answer config p1 f1 t1
      (sessions.set (g ++ ":" ++ c ++ ":" ++ u)
        ⟨0, ⟨none, none, none, none, none, []⟩, t0, [i0, r0]⟩)
      ⟨false, u, some g, c, i1, a1⟩ g _ rfl rfl (Store.set_self _ _ _) he1 ha1
    rw [answerShow_name config p1 f1 t1 t0 _ _ g r1 _ hp1, hk, Store.set_set] at h1
    have h2 := show_handleMessage_answer config p2 f2 t2
      (sessions.set (g ++ ":" ++ c ++ ":" ++ u)
        ⟨1, ⟨some (trimText a1), none, none, none, none, []⟩, t1, [i0, r0] ++ [i1, r1]⟩)
      ⟨false, u, some g, c, i2, a2⟩ g _ rfl rfl (Store.set_self _ _ _) he2 ha2
    rw [answerShow_date config p2 f2 t2 t1 _ _ g r2 _ _ hp2, hk, Store.set_set] at h2
    have h3 := show_handleMessage_answer config p3 f3 t3
      (sessions.set (g ++ ":" ++ c ++ ":" ++ u)
        ⟨2, ⟨some (trimText a1), some (trimText a2), none, none, none, []⟩, t2,
          [i0, r0] ++ [i1, r1] ++ [i2, r2]⟩)
      ⟨false, u, some g, c, i3, a3⟩ g _ rfl rfl (Store.set_self _ _ _) he3 ha3
    rw [answerShow_time config p3 f3 t3 t2 _ _ g r3 _ _ _ hp3, hk, Store.set_set] at h3
    have h4 := show_handleMessage_answer config p4 f4 t4
      (sessions.set (g ++ ":" ++ c ++ ":" ++ u)
        ⟨3, ⟨some (trimText a1), some (trimText a2), some (trimText a3), none, none, []⟩, t3,
          [i0, r0] ++ [i1, r1] ++ [i2, r2] ++ [i3, r3]⟩)
      ⟨false, u, some g, c, i4, a4⟩ g _ rfl rfl (Store.set_self _ _ _) he4 ha4
    rw [answerShow_description config p4 f4 t4 t3 _ _ g r4 _ _ _ _ hp4 hn1 hn2 hn3 hn4, hk,
      Store.set_set] at h4
    have h5 := show_handleMessage_answer config p5 f5 t5
      (sessions.set (g ++ ":" ++ c ++ ":" ++ u)
        ⟨4, ⟨some (trimText a1), some (trimText a2), some (trimText a3), some (trimText a4),
          none, []⟩, t4, [i0, r0] ++ [i1, r1] ++ [i2, r2] ++ [i3, r3] ++ [i4, r4]⟩)
      ⟨false, u, some g, c, i5, a5⟩ g _ rfl rfl (Store.set_self _ _ _) he5 ha5
    rw [answerShow_link config p5 f5 t5 t4 _ _ g _ _ _ _ _ hn1 hn2 hn3 hn4, hk,
      Store.erase_set] at h5
    simp only [runShow]
    rw [h0]
    simp only []
    rw [h1]
    simp only []
    rw [h2]
    simp only []
    rw [h3]
    simp only []
    rw [h4]
    simp only []
    rw [h5]
    rfl
  · rw [publishShow_sessions, Store.erase_self]

/-- C18 on the answers `ace`, ` Jan 9`, `7pm `, `hobby boxes` and `Skip`, one
second apart: the session is at the steps 0 to 4 after the command and the
first four answers, complete only after the fourth, and gone after the fifth. -/
theorem show_flow_witness :
    (isAnswer "ace" = true ∧ isAnswer " Jan 9" = true ∧ isAnswer "7pm " = true ∧
      isAnswer "hobby boxes" = true ∧ isAnswer "Skip" = true) ∧
    (trimText "ace" ≠ "" ∧ trimText " Jan 9" ≠ "" ∧ trimText "7pm " ≠ "" ∧
      trimText "hobby boxes" ≠ "") ∧
    isExpired Show.SHOW_SESSION_TTL_MS 1000 0 = false ∧
    sessionStates "g:c:u" (runShow ⟨some "forum"⟩ Store.empty
      [(platformOk "r0", forumOk, 0, ⟨false, "u", some "g", "c", "m0", "mw show"⟩),
       (platformOk "r1", forumOk, 1000, ⟨false, "u", some "g", "c", "m1", "ace"⟩),
       (platformOk "r2", forumOk, 2000, ⟨false, "u", some "g", "c", "m2", " Jan 9"⟩),
       (platformOk "r3", forumOk, 3000, ⟨false, "u", some "g", "c", "m3", "7pm "⟩),
       (platformOk "r4", forumOk, 4000, ⟨false, "u", some "g", "c", "m4", "hobby boxes"⟩),
       (platformOk "r5", forumOk, 5000, ⟨false, "u", some "g", "c", "m5", "Skip"⟩)]) =
      [some (0, false), some (1, false), some (2, false), some (3, false), some (4, true),
        none] ∧
    (Show.publishShow ⟨some "forum"⟩ (platformOk "r5") forumOk
      (Store.erase Store.empty ("g" ++ ":" ++ "c" ++ ":" ++ "u"))
      ⟨false, "u", some "g", "c", "m5", "Skip"⟩ "g"
      ⟨5, ⟨some (trimText "ace"), some (trimText " Jan 9"), some (trimText "7pm "),
        some (trimText "hobby boxes"), linkOf "Skip", []⟩, 5000,
        ["m0", "r0", "m1", "r1", "m2", "r2", "m3", "r3", "m4", "r4", "m5"]⟩).sessions
      ("g" ++ ":" ++ "c" ++ ":" ++ "u") = none :=
  ⟨by decide, by decide, by decide, by decide!,
    (show_flow ⟨some "forum"⟩ Store.empty "g" "c" "u" "m0" "m1" "m2" "m3" "m4" "m5"
      "ace" " Jan 9" "7pm " "hobby boxes" "Skip" "r0" "r1" "r2" "r3" "r4"
      (platformOk "r0") (platformOk "r1") (platformOk "r2") (platformOk "r3") (platformOk "r4")
      (platformOk "r5") forumOk forumOk forumOk forumOk forumOk forumOk 0 1000 2000 3000 4000
      5000 rfl rfl rfl rfl rfl (by decide) (by decide) (by decide) (by decide) (by decide)
      (by decide) (by decide) (by decide) (by decide) (by decide) (by decide) (by decide)
      (by decide) (by decide)).2.1⟩

/-- C19, failing input: the command `mw show`, then a message with no text
(an attachment alone), then `Jan 9`, `7pm`, `hobby boxes` and `skip`, then one
more message.  The first answer stores the empty string as the name, so the
record never counts as complete: after the fifth answer the session is still
stored, with step index 5 (the number of steps), the handler only replies
`Got it.`, and the next message is taken as one more answer and moves the
index to 6. -/
theorem show_wizard_stuck :
    sessionStates "g:c:u"
      (runShow ⟨some "forum"⟩ Store.empty
        [(platformOk "r0", forumOk, 0, ⟨false, "u", some "g", "c", "m0", "mw show"⟩),
         (platformOk "r1", forumOk, 1000, ⟨false, "u", some "g", "c", "m1", ""⟩),
         (platformOk "r2", forumOk, 2000, ⟨false, "u", some "g", "c", "m2", "Jan 9"⟩),
         (platformOk "r3", forumOk, 3000, ⟨false, "u", some "g", "c", "m3", "7pm"⟩),
         (platformOk "r4", forumOk, 4000, ⟨false, "u", some "g", "c", "m4", "hobby boxes"⟩),
         (platformOk "r5", forumOk, 5000, ⟨false, "u", some "g", "c", "m5", "skip"⟩),
         (platformOk "r6", forumOk, 6000, ⟨false, "u", some "g", "c", "m6", "hello?"⟩)]) =
      [some (0, false), some (1, false), some (2, false), some (3, false), some (4, false),
        some (5, false), some (6, false)] ∧
    (runShow ⟨some "forum"⟩ Store.empty
        [(platformOk "r0", forumOk, 0, ⟨false, "u", some "g", "c", "m0", "mw show"⟩),
         (platformOk "r1", forumOk, 1000, ⟨false, "u", some "g", "c", "m1", ""⟩),
         (platformOk "r2", forumOk, 2000, ⟨false, "u", some "g", "c", "m2", "Jan 9"⟩),
         (platformOk "r3", forumOk, 3000, ⟨false, "u", some "g", "c", "m3", "7pm"⟩),
         (platformOk "r4", forumOk, 4000, ⟨false, "u", some "g", "c", "m4", "hobby boxes"⟩),
         (platformOk "r5", forumOk, 5000, ⟨false, "u", some "g", "c", "m5", "skip"⟩),
         (platformOk "r6", forumOk, 6000, ⟨false, "u", some "g", "c", "m6", "hello?"⟩)]).map
      (fun r => (r.outcome, r.effects)) =
      [(.returned true, [.reply (Show.promptFor "whatnotName")]),
       (.returned true, [.reply (Show.promptFor "date")]),
       (.returned true, [.reply (Show.promptFor "time")]),
       (.returned true, [.reply (Show.promptFor "description")]),
       (.returned true, [.reply (Show.promptFor "link")]),
       (.returned true, [.reply "🧠🥞 Got it."]),
       (.returned true, [.reply "🧠🥞 Got it."])] ∧
    Show.STEPS.length = 5 := by
  decide!

/-- C20: for every channel (whose fetches and deletions may fail for any of
the identifiers), every trail and every identifier to keep, `pruneWizardTrail`
returns without raising, and its calls are, for each identifier of the trail
that it works on, once and in the order of the trail, a fetch followed by a
deletion when the fetch succeeded, whatever the outcome of the earlier calls.
The identifiers it works on are those that are not `null`, not the empty
string (`!id` skips both) and not the identifier to keep; in a trail without
empty strings these are exactly the non-null identifiers different from the
one to keep.  `pruneTrail` of the show board does the same with nothing to
keep. -/
theorem prune_best_effort (channel : Channel) (messageIds : List (Option String))
    (keepId : Option String) :
    (pruneWizardTrail channel messageIds keepId).2 = .ok () ∧
    (pruneWizardTrail channel messageIds keepId).1 =
      callsOn channel (pruneTargets messageIds keepId) ∧
    fetchedIds (pruneWizardTrail channel messageIds keepId).1 =
      messageIds.filterMap (pruneTarget keepId) ∧
    ((∀ id ∈ messageIds, id ≠ some "") →
      fetchedIds (pruneWizardTrail channel messageIds keepId).1 =
        messageIds.filterMap (fun id => if id = keepId then none else id)) ∧
    Show.pruneTrail channel messageIds = pruneWizardTrail channel messageIds none := by
  have hf : fetchedIds (pruneWizardTrail channel messageIds keepId).1 =
      messageIds.filterMap (pruneTarget keepId) := by
    rw [pruneWizardTrail_eq, fetchedIds_callsOn, pruneTargets_ids]
  refine ⟨?_, ?_, hf, ?_, ?_⟩
  · rw [pruneWizardTrail_eq]
  · rw [pruneWizardTrail_eq]
  · intro h
    rw [hf]
    apply List.filterMap_congr
    intro id hid
    exact pruneTarget_of_nonempty keepId id (h id hid)
  · rw [pruneTrail_eq, pruneWizardTrail_eq]

/-- C20 on a trail of five entries, one of them `null` and one the identifier
to keep, in a channel where nothing can be fetched: the three other
identifiers are fetched, in order. -/
theorem prune_best_effort_witness :
    (∀ id ∈ [some "a", none, some "b", some "k", some "c"], id ≠ some "") ∧
    fetchedIds (pruneWizardTrail ⟨fun _ _ => .error "gone", fun _ _ => .ok ()⟩
      [some "a", none, some "b", some "k", some "c"] (some "k")).1 =
      [some "a", none, some "b", some "k", some "c"].filterMap
        (fun id => if id = some "k" then none else id) :=
  ⟨by decide, (prune_best_effort _ _ _).2.2.2.1 (by decide)⟩

/-- C21: let a session be reached from `startBreakdownWizard` by any answers.
While it is not `done`, an answer that consists of a whole number of at least 1
lowers the number of fields still asked for by one.  A session started by
`startBreakdownWizard` has at most three fields on its needed list, and after
as many whole-number answers as that list is long (or more) the step is
`done`.  Whatever the answer, the needed list of the session returned by
`advanceBreakdownWizard` is not longer than the one of the session it was
called with. -/
theorem wizard_progress :
    (∀ (d : BreakData) (now : ℕ) (answers : List (String × ℕ)) (a : String) (t : ℕ),
      isWholeAnswer a →
      (runWizard (startBreakdownWizard d now) answers).step ≠ "done" →
      missingCount
          (advanceBreakdownWizard (runWizard (startBreakdownWizard d now) answers) a t) + 1 =
        missingCount (runWizard (startBreakdownWizard d now) answers)) ∧
    (∀ (d : BreakData) (now : ℕ) (answers : List (String × ℕ)),
      (∀ a ∈ answers, isWholeAnswer a.1) →
      (startBreakdownWizard d now).needed.length ≤ answers.length →
      (runWizard (startBreakdownWizard d now) answers).step = "done") ∧
    (∀ (d : BreakData) (now : ℕ), (startBreakdownWizard d now).needed.length ≤ 3) ∧
    (∀ (d : BreakData) (now : ℕ) (answers : List (String × ℕ)) (a : String) (t : ℕ),
      (advanceBreakdownWizard (runWizard (startBreakdownWizard d now) answers) a t).needed.length
        ≤ (runWizard (startBreakdownWizard d now) answers).needed.length) := by
  refine ⟨?_, ?_, ?_, ?_⟩
  · intro d now answers a t ha hstep
    have hk := (runWizard_start_inv d now answers).1
    have hne : neededOf (runWizard (startBreakdownWizard d now) answers).data ≠ [] := by
      intro h
      apply hstep
      rw [hk]
      exact stepOf_of_nil _ (by rw [h]; rfl)
    rw [missingCount, advance_whole _ a t hk ha, List.length_tail, missingCount]
    have := List.length_pos.2 hne
    omega
  · intro d now answers ha hlen
    have h := runWizard_whole answers (startBreakdownWizard d now) (start_stepOf d now).1 ha
    rw [h.1]
    apply stepOf_of_nil
    have h2 := h.2
    rw [missingCount, missingCount, ← (start_stepOf d now).2] at h2
    omega
  · intro d now
    rw [(start_stepOf d now).2]
    exact neededOf_length_le _
  · intro d now answers a t
    have h := runWizard_start_inv d now answers
    exact (advance_needed_le _ a t h.1 h.2).1

/-- C21 on the record with 75 spots and the answers `3` and `92`: two fields
are asked for, and after the two answers the step is `done`. -/
theorem wizard_progress_witness :
    (∀ a ∈ [("3", 1), ("92", 2)], isWholeAnswer a.1) ∧
    (startBreakdownWizard ⟨some 75, none, none⟩ 0).needed.length ≤
      [("3", 1), ("92", 2)].length ∧
    (runWizard (startBreakdownWizard ⟨some 75, none, none⟩ 0) [("3", 1), ("92", 2)]).step =
      "done" :=
  ⟨by simp [isWholeAnswer, isDigits]; decide, by decide,
    wizard_progress.2.1 ⟨some 75, none, none⟩ 0 [("3", 1), ("92", 2)]
      (by simp [isWholeAnswer, isDigits]; decide) (by decide)⟩

end Breakdown
